import Mathlib

/-!
# Blox_assesment: the JSON parser of Question1/Answer1.cpp

A shallow embedding of `Answer1.cpp`.

* A `std::string` is a `List Char`, one `Char` per C++ `char`; `size_t` cursors are `Nat`
  (a cursor never exceeds `json.size() + 5`, so no wrap-around can occur).
* `json[pos]` is `charAt`: the character for `pos < size`, the terminator NUL for
  `pos = size`, and `none` for `pos > size`, where the C++ read is undefined behaviour.
* A function that can throw returns `Except Err _`; the cursor `size_t& pos` is threaded
  explicitly: a successful call returns the value together with the new cursor.
* The mutually recursive `parseValue` / `parseObject` / `parseArray` and their `while` loops
  recurse structurally on a fuel counter; `parseJSON` supplies `3 * size + 6`.
* `std::cout` output of `Value::print` is the returned `List Char`.
* GMP's `mpz_class` is `Int`; `mpf_class` is modelled by the exact decimal value it is
  constructed from (see `mpf_class` below).
-/

namespace Answer1

/-! ## Failures -/

/-- The ways a call can fail to return. The five `runtime_error`s carry the message of
the source in their doc comment. -/
inductive Err where
  /-- Thrown at Answer1.cpp:111, "Expected string key". -/
  | expectedStringKey
  /-- Thrown at Answer1.cpp:118, "Expected ':' after key". -/
  | expectedColon
  /-- Thrown at Answer1.cpp:128, "Expected '}' at the end of object". -/
  | expectedObjectEnd
  /-- Thrown at Answer1.cpp:148, "Expected ']' at the end of array". -/
  | expectedArrayEnd
  /-- Thrown at Answer1.cpp:194, "Invalid JSON value". -/
  | invalidJSONValue
  /-- Thrown by `mpz_class(const std::string&)`: `std::invalid_argument("mpz_set_str")`. -/
  | mpzInvalidArgument
  /-- Thrown by `mpf_class(const std::string&)`: `std::invalid_argument("mpf_set_str")`. -/
  | mpfInvalidArgument
  /-- A read `json[pos]` with `pos > json.size()`: undefined behaviour in C++. -/
  | readPastEnd
  /-- The fuel of the embedding ran out (no counterpart in the source). -/
  | outOfFuel
  deriving DecidableEq, Repr

/-! ## GMP: `mpz_class` and `mpf_class` -/

/-- GMP's `__gmp_digit_value_tab` for bases up to 36: the value of a digit character,
255 for a character that is no digit. -/
def digit_value (c : Char) : Nat :=
  if 48 ≤ c.toNat ∧ c.toNat ≤ 57 then c.toNat - 48
  else if 97 ≤ c.toNat ∧ c.toNat ≤ 122 then c.toNat - 97 + 10
  else if 65 ≤ c.toNat ∧ c.toNat ≤ 90 then c.toNat - 65 + 10
  else 255

/-- The digit conversion at the end of `mpz_set_str`: every character must be a digit
below `base`; the digits are accumulated most significant first. -/
def mpn_set_str (base : Nat) : List Char → Nat → Option Nat
  | [], acc => some acc
  | c :: cs, acc =>
    if digit_value c ≥ base then none
    else mpn_set_str base cs (acc * base + digit_value c)

/-- GMP's `mpz_set_str (x, str, 0)`, which `mpz_class(const std::string& s, int base = 0)`
calls; `none` is its return value -1, on which the constructor throws
`std::invalid_argument`. With base 0 the leading characters choose the base:
`0x`/`0X` hexadecimal, `0b`/`0B` binary, `0` octal, decimal otherwise. An optional `-`
comes first and at least one decimal digit must follow it. (GMP also skips white space;
the number branch of `parseValue` never passes any, and it is not modelled.) -/
def mpz_set_str (str : List Char) : Option Int :=
  let negative := str.head? == some '-'
  let s := if negative then str.drop 1 else str
  match s with
  | [] => none
  | c :: r =>
    if digit_value c ≥ 10 then none
    else
      let bs : Nat × List Char :=
        if c = '0' then
          match r with
          | 'x' :: r2 => (16, r2)
          | 'X' :: r2 => (16, r2)
          | 'b' :: r2 => (2, r2)
          | 'B' :: r2 => (2, r2)
          | _ => (8, r)
        else (10, s)
      match mpn_set_str bs.1 (bs.2.dropWhile (· == '0')) 0 with
      | none => none
      | some n => some (if negative then -(n : Int) else (n : Int))

/-- GMP's `mpz_class::get_str()` (base 10): the decimal digits, most significant first,
no leading zero, a leading `-` for a negative number. -/
def mpz_get_str (z : Int) : List Char :=
  if z < 0 then '-' :: Nat.toDigits 10 z.natAbs else Nat.toDigits 10 z.natAbs

/-- An `mpf_class` value, modelled by what `get_str(exp)` shows of it: a sign, the
significant decimal digits `d1 d2 ... dn` (no leading and no trailing zero; empty for
zero) and the decimal exponent `exp`, standing for `0.d1d2...dn * 10^exp`.

The model is exact. GMP keeps a binary mantissa of limited precision, so the model agrees
with GMP on the values GMP holds exactly with few digits (1.5, 0.25, -2.5, 10.0, ...)
and is more precise than GMP elsewhere. -/
structure mpf_class where
  negative : Bool
  digits : List Char
  exp : Int
  deriving DecidableEq, Repr

/-- Whether `c` is one of `0` .. `9` (GMP's digit test in base 10). -/
def isDecimalDigit (c : Char) : Bool := decide (digit_value c < 10)

/-- GMP's `mpf_set_str (x, str, 0)` (base 0 means decimal here), which
`mpf_class(const std::string&)` calls; `none` is its return value -1, on which the
constructor throws `std::invalid_argument`. After an optional `-` there must stand a digit,
or a decimal point followed by a digit; then only digits and at most one decimal point may
follow. Modelled on strings of `-`, digits and `.`, the only ones the number branch of
`parseValue` passes; exponent notation and white space are not modelled. -/
def mpf_set_str (str : List Char) : Option mpf_class :=
  let negative := str.head? == some '-'
  let s := if negative then str.drop 1 else str
  let startsRight : Bool :=
    match s with
    | c :: d :: _ => isDecimalDigit c || (c == '.' && isDecimalDigit d)
    | [c] => isDecimalDigit c
    | [] => false
  if !startsRight then none
  else if !(s.all (fun c => isDecimalDigit c || c == '.')) then none
  else if s.count '.' > 1 then none
  else
    let intPart := s.takeWhile (· != '.')
    let fracPart := (s.dropWhile (· != '.')).drop 1
    let all := intPart ++ fracPart
    let leadingZeros := (all.takeWhile (· == '0')).length
    let significant := ((all.dropWhile (· == '0')).reverse.dropWhile (· == '0')).reverse
    if significant.isEmpty then some ⟨false, [], 0⟩
    else some ⟨negative, significant, (intPart.length : Int) - (leadingZeros : Int)⟩

/-- GMP's `mpf_class::get_str(mp_exp_t& exp)` (base 10, all digits): the digits as a
fraction with an implicit radix point to the left of the first digit, with a leading `-`
for a negative number, and the exponent, which the C++ call writes through `exp`. Zero
gives the empty string and exponent 0. -/
def mpf_get_str (f : mpf_class) : List Char × Int :=
  (if f.negative then '-' :: f.digits else f.digits, f.exp)

/-! ## The value model -/

/-- The class `Value`: the tag `type` together with the field that the tag selects. The
object is a `std::map<string, Value>`, held as its entries in iteration order. -/
inductive Value where
  | INTEGER (integerValue : Int)
  | FLOAT (floatValue : mpf_class)
  | STRING (stringValue : List Char)
  | OBJECT (objectValue : List (List Char × Value))
  | ARRAY (arrayValue : List Value)
  | BOOLEAN (boolValue : Bool)
  | NIL

/-- The comparison `std::string::operator<` that orders the keys of the `std::map`:
lexicographic on the character codes, a proper prefix first. -/
def stringLt : List Char → List Char → Bool
  | _, [] => false
  | [], _ :: _ => true
  | a :: as, b :: bs =>
    if a.toNat < b.toNat then true
    else if b.toNat < a.toNat then false
    else stringLt as bs

/-- The statement `obj[key] = value` on a `std::map<string, Value>`: the entry with an
equivalent key gets the new value, otherwise a new entry is inserted at its place in the
key order. -/
def mapAssign (key : List Char) (value : Value) :
    List (List Char × Value) → List (List Char × Value)
  | [] => [(key, value)]
  | (k, v) :: rest =>
    if stringLt key k then (key, value) :: (k, v) :: rest
    else if stringLt k key then (k, v) :: mapAssign key value rest
    else (k, value) :: rest

mutual
/-- The method `Value::print` (Answer1.cpp:44-83); the result is what it writes to
`cout`. The exponent that `get_str(exp)` stores in the local `exp` is not written. -/
def Value.print : Value → List Char
  | .INTEGER integerValue => mpz_get_str integerValue
  | .FLOAT floatValue => (mpf_get_str floatValue).1
  | .STRING stringValue => '"' :: stringValue ++ ['"']
  | .OBJECT objectValue => '{' :: printObjectLoop objectValue true ++ ['}']
  | .ARRAY arrayValue => '[' :: printArrayLoop arrayValue 0 ++ [']']
  | .BOOLEAN boolValue => if boolValue then "true".toList else "false".toList
  | .NIL => "null".toList
/-- The loop `for (it = begin; it != end; ++it)` of the OBJECT case, from an iterator
position on; `atBegin` says whether `it == objectValue.begin()`. -/
def printObjectLoop : List (List Char × Value) → Bool → List Char
  | [], _ => []
  | (first, second) :: rest, atBegin =>
    (if atBegin then [] else ", ".toList)
      ++ ('"' :: first ++ "\": ".toList)
      ++ second.print
      ++ printObjectLoop rest false
/-- The loop `for (i = 0; i < size; ++i)` of the ARRAY case, from index `i` on. -/
def printArrayLoop : List Value → Nat → List Char
  | [], _ => []
  | v :: rest, i =>
    (if i > 0 then ", ".toList else []) ++ v.print ++ printArrayLoop rest (i + 1)
end

/-! ## The parser -/

/-- The read `json[pos]` of a `const std::string`: the character at `pos < size`, the
terminator `'\0'` at `pos = size`, undefined (`none`) beyond. -/
def charAt (json : List Char) (pos : Nat) : Option Char :=
  match json[pos]? with
  | some c => some c
  | none => if pos = json.length then some (Char.ofNat 0) else none

/-- The call `json.substr(pos, len)`, for `pos ≤ json.size()` (it throws
`std::out_of_range` otherwise; every call of the parser has just read a character other
than the terminator at `pos` or at `pos - 1`). -/
def substr (json : List Char) (pos len : Nat) : List Char :=
  (json.drop pos).take len

/-- The function `isDigit` (Answer1.cpp:96-98). -/
def isDigit (c : Char) : Bool := decide (c ≥ '0') && decide (c ≤ '9')

/-- The C library's `isspace` in the "C" locale: space, `\t`, `\n`, `\v`, `\f`, `\r`. -/
def isspace (c : Char) : Bool := c.toNat == 32 || (decide (9 ≤ c.toNat) && decide (c.toNat ≤ 13))

/-- The loop `while (pos < json.size() && p(json[pos])) ++pos;`, at most `n` rounds;
the result is the final `pos`. -/
def whileLoop (p : Char → Bool) (json : List Char) : Nat → Nat → Nat
  | 0, pos => pos
  | n + 1, pos =>
    match json[pos]? with
    | some c => if p c then whileLoop p json n (pos + 1) else pos
    | none => pos

/-- The function `skipWhitespace` (Answer1.cpp:92-94); returns the new `pos`. -/
def skipWhitespace (json : List Char) (pos : Nat) : Nat :=
  whileLoop isspace json (json.length - pos) pos

/-- The loop `while (pos < json.size() && json[pos] != '"') ++pos;` of
Answer1.cpp:113 and :159. -/
def scanToQuote (json : List Char) (pos : Nat) : Nat :=
  whileLoop (fun c => c != '"') json (json.length - pos) pos

/-- The loop of Answer1.cpp:183-186, at most `n` rounds, on the state `(pos, isFloat)`. -/
def numberLoop (json : List Char) : Nat → Nat → Bool → Nat × Bool
  | 0, pos, isFloat => (pos, isFloat)
  | n + 1, pos, isFloat =>
    match json[pos]? with
    | some c =>
      if isDigit c || c == '.' then
        numberLoop json n (pos + 1) (if c == '.' then true else isFloat)
      else (pos, isFloat)
    | none => (pos, isFloat)

/-- The number branch of `parseValue` (Answer1.cpp:179-192), entered at `pos` with
`c = json[pos]` a digit or `-`. -/
def parseNumber (json : List Char) (pos : Nat) (c : Char) : Except Err (Value × Nat) :=
  let start := pos
  let pos1 := if c = '-' then pos + 1 else pos
  let scan := numberLoop json (json.length - pos1) pos1 false
  let numStr := substr json start (scan.1 - start)
  if scan.2 then
    match mpf_set_str numStr with
    | some f => .ok (.FLOAT f, scan.1)
    | none => .error .mpfInvalidArgument
  else
    match mpz_set_str numStr with
    | some z => .ok (.INTEGER z, scan.1)
    | none => .error .mpzInvalidArgument

/-- The part of one round of the loop of `parseObject` before the value
(Answer1.cpp:106-120): the optional comma, the key and the colon. Returns the key and the
cursor at which `parseValue` is called. -/
def parseKey (json : List Char) (pos0 : Nat) : Except Err (List Char × Nat) :=
  let pos1 := skipWhitespace json pos0
  match charAt json pos1 with
  | none => .error .readPastEnd
  | some c1 =>
    let pos2 := skipWhitespace json (if c1 = ',' then pos1 + 1 else pos1)
    match charAt json pos2 with
    | none => .error .readPastEnd
    | some c2 =>
      if c2 ≠ '"' then .error .expectedStringKey
      else
        let start := pos2 + 1
        let pos3 := scanToQuote json start
        let key := substr json start (pos3 - start)
        let pos4 := skipWhitespace json (pos3 + 1)
        match charAt json pos4 with
        | none => .error .readPastEnd
        | some c3 =>
          if c3 ≠ ':' then .error .expectedColon
          else .ok (key, skipWhitespace json (pos4 + 1))

mutual
/-- The function `parseValue` (Answer1.cpp:154-195). -/
def parseValue : Nat → List Char → Nat → Except Err (Value × Nat)
  | 0, _, _ => .error .outOfFuel
  | fuel + 1, json, pos0 =>
    let pos := skipWhitespace json pos0
    match charAt json pos with
    | none => .error .readPastEnd
    | some c =>
      if c = '"' then
        let start := pos + 1
        let pos1 := scanToQuote json start
        .ok (.STRING (substr json start (pos1 - start)), pos1 + 1)
      else if c = '{' then
        match parseObject fuel json pos with
        | .ok (obj, pos1) => .ok (.OBJECT obj, pos1)
        | .error e => .error e
      else if c = '[' then
        match parseArray fuel json pos with
        | .ok (arr, pos1) => .ok (.ARRAY arr, pos1)
        | .error e => .error e
      else if c = 't' ∧ substr json pos 4 = "true".toList then .ok (.BOOLEAN true, pos + 4)
      else if c = 'f' ∧ substr json pos 5 = "false".toList then .ok (.BOOLEAN false, pos + 5)
      else if c = 'n' ∧ substr json pos 4 = "null".toList then .ok (.NIL, pos + 4)
      else if isDigit c ∨ c = '-' then parseNumber json pos c
      else .error .invalidJSONValue
termination_by structural fuel => fuel
/-- The function `parseObject` (Answer1.cpp:101-131). -/
def parseObject : Nat → List Char → Nat → Except Err (List (List Char × Value) × Nat)
  | 0, _, _ => .error .outOfFuel
  | fuel + 1, json, pos0 =>
    match parseObjectLoop fuel json (skipWhitespace json (pos0 + 1)) [] with
    | .error e => .error e
    | .ok (obj, pos) =>
      match charAt json pos with
      | none => .error .readPastEnd
      | some c => if c ≠ '}' then .error .expectedObjectEnd else .ok (obj, pos + 1)
termination_by structural fuel => fuel
/-- The loop `while (pos < json.size() && json[pos] != '}')` of `parseObject`
(Answer1.cpp:105-127) on the state `(pos, obj)`; returns the state at loop exit. -/
def parseObjectLoop : Nat → List Char → Nat → List (List Char × Value) →
    Except Err (List (List Char × Value) × Nat)
  | 0, _, _, _ => .error .outOfFuel
  | fuel + 1, json, pos, obj =>
    match json[pos]? with
    | none => .ok (obj, pos)
    | some c =>
      if c = '}' then .ok (obj, pos)
      else
        match parseKey json pos with
        | .error e => .error e
        | .ok (key, pos1) =>
          match parseValue fuel json pos1 with
          | .error e => .error e
          | .ok (value, pos2) =>
            parseObjectLoop fuel json (skipWhitespace json pos2) (mapAssign key value obj)
termination_by structural fuel => fuel
/-- The function `parseArray` (Answer1.cpp:134-151). -/
def parseArray : Nat → List Char → Nat → Except Err (List Value × Nat)
  | 0, _, _ => .error .outOfFuel
  | fuel + 1, json, pos0 =>
    match parseArrayLoop fuel json (skipWhitespace json (pos0 + 1)) [] with
    | .error e => .error e
    | .ok (arr, pos) =>
      match charAt json pos with
      | none => .error .readPastEnd
      | some c => if c ≠ ']' then .error .expectedArrayEnd else .ok (arr, pos + 1)
termination_by structural fuel => fuel
/-- The loop `while (pos < json.size() && json[pos] != ']')` of `parseArray`
(Answer1.cpp:138-147) on the state `(pos, arr)`; returns the state at loop exit. -/
def parseArrayLoop : Nat → List Char → Nat → List Value → Except Err (List Value × Nat)
  | 0, _, _, _ => .error .outOfFuel
  | fuel + 1, json, pos, arr =>
    match json[pos]? with
    | none => .ok (arr, pos)
    | some c =>
      if c = ']' then .ok (arr, pos)
      else
        match parseValue fuel json (skipWhitespace json (if c = ',' then pos + 1 else pos)) with
        | .error e => .error e
        | .ok (value, pos2) =>
          parseArrayLoop fuel json (skipWhitespace json pos2) (arr ++ [value])
termination_by structural fuel => fuel
end

/-- The fuel `parseJSON` gives to `parseValue`: three calls per consumed character. -/
def parseFuel (json : List Char) : Nat := 3 * json.length + 6

/-- The function `parseJSON` (Answer1.cpp:198-201) together with the final value of its
local cursor `pos`. -/
def parseJSONAt (json : List Char) : Except Err (Value × Nat) :=
  parseValue (parseFuel json) json 0

/-- The function `parseJSON` (Answer1.cpp:198-201). -/
def parseJSON (json : List Char) : Except Err Value :=
  match parseJSONAt json with
  | .ok (v, _) => .ok v
  | .error e => .error e

/-! ## Literals, as the claims word them -/

/-- The text without its optional leading `-`. -/
def unsigned (s : List Char) : List Char :=
  if s.head? == some '-' then s.drop 1 else s

/-- An integer literal: an optional leading `-` followed by one or more ASCII digits. -/
def isIntegerLiteral (s : List Char) : Bool :=
  !(unsigned s).isEmpty && (unsigned s).all isDigit

/-- An integer literal in canonical form: `0`, or an optional `-` followed by digits of
which the first is not `0`. -/
def isCanonicalIntegerLiteral (s : List Char) : Bool :=
  isIntegerLiteral s && (s == ['0'] || (unsigned s).head? != some '0')

/-- A decimal literal: an optional leading `-`, one or more digits, a `.`, and one or more
digits. -/
def isDecimalLiteral (s : List Char) : Bool :=
  let intPart := (unsigned s).takeWhile isDigit
  let rest := (unsigned s).dropWhile isDigit
  !intPart.isEmpty && rest.head? == some '.' && !(rest.drop 1).isEmpty
    && (rest.drop 1).all isDigit

/-- The loop condition of the number scan (Answer1.cpp:183). -/
def numberChar (c : Char) : Bool := isDigit c || c == '.'

/-! ## The entries of an object text -/

/-- The loop of `parseObject` with the store `obj[key] = value` replaced by
`entries.push_back(key, value)`: the entries of the object text, in text order. -/
def objectEntriesLoop : Nat → List Char → Nat → List (List Char × Value) →
    Except Err (List (List Char × Value) × Nat)
  | 0, _, _, _ => .error .outOfFuel
  | fuel + 1, json, pos, entries =>
    match json[pos]? with
    | none => .ok (entries, pos)
    | some c =>
      if c = '\x7d' then .ok (entries, pos)
      else
        match parseKey json pos with
        | .error e => .error e
        | .ok (key, pos1) =>
          match parseValue fuel json pos1 with
          | .error e => .error e
          | .ok (value, pos2) =>
            objectEntriesLoop fuel json (skipWhitespace json pos2) (entries ++ [(key, value)])

/-- The function `parseObject` with the entry list of `objectEntriesLoop` in place of the
map: the entries of the object text at `pos`, in text order, and the final cursor. -/
def objectEntries : Nat → List Char → Nat → Except Err (List (List Char × Value) × Nat)
  | 0, _, _ => .error .outOfFuel
  | fuel + 1, json, pos0 =>
    match objectEntriesLoop fuel json (skipWhitespace json (pos0 + 1)) [] with
    | .error e => .error e
    | .ok (entries, pos) =>
      match charAt json pos with
      | none => .error .readPastEnd
      | some c => if c ≠ '\x7d' then .error .expectedObjectEnd else .ok (entries, pos + 1)

/-- The value of the last entry of the list that carries `key`, if there is one. -/
def lastEntry (key : List Char) : List (List Char × Value) → Option Value
  | [] => none
  | (k, v) :: rest =>
    match lastEntry key rest with
    | some w => some w
    | none => if k = key then some v else none

/-- The map that storing the entries one after the other builds, starting from `obj`. -/
def storeAll (entries : List (List Char × Value)) (obj : List (List Char × Value)) :
    List (List Char × Value) :=
  entries.foldl (fun m e => mapAssign e.1 e.2 m) obj

/-- The invariant of a `std::map`: the keys are strictly ascending in iteration order. -/
def keysAscending (obj : List (List Char × Value)) : Prop :=
  obj.Pairwise (fun a b => stringLt a.1 b.1 = true)

/-- The text `numStr` (Answer1.cpp:187) that the number branch, entered at `pos` on the
character `c`, hands to `mpz_class` or `mpf_class`. -/
def numStr (json : List Char) (pos : Nat) (c : Char) : List Char :=
  substr json pos
    ((numberLoop json (json.length - (if c = '-' then pos + 1 else pos))
      (if c = '-' then pos + 1 else pos) false).1 - pos)

/-- The result of a parsing function with its cursor moved `n` places to the right. -/
def shiftCursor {α : Type} (n : Nat) : Except Err (α × Nat) → Except Err (α × Nat)
  | .ok (a, pos) => .ok (a, n + pos)
  | .error e => .error e

/-! ## The trees of the round trip -/

mutual
/-- A tree without a Decimal node in which no Text payload and no Object key holds a
double quote. -/
def Value.plain : Value → Bool
  | .INTEGER _ => true
  | .FLOAT _ => false
  | .STRING stringValue => !stringValue.contains '"'
  | .OBJECT objectValue => plainEntries objectValue
  | .ARRAY arrayValue => plainElements arrayValue
  | .BOOLEAN _ => true
  | .NIL => true
/-- The entries of an Object are plain: no key holds a double quote, every value is
plain. -/
def plainEntries : List (List Char × Value) → Bool
  | [] => true
  | (key, value) :: rest => !key.contains '"' && value.plain && plainEntries rest
/-- The elements of an Array are plain. -/
def plainElements : List Value → Bool
  | [] => true
  | v :: rest => v.plain && plainElements rest
end

mutual
/-- The invariant of the class `Value` that the embedding leaves open: every
`objectValue` is a `std::map`, its keys strictly ascending. -/
def Value.wellFormed : Value → Prop
  | .OBJECT objectValue => keysAscending objectValue ∧ wellFormedEntries objectValue
  | .ARRAY arrayValue => wellFormedElements arrayValue
  | _ => True
/-- The values of the entries of an Object are well formed. -/
def wellFormedEntries : List (List Char × Value) → Prop
  | [] => True
  | (_, value) :: rest => value.wellFormed ∧ wellFormedEntries rest
/-- The elements of an Array are well formed. -/
def wellFormedElements : List Value → Prop
  | [] => True
  | v :: rest => v.wellFormed ∧ wellFormedElements rest
end

end Answer1

/-!
# Blox_assesment: the transfer service of Question2/Answer2.cpp

* The `std::map<string, double> accounts` is the list of its entries; balances and
  amounts are exact numbers (`Int`), not `double`s.
* A method that changes the database returns the new database; a method that can throw
  returns `Except BankErr _`. `transfer` can throw after it has changed the database, so it
  returns its outcome together with the database it leaves behind.
* `callBankAPI` returns `rand() % 2 == 0`; its outcome is the parameter `api`.
* Output to `cout` and `cerr` and the mutex (one thread) are left out.
-/

namespace Answer2

/-- The exception of `getBalance` and `updateBalance`:
`runtime_error("Account not found.")`. -/
inductive BankErr where
  | accountNotFound
  deriving DecidableEq, Repr

/-- The class `BankDatabase`: its `accounts`. -/
structure BankDatabase where
  accounts : List (String × Int)
  deriving DecidableEq, Repr

/-- The constructor `BankDatabase()` (Answer2.cpp:17-20), with 1000.00 and 200.00 as the
exact numbers 1000 and 200. -/
def BankDatabase.init : BankDatabase :=
  ⟨[("A123", 1000), ("B456", 200)]⟩

/-- The method `BankDatabase::getBalance` (Answer2.cpp:23-29). -/
def BankDatabase.getBalance (db : BankDatabase) (account_id : String) : Except BankErr Int :=
  match db.accounts.lookup account_id with
  | some balance => .ok balance
  | none => .error .accountNotFound

/-- The method `BankDatabase::updateBalance` (Answer2.cpp:32-39): what the database is
after `accounts[account_id] += amount`, or the exception, thrown before any change. -/
def BankDatabase.updateBalance (db : BankDatabase) (account_id : String) (amount : Int) :
    Except BankErr BankDatabase :=
  match db.accounts.lookup account_id with
  | some _ =>
    .ok ⟨db.accounts.map fun e => (e.1, if e.1 = account_id then e.2 + amount else e.2)⟩
  | none => .error .accountNotFound

/-- The method `PayerBank::debit` (Answer2.cpp:58-68): the returned flag and the database
it leaves. -/
def debit (db : BankDatabase) (account_id : String) (amount : Int) :
    Except BankErr (Bool × BankDatabase) :=
  match db.getBalance account_id with
  | .error e => .error e
  | .ok current_balance =>
    if current_balance ≥ amount then
      match db.updateBalance account_id (-amount) with
      | .error e => .error e
      | .ok db1 => .ok (true, db1)
    else .ok (false, db)

/-- The method `PayeeBank::credit` (Answer2.cpp:80-84). -/
def credit (db : BankDatabase) (account_id : String) (amount : Int) :
    Except BankErr (Bool × BankDatabase) :=
  match db.updateBalance account_id amount with
  | .error e => .error e
  | .ok db1 => .ok (true, db1)

/-- The method `TransferService::transfer` (Answer2.cpp:97-126): what it returns or
throws, and the database it leaves behind in either case. No statement of `transfer`
catches an exception, so one thrown by `credit` leaves it at once. -/
def transfer (db : BankDatabase) (payer_account payee_account : String) (amount : Int)
    (api : Bool) : Except BankErr Bool × BankDatabase :=
  match debit db payer_account amount with
  | .error e => (.error e, db)
  | .ok (false, db1) => (.ok false, db1)
  | .ok (true, db1) =>
    if !api then
      match debit db1 payer_account (-amount) with
      | .error e => (.error e, db1)
      | .ok (_, db2) => (.ok false, db2)
    else
      match credit db1 payee_account amount with
      | .error e => (.error e, db1)
      | .ok (false, db2) =>
        match debit db2 payer_account (-amount) with
        | .error e => (.error e, db2)
        | .ok (_, db3) => (.ok false, db3)
      | .ok (true, db2) => (.ok true, db2)

end Answer2

namespace Answer1

/-! # Theorems -/

/-! ## Reading characters -/

theorem charAt_eq_some_of_lt {json : List Char} {pos : Nat} (h : pos < json.length) :
    charAt json pos = some json[pos] := by
  simp [charAt, List.getElem?_eq_getElem h]

theorem charAt_length (json : List Char) : charAt json json.length = some (Char.ofNat 0) := by
  simp [charAt]

theorem charAt_eq_none_iff {json : List Char} {pos : Nat} :
    charAt json pos = none ↔ json.length < pos := by
  unfold charAt
  rcases Nat.lt_trichotomy pos json.length with h | h | h
  · simp [List.getElem?_eq_getElem h]; omega
  · subst h; simp
  · have : json[pos]? = none := List.getElem?_eq_none (by omega)
    simp [this]; omega

/-- A character other than the terminator NUL is read inside the text. -/
theorem lt_of_charAt_eq {json : List Char} {pos : Nat} {c : Char}
    (h : charAt json pos = some c) (hc : c ≠ Char.ofNat 0) :
    pos < json.length ∧ json[pos]? = some c := by
  unfold charAt at h
  cases hg : json[pos]? with
  | some d =>
    rw [hg] at h
    have hlt : pos < json.length := by
      by_contra hcon
      rw [List.getElem?_eq_none (by omega)] at hg
      cases hg
    exact ⟨hlt, by simpa using h⟩
  | none =>
    rw [hg] at h
    by_cases hp : pos = json.length
    · simp [hp] at h; exact absurd h.symm hc
    · simp [hp] at h

theorem printArrayLoop_eq (sep : List Char) (hsep : sep = ", ".toList) :
    ∀ (a : List Value) (i : Nat), a ≠ [] →
      printArrayLoop a i
        = (if i > 0 then sep else []) ++ sep.intercalate (a.map Value.print)
  | [], _, h => absurd rfl h
  | [v], i, _ => by
    subst hsep
    simp [printArrayLoop, List.intercalate]
  | v :: w :: rest, i, _ => by
    have ih := printArrayLoop_eq sep hsep (w :: rest) (i + 1) (by simp)
    subst hsep
    rw [printArrayLoop, ih]
    simp [List.intercalate]

theorem printObjectLoop_eq (sep : List Char) (hsep : sep = ", ".toList) :
    ∀ (m : List (List Char × Value)) (atBegin : Bool), m ≠ [] →
      printObjectLoop m atBegin
        = (if atBegin then [] else sep)
          ++ sep.intercalate (m.map fun e => '"' :: e.1 ++ "\": ".toList ++ e.2.print)
  | [], _, h => absurd rfl h
  | [(k, v)], b, _ => by
    subst hsep
    simp [printObjectLoop, List.intercalate]
  | (k, v) :: e :: rest, b, _ => by
    have ih := printObjectLoop_eq sep hsep (e :: rest) false (by simp)
    subst hsep
    rw [printObjectLoop, ih]
    simp [List.intercalate]

/-! ## The scanning loops -/

theorem le_whileLoop (p : Char → Bool) (json : List Char) :
    ∀ (n pos : Nat), pos ≤ whileLoop p json n pos
  | 0, pos => by simp [whileLoop]
  | n + 1, pos => by
    rw [whileLoop]
    split
    · split
      · exact Nat.le_trans (Nat.le_succ pos) (le_whileLoop p json n (pos + 1))
      · exact Nat.le_refl pos
    · exact Nat.le_refl pos

theorem whileLoop_le (p : Char → Bool) (json : List Char) :
    ∀ (n pos : Nat), pos ≤ json.length → whileLoop p json n pos ≤ json.length
  | 0, pos, h => by simpa [whileLoop] using h
  | n + 1, pos, h => by
    rw [whileLoop]
    split
    · rename_i c hc
      have hlt : pos < json.length := by
        by_contra hcon
        rw [List.getElem?_eq_none (by omega)] at hc
        cases hc
      split
      · exact whileLoop_le p json n (pos + 1) hlt
      · exact h
    · exact h

/-- Every character the loop steps over satisfies the loop condition. -/
theorem whileLoop_consumed (p : Char → Bool) (json : List Char) :
    ∀ (n pos i : Nat), pos ≤ i → i < whileLoop p json n pos →
      ∃ c, json[i]? = some c ∧ p c = true
  | 0, pos, i, h1, h2 => by simp [whileLoop] at h2; omega
  | n + 1, pos, i, h1, h2 => by
    rw [whileLoop] at h2
    split at h2
    · rename_i c hc
      split at h2
      · rename_i hp
        by_cases hi : i = pos
        · subst hi; exact ⟨c, hc, hp⟩
        · exact whileLoop_consumed p json n (pos + 1) i (by omega) h2
      · omega
    · omega

/-- With enough rounds the loop stops at the end of the text or on a character that
fails the loop condition. -/
theorem whileLoop_stop (p : Char → Bool) (json : List Char) :
    ∀ (n pos : Nat), json.length - pos ≤ n →
      ∀ c, json[whileLoop p json n pos]? = some c → p c = false
  | 0, pos, h, c, hc => by
    simp only [whileLoop] at hc
    rw [List.getElem?_eq_none (by omega)] at hc
    cases hc
  | n + 1, pos, h, c, hc => by
    rw [whileLoop] at hc
    split at hc
    · rename_i d hd
      split at hc
      · exact whileLoop_stop p json n (pos + 1) (by omega) c hc
      · rename_i hp
        rw [hd] at hc
        injection hc with hc
        subst hc
        simpa using hp
    · rename_i hd
      rw [hd] at hc
      cases hc

/-- The loop is determined by where the first character failing the condition is. -/
theorem whileLoop_eq (p : Char → Bool) (json : List Char) :
    ∀ (n pos q : Nat), pos ≤ q → q - pos ≤ n →
      (∀ i, pos ≤ i → i < q → ∃ c, json[i]? = some c ∧ p c = true) →
      (∀ c, json[q]? = some c → p c = false) →
      whileLoop p json n pos = q
  | 0, pos, q, h1, h2, _, _ => by simp [whileLoop]; omega
  | n + 1, pos, q, h1, h2, hin, hstop => by
    rw [whileLoop]
    by_cases hq : pos = q
    · subst hq
      split
      · rename_i c hc
        simp [hstop c hc]
      · rfl
    · obtain ⟨c, hc, hp⟩ := hin pos (Nat.le_refl pos) (by omega)
      simp only [hc, hp, if_true]
      exact whileLoop_eq p json n (pos + 1) q (by omega) (by omega)
        (fun i hi1 hi2 => hin i (by omega) hi2) hstop

theorem le_skipWhitespace (json : List Char) (pos : Nat) : pos ≤ skipWhitespace json pos :=
  le_whileLoop _ _ _ _

theorem skipWhitespace_le (json : List Char) (pos : Nat) (h : pos ≤ json.length) :
    skipWhitespace json pos ≤ json.length :=
  whileLoop_le _ _ _ _ h

theorem le_scanToQuote (json : List Char) (pos : Nat) : pos ≤ scanToQuote json pos :=
  le_whileLoop _ _ _ _

theorem scanToQuote_le (json : List Char) (pos : Nat) (h : pos ≤ json.length) :
    scanToQuote json pos ≤ json.length :=
  whileLoop_le _ _ _ _ h


/-- The cursor of the number loop is that of the plain scan over digits and points. -/
theorem numberLoop_fst (json : List Char) :
    ∀ (n pos : Nat) (isFloat : Bool),
      (numberLoop json n pos isFloat).1 = whileLoop numberChar json n pos
  | 0, pos, fl => by simp [numberLoop, whileLoop]
  | n + 1, pos, fl => by
    rw [numberLoop, whileLoop]
    split
    · rename_i c hc
      by_cases hp : (isDigit c || c == '.') = true
      · simp only [hp, numberChar, if_true]
        exact numberLoop_fst json n (pos + 1) _
      · simp only [hp, numberChar, if_false]
        simp
    · rfl

/-- The flag of the number loop: set on entry, or a point was stepped over. -/
theorem numberLoop_snd (json : List Char) :
    ∀ (n pos : Nat) (isFloat : Bool),
      (numberLoop json n pos isFloat).2 = true ↔
        (isFloat = true ∨
          ∃ i, pos ≤ i ∧ i < (numberLoop json n pos isFloat).1 ∧ json[i]? = some '.')
  | 0, pos, fl => by
    simp only [numberLoop]
    constructor
    · intro h; exact Or.inl h
    · rintro (h | ⟨i, h1, h2, _⟩)
      · exact h
      · omega
  | n + 1, pos, fl => by
    rw [numberLoop]
    split
    · rename_i c hc
      by_cases hp : (isDigit c || c == '.') = true
      · simp only [hp, if_true]
        rw [numberLoop_snd json n (pos + 1) _]
        constructor
        · rintro (h | ⟨i, h1, h2, h3⟩)
          · by_cases hdot : (c == '.') = true
            · right
              refine ⟨pos, Nat.le_refl _, ?_, ?_⟩
              · have := le_whileLoop numberChar json n (pos + 1)
                rw [numberLoop_fst]; omega
              · have : c = '.' := by simpa using hdot
                rw [hc, this]
            · simp only [hdot] at h
              left; simpa using h
          · right; exact ⟨i, by omega, h2, h3⟩
        · rintro (h | ⟨i, h1, h2, h3⟩)
          · left; subst h; simp
          · by_cases hi : i = pos
            · subst hi
              rw [hc] at h3
              injection h3 with h3
              left; simp [h3]
            · right; exact ⟨i, by omega, h2, h3⟩
      · simp only [hp, if_false]
        constructor
        · intro h; exact Or.inl h
        · rintro (h | ⟨i, h1, h2, _⟩)
          · exact h
          · simp only [Bool.false_eq_true, if_false] at h2; omega
    · constructor
      · intro h; exact Or.inl h
      · rintro (h | ⟨i, h1, h2, _⟩)
        · exact h
        · omega

/-- Membership in `json.substr(pos, len)`. -/
theorem mem_substr {json : List Char} {pos len : Nat} {c : Char} :
    c ∈ substr json pos len ↔ ∃ i, pos ≤ i ∧ i < pos + len ∧ json[i]? = some c := by
  unfold substr
  rw [List.mem_iff_getElem?]
  constructor
  · rintro ⟨k, hk⟩
    rw [List.getElem?_take] at hk
    split at hk
    · rw [List.getElem?_drop] at hk
      exact ⟨pos + k, by omega, by omega, hk⟩
    · cases hk
  · rintro ⟨i, h1, h2, h3⟩
    refine ⟨i - pos, ?_⟩
    rw [List.getElem?_take]
    have : i - pos < len := by omega
    simp only [this, if_true]
    rw [List.getElem?_drop]
    have : pos + (i - pos) = i := by omega
    rw [this]; exact h3

/-! ## The number branch -/

/-- A digit or `-` selects the number branch of `parseValue`. -/
theorem parseValue_number (fuel : Nat) (json : List Char) (pos : Nat) (c : Char)
    (hc : charAt json (skipWhitespace json pos) = some c)
    (hnum : c = '-' ∨ isDigit c = true) :
    parseValue (fuel + 1) json pos = parseNumber json (skipWhitespace json pos) c := by
  have h1 : c ≠ '"' := by rintro rfl; revert hnum; decide
  have h2 : c ≠ '\x7b' := by rintro rfl; revert hnum; decide
  have h3 : c ≠ '[' := by rintro rfl; revert hnum; decide
  have h4 : c ≠ 't' := by rintro rfl; revert hnum; decide
  have h5 : c ≠ 'f' := by rintro rfl; revert hnum; decide
  have h6 : c ≠ 'n' := by rintro rfl; revert hnum; decide
  have h7 : isDigit c = true ∨ c = '-' := hnum.symm
  rw [parseValue]
  simp only [hc, h1, h2, h3, h4, h5, h6, h7, if_false, if_true, false_and]

/-- What a successful run of the number branch returns. -/
theorem parseNumber_ok (json : List Char) (p0 : Nat) (c : Char) (v : Value) (pos' : Nat)
    (hlt : p0 < json.length)
    (h : parseNumber json p0 c = .ok (v, pos')) :
    (if c = '-' then p0 + 1 else p0) ≤ pos' ∧ pos' ≤ json.length ∧
    (∀ i, (if c = '-' then p0 + 1 else p0) ≤ i → i < pos' →
      ∃ d, json[i]? = some d ∧ (isDigit d = true ∨ d = '.')) ∧
    (∀ d, json[pos']? = some d → isDigit d = false ∧ d ≠ '.') ∧
    ((∃ f, v = .FLOAT f) ↔
      ∃ i, (if c = '-' then p0 + 1 else p0) ≤ i ∧ i < pos' ∧ json[i]? = some '.') ∧
    ((∃ z, v = .INTEGER z) ↔
      ¬ ∃ i, (if c = '-' then p0 + 1 else p0) ≤ i ∧ i < pos' ∧ json[i]? = some '.') := by
  generalize hp1 : (if c = '-' then p0 + 1 else p0) = p1 at *
  have hp1le : p1 ≤ json.length := by subst hp1; split <;> omega
  unfold parseNumber at h
  simp only [hp1] at h
  have hfst := numberLoop_fst json (json.length - p1) p1 false
  have hsnd := numberLoop_snd json (json.length - p1) p1 false
  generalize numberLoop json (json.length - p1) p1 false = scan at h hfst hsnd
  have hpos : pos' = scan.1 := by
    split at h
    · split at h
      · injection h with h; injection h with _ h; exact h.symm
      · cases h
    · split at h
      · injection h with h; injection h with _ h; exact h.symm
      · cases h
  have hscan : scan.1 = whileLoop numberChar json (json.length - p1) p1 := hfst
  refine ⟨?_, ?_, ?_, ?_, ?_, ?_⟩
  · rw [hpos, hscan]; exact le_whileLoop _ _ _ _
  · rw [hpos, hscan]; exact whileLoop_le _ _ _ _ hp1le
  · intro i hi1 hi2
    rw [hpos, hscan] at hi2
    obtain ⟨d, hd, hp⟩ := whileLoop_consumed _ _ _ _ i hi1 hi2
    refine ⟨d, hd, ?_⟩
    simpa [numberChar] using hp
  · intro d hd
    rw [hpos, hscan] at hd
    have := whileLoop_stop numberChar json _ p1 (Nat.le_refl _) d hd
    simpa [numberChar] using this
  · simp only [Bool.false_eq_true, false_or] at hsnd
    rw [hpos, ← hsnd]
    split at h
    · rename_i hfl
      split at h
      · injection h with h; injection h with h _
        exact ⟨fun _ => hfl, fun _ => ⟨_, h.symm⟩⟩
      · cases h
    · rename_i hfl
      split at h
      · injection h with h; injection h with h _
        subst h
        exact ⟨fun hv => hv.elim (fun _ hf => nomatch hf), fun hh => absurd hh hfl⟩
      · cases h
  · simp only [Bool.false_eq_true, false_or] at hsnd
    rw [hpos, ← hsnd]
    split at h
    · rename_i hfl
      split at h
      · injection h with h; injection h with h _
        subst h
        exact ⟨fun hv => hv.elim (fun _ hz => nomatch hz), fun hh => absurd hfl hh⟩
      · cases h
    · rename_i hfl
      split at h
      · injection h with h; injection h with h _
        exact ⟨fun _ => hfl, fun _ => ⟨_, h.symm⟩⟩
      · cases h

/-! ## Decimal digits -/

/-- The value `mpn_set_str` gives to a string of decimal digits. -/
theorem mpn_set_str_digits :
    ∀ (ds : List Char) (acc : Nat), (∀ c ∈ ds, isDigit c = true) →
      mpn_set_str 10 ds acc = some (ds.foldl (fun a c => a * 10 + digit_value c) acc)
  | [], acc, _ => rfl
  | c :: cs, acc, h => by
    have hc : isDigit c = true := h c (List.mem_cons_self _ _)
    have hlt : ¬ digit_value c ≥ 10 := by
      simp only [isDigit, Bool.and_eq_true, decide_eq_true_eq] at hc
      have h1 : 48 ≤ c.toNat := hc.1
      have h2 : c.toNat ≤ 57 := hc.2
      simp only [digit_value, h1, h2, and_self, if_true]
      omega
    rw [mpn_set_str, if_neg hlt, List.foldl_cons]
    exact mpn_set_str_digits cs _ (fun d hd => h d (List.mem_cons_of_mem _ hd))



theorem digit_value_of_isDigit {c : Char} (hc : isDigit c = true) :
    digit_value c = c.toNat - 48 ∧ 48 ≤ c.toNat ∧ c.toNat ≤ 57 := by
  simp only [isDigit, Bool.and_eq_true, decide_eq_true_eq] at hc
  have h1 : 48 ≤ c.toNat := hc.1
  have h2 : c.toNat ≤ 57 := hc.2
  simp only [digit_value, h1, h2, and_self, if_true]

theorem digitChar_digit_value {c : Char} (hc : isDigit c = true) :
    Nat.digitChar (digit_value c) = c := by
  obtain ⟨h0, h1, h2⟩ := digit_value_of_isDigit hc
  rw [h0]
  have hc' : c = Char.ofNat c.toNat := (Char.ofNat_toNat c).symm
  generalize c.toNat = n at *
  subst hc'
  interval_cases n <;> rfl

/-- The digit fold never drops below its start value. -/
theorem le_foldl_digits (ds : List Char) :
    ∀ acc : Nat, acc ≤ ds.foldl (fun a c => a * 10 + digit_value c) acc := by
  induction ds with
  | nil => intro acc; exact Nat.le_refl _
  | cons c cs ih =>
    intro acc
    rw [List.foldl_cons]
    exact Nat.le_trans (by omega) (ih _)

theorem foldl_digits_pos (d : Char) (ds : List Char) (hd : isDigit d = true) (h0 : d ≠ '0') :
    0 < (d :: ds).foldl (fun a c => a * 10 + digit_value c) 0 := by
  rw [List.foldl_cons]
  have h := le_foldl_digits ds (0 * 10 + digit_value d)
  obtain ⟨e0, e1, e2⟩ := digit_value_of_isDigit hd
  have c48 : d.toNat ≠ 48 := by
    intro h48
    apply h0
    rw [← Char.ofNat_toNat d, h48]
  omega



/-- The digit loop of `Nat.toDigits` gives back a digit string without a leading zero. -/
theorem toDigitsCore_foldl_digits (ds : List Char) :
    ds ≠ [] → (∀ c ∈ ds, isDigit c = true) → ds.head? ≠ some '0' →
    ∀ (fuel : Nat) (acc : List Char),
      ds.foldl (fun a c => a * 10 + digit_value c) 0 < fuel →
      Nat.toDigitsCore 10 fuel (ds.foldl (fun a c => a * 10 + digit_value c) 0) acc
        = ds ++ acc := by
  induction ds using List.reverseRecOn with
  | nil => intro h; exact absurd rfl h
  | append_singleton init c ih =>
    intro _ hdig hhead fuel acc hfuel
    have hc : isDigit c = true := hdig c (by simp)
    obtain ⟨e0, e1, e2⟩ := digit_value_of_isDigit hc
    rw [List.foldl_append, List.foldl_cons, List.foldl_nil] at hfuel ⊢
    cases fuel with
    | zero => omega
    | succ fuel =>
      rw [Nat.toDigitsCore]
      have hmod : (List.foldl (fun a c => a * 10 + digit_value c) 0 init * 10 + digit_value c)
          % 10 = digit_value c := by omega
      have hdiv : (List.foldl (fun a c => a * 10 + digit_value c) 0 init * 10 + digit_value c)
          / 10 = List.foldl (fun a c => a * 10 + digit_value c) 0 init := by omega
      simp only [hmod, hdiv, digitChar_digit_value hc]
      cases init with
      | nil => simp
      | cons d r =>
        have hd : isDigit d = true := hdig d (by simp)
        have hd0 : d ≠ '0' := by
          intro h; apply hhead; simp [h]
        have hpos := foldl_digits_pos d r hd hd0
        rw [if_neg (by omega)]
        rw [ih (by simp) (fun x hx => hdig x (by simp at hx ⊢; tauto)) (by simpa using hd0)
          fuel (c :: acc) (by omega)]
        simp

theorem toDigits_foldl_digits (ds : List Char) (hne : ds ≠ [])
    (hdig : ∀ c ∈ ds, isDigit c = true) (hhead : ds.head? ≠ some '0') :
    Nat.toDigits 10 (ds.foldl (fun a c => a * 10 + digit_value c) 0) = ds := by
  rw [Nat.toDigits, toDigitsCore_foldl_digits ds hne hdig hhead _ [] (Nat.lt_succ_self _)]
  simp



/-- Over a text that holds only digits from `p1` on, the number loop runs to the end of
the text and leaves `isFloat` unset. -/
theorem numberLoop_digits (s : List Char) (p1 : Nat) (hp : p1 ≤ s.length)
    (hall : ∀ i, p1 ≤ i → i < s.length → ∃ d, s[i]? = some d ∧ isDigit d = true) :
    numberLoop s (s.length - p1) p1 false = (s.length, false) := by
  have hfst : (numberLoop s (s.length - p1) p1 false).1 = s.length := by
    rw [numberLoop_fst]
    apply whileLoop_eq _ _ _ _ _ hp (Nat.le_refl _)
    · intro i h1 h2
      obtain ⟨d, hd, hdig⟩ := hall i h1 h2
      exact ⟨d, hd, by simp [numberChar, hdig]⟩
    · intro c hc
      rw [List.getElem?_eq_none (Nat.le_refl _)] at hc
      cases hc
  have hsnd : (numberLoop s (s.length - p1) p1 false).2 = false := by
    cases hfl : (numberLoop s (s.length - p1) p1 false).2 with
    | false => rfl
    | true =>
      rw [numberLoop_snd] at hfl
      rcases hfl with hfl | ⟨i, h1, h2, h3⟩
      · cases hfl
      · rw [hfst] at h2
        obtain ⟨d, hd, hdig⟩ := hall i h1 h2
        rw [hd] at h3
        injection h3 with h3
        subst h3
        revert hdig; decide
  exact Prod.ext hfst hsnd

/-- The shape of a canonical integer literal. -/
theorem canonical_cases (s : List Char) (h : isCanonicalIntegerLiteral s = true) :
    s = ['0'] ∨
    ∃ d r, (s = d :: r ∨ s = '-' :: d :: r) ∧ isDigit d = true ∧ d ≠ '0' ∧
      ∀ c ∈ r, isDigit c = true := by
  simp only [isCanonicalIntegerLiteral, isIntegerLiteral, Bool.and_eq_true,
    Bool.or_eq_true, Bool.not_eq_true', List.isEmpty_eq_false, List.all_eq_true,
    beq_iff_eq, bne_iff_ne, ne_eq] at h
  obtain ⟨⟨hne, hall⟩, hcan⟩ := h
  rcases hcan with hz | hhead
  · exact Or.inl hz
  · right
    cases s with
    | nil => simp [unsigned] at hne
    | cons a t =>
      by_cases ha : a = '-'
      · subst ha
        have hu : unsigned ('-' :: t) = t := by simp [unsigned]
        rw [hu] at hne hall hhead
        cases t with
        | nil => exact absurd rfl hne
        | cons d r =>
          refine ⟨d, r, Or.inr rfl, hall d (by simp), ?_, fun c hc => hall c (by simp [hc])⟩
          intro hd; apply hhead; simp [hd]
      · have hu : unsigned (a :: t) = a :: t := by simp [unsigned, ha]
        rw [hu] at hne hall hhead
        refine ⟨a, t, Or.inl rfl, hall a (by simp), ?_, fun c hc => hall c (by simp [hc])⟩
        intro hd; apply hhead; simp [hd]



theorem isspace_eq_false_of_number {c : Char} (h : c = '-' ∨ isDigit c = true) :
    isspace c = false := by
  rcases h with h | h
  · subst h; decide
  · obtain ⟨_, h1, h2⟩ := digit_value_of_isDigit h
    simp only [isspace, Bool.or_eq_false_iff, Bool.and_eq_false_imp, beq_eq_false_iff_ne,
      decide_eq_true_eq, decide_eq_false_iff_not]
    constructor <;> omega

/-- A text that starts with `c`, a digit or `-`, and goes on in digits to its end is
handed whole to `mpz_class`, with the cursor left at the end of the text. -/
theorem parseJSONAt_digits (c : Char) (t : List Char)
    (hc : c = '-' ∨ isDigit c = true) (ht : ∀ d ∈ t, isDigit d = true) :
    parseJSONAt (c :: t) =
      match mpz_set_str (c :: t) with
      | some z => .ok (.INTEGER z, (c :: t).length)
      | none => .error .mpzInvalidArgument := by
  have hskip : skipWhitespace (c :: t) 0 = 0 := by
    apply whileLoop_eq _ _ _ _ _ (Nat.le_refl _) (by omega)
    · intro i h1 h2; omega
    · intro d hd
      simp only [List.getElem?_cons_zero, Option.some.injEq] at hd
      subst hd
      exact isspace_eq_false_of_number hc
  have hchar : charAt (c :: t) (skipWhitespace (c :: t) 0) = some c := by
    rw [hskip]; simp [charAt]
  rw [parseJSONAt, parseFuel, parseValue_number _ _ _ c hchar hc, hskip]
  unfold parseNumber
  have hall : ∀ i, (if c = '-' then 0 + 1 else 0) ≤ i → i < (c :: t).length →
      ∃ d, (c :: t)[i]? = some d ∧ isDigit d = true := by
    intro i h1 h2
    cases i with
    | zero =>
      have hcm : c ≠ '-' := by
        intro hcm; simp [hcm] at h1
      exact ⟨c, by simp, hc.resolve_left hcm⟩
    | succ i =>
      simp only [List.length_cons, Nat.add_lt_add_iff_right] at h2
      refine ⟨t[i], by simp [List.getElem?_eq_getElem h2], ht _ (List.getElem_mem _)⟩
  have hp1 : (if c = '-' then 0 + 1 else 0) ≤ (c :: t).length := by
    split <;> simp
  have hloop := numberLoop_digits (c :: t) _ hp1 hall
  simp only [hloop]
  have hsub : substr (c :: t) 0 ((c :: t).length - 0) = c :: t := by
    simp [substr]
  rw [hsub]
  simp



theorem mpz_set_str_canonical (d : Char) (r : List Char) (hd : isDigit d = true)
    (hd0 : d ≠ '0') (hr : ∀ c ∈ r, isDigit c = true) :
    mpz_set_str (d :: r)
      = some (((d :: r).foldl (fun a c => a * 10 + digit_value c) 0 : Nat) : Int) ∧
    mpz_set_str ('-' :: d :: r)
      = some (-(((d :: r).foldl (fun a c => a * 10 + digit_value c) 0 : Nat) : Int)) := by
  have hdm : d ≠ '-' := by rintro rfl; revert hd; decide
  obtain ⟨e0, e1, e2⟩ := digit_value_of_isDigit hd
  have hlt : ¬ digit_value d ≥ 10 := by omega
  have hall : ∀ c ∈ d :: r, isDigit c = true := by
    intro c hc
    rcases List.mem_cons.mp hc with h | h
    · rw [h]; exact hd
    · exact hr c h
  have hdrop : (d :: r).dropWhile (· == '0') = d :: r := by
    have hb : (d == '0') = false := by simpa using hd0
    simp [List.dropWhile, hb]
  constructor
  · unfold mpz_set_str
    simp only [List.head?_cons, Option.some.injEq, beq_iff_eq, hdm, Bool.false_eq_true,
      if_false, hlt, hd0, hdrop, mpn_set_str_digits _ _ hall]
  · unfold mpz_set_str
    simp only [List.head?_cons, beq_self_eq_true, if_true, List.drop_succ_cons, List.drop_zero,
      hlt, if_false, hd0, hdrop, mpn_set_str_digits _ _ hall]

/-! ## The order of the keys -/

theorem stringLt_irrefl : ∀ a : List Char, stringLt a a = false
  | [] => rfl
  | c :: cs => by
    rw [stringLt]
    simp [stringLt_irrefl cs]

theorem stringLt_trans : ∀ {a b c : List Char},
    stringLt a b = true → stringLt b c = true → stringLt a c = true
  | [], [], _, h, _ => by simp [stringLt] at h
  | _ :: _, [], _, h, _ => by simp [stringLt] at h
  | _, _ :: _, [], _, h => by simp [stringLt] at h
  | [], _ :: _, _ :: _, _, _ => by simp [stringLt]
  | x :: xs, y :: ys, z :: zs, h1, h2 => by
    rw [stringLt] at h1 h2 ⊢
    by_cases hxy : x.toNat < y.toNat
    · by_cases hyz : y.toNat < z.toNat
      · simp [show x.toNat < z.toNat by omega]
      · by_cases hzy : z.toNat < y.toNat
        · simp [hyz, hzy] at h2
        · simp [show x.toNat < z.toNat by omega]
    · by_cases hyx : y.toNat < x.toNat
      · simp [hxy, hyx] at h1
      · simp only [hxy, hyx, if_false] at h1
        by_cases hyz : y.toNat < z.toNat
        · simp [show x.toNat < z.toNat by omega]
        · by_cases hzy : z.toNat < y.toNat
          · simp [hyz, hzy] at h2
          · simp only [hyz, hzy, if_false] at h2
            simp only [show ¬ x.toNat < z.toNat by omega, show ¬ z.toNat < x.toNat by omega,
              if_false]
            exact stringLt_trans h1 h2

/-- Keys that are equivalent for the map (neither is less) are equal strings. -/
theorem eq_of_not_stringLt : ∀ {a b : List Char},
    stringLt a b = false → stringLt b a = false → a = b
  | [], [], _, _ => rfl
  | [], _ :: _, h, _ => by simp [stringLt] at h
  | _ :: _, [], _, h => by simp [stringLt] at h
  | x :: xs, y :: ys, h1, h2 => by
    rw [stringLt] at h1 h2
    by_cases hxy : x.toNat < y.toNat
    · simp [hxy] at h1
    · by_cases hyx : y.toNat < x.toNat
      · simp [hyx] at h2
      · simp only [hxy, hyx, if_false] at h1 h2
        have hx : x = y := by
          rw [← Char.ofNat_toNat x, ← Char.ofNat_toNat y, show x.toNat = y.toNat by omega]
        rw [hx, eq_of_not_stringLt h1 h2]

theorem ne_of_stringLt {a b : List Char} (h : stringLt a b = true) : a ≠ b := by
  rintro rfl
  rw [stringLt_irrefl] at h
  cases h



/-! ## The store `obj[key] = value` -/

theorem fst_of_mem_mapAssign (key : List Char) (value : Value) :
    ∀ (obj : List (List Char × Value)) (e : List Char × Value),
      e ∈ mapAssign key value obj → e.1 = key ∨ e ∈ obj
  | [], e, h => by
    simp only [mapAssign, List.mem_singleton] at h
    left; rw [h]
  | (k, v) :: rest, e, h => by
    rw [mapAssign] at h
    split at h
    · rcases List.mem_cons.mp h with h | h
      · left; rw [h]
      · right; exact h
    · split at h
      · rcases List.mem_cons.mp h with h | h
        · right; rw [h]; exact List.mem_cons_self _ _
        · rcases fst_of_mem_mapAssign key value rest e h with h | h
          · left; exact h
          · right; exact List.mem_cons_of_mem _ h
      · rename_i h1 h2
        have hk : key = k :=
          eq_of_not_stringLt (by simpa using h1) (by simpa using h2)
        rcases List.mem_cons.mp h with h | h
        · left; rw [h, hk]
        · right; exact List.mem_cons_of_mem _ h

/-- The store keeps the keys of the map strictly ascending. -/
theorem keysAscending_mapAssign (key : List Char) (value : Value) :
    ∀ obj : List (List Char × Value), keysAscending obj →
      keysAscending (mapAssign key value obj)
  | [], _ => by simp [mapAssign, keysAscending]
  | (k, v) :: rest, h => by
    unfold keysAscending at h ⊢
    rw [List.pairwise_cons] at h
    rw [mapAssign]
    split
    · rename_i hlt
      refine List.pairwise_cons.mpr ⟨?_, List.pairwise_cons.mpr h⟩
      intro e he
      rcases List.mem_cons.mp he with he | he
      · rw [he]; exact hlt
      · exact stringLt_trans hlt (h.1 e he)
    · split
      · rename_i hlt
        refine List.pairwise_cons.mpr ⟨?_, keysAscending_mapAssign key value rest h.2⟩
        intro e he
        rcases fst_of_mem_mapAssign key value rest e he with he | he
        · rw [he]; exact hlt
        · exact h.1 e he
      · exact List.pairwise_cons.mpr ⟨h.1, h.2⟩

/-- In a map no entry behind the first carries a key that is not above the first key. -/
theorem not_mem_of_keysAscending {k : List Char} {v : Value}
    {rest : List (List Char × Value)} (h : keysAscending ((k, v) :: rest))
    {key : List Char} (hkey : stringLt k key = false) (w : Value) : (key, w) ∉ rest := by
  intro hmem
  have := (List.pairwise_cons.mp h).1 (key, w) hmem
  simp only at this
  rw [this] at hkey
  cases hkey

/-- What the map holds after the store: the stored entry, and the old entries under the
other keys. -/
theorem mem_mapAssign (key : List Char) (value : Value) :
    ∀ (obj : List (List Char × Value)), keysAscending obj →
      ∀ (k' : List Char) (v' : Value),
        (k', v') ∈ mapAssign key value obj ↔
          (k' = key ∧ v' = value) ∨ (k' ≠ key ∧ (k', v') ∈ obj)
  | [], _, k', v' => by simp [mapAssign]
  | (k, v) :: rest, h, k', v' => by
    have hpw := List.pairwise_cons.mp h
    rw [mapAssign]
    split
    · rename_i hlt
      rw [List.mem_cons]
      constructor
      · rintro (he | he)
        · left; simpa using he
        · right
          refine ⟨?_, he⟩
          rintro rfl
          rcases List.mem_cons.mp he with he | he
          · injection he with he _
            subst he
            rw [stringLt_irrefl] at hlt; cases hlt
          · have := stringLt_trans hlt (hpw.1 _ he)
            simp only at this
            rw [stringLt_irrefl] at this; cases this
      · rintro (⟨h1, h2⟩ | ⟨_, h2⟩)
        · left; rw [h1, h2]
        · right; exact h2
    · rename_i hnlt
      split
      · rename_i hlt
        rw [List.mem_cons, mem_mapAssign key value rest hpw.2 k' v', List.mem_cons]
        constructor
        · rintro (he | he | he)
          · right
            injection he with he1 he2
            subst he1; subst he2
            exact ⟨ne_of_stringLt hlt, Or.inl rfl⟩
          · left; exact he
          · right; exact ⟨he.1, Or.inr he.2⟩
        · rintro (he | ⟨he1, he2 | he2⟩)
          · right; left; exact he
          · left; exact he2
          · right; right; exact ⟨he1, he2⟩
      · rename_i hngt
        have hk : key = k :=
          eq_of_not_stringLt (by simpa using hnlt) (by simpa using hngt)
        subst hk
        rw [List.mem_cons, List.mem_cons]
        constructor
        · rintro (he | he)
          · left; simpa using he
          · right
            refine ⟨?_, Or.inr he⟩
            rintro rfl
            exact not_mem_of_keysAscending h (stringLt_irrefl _) v' he
        · rintro (⟨h1, h2⟩ | ⟨h1, h2 | h2⟩)
          · left; rw [h1, h2]
          · injection h2 with h2 _
            exact absurd h2 h1
          · right; exact h2



/-! ## Storing the entries of an object text -/

theorem storeAll_append (entries : List (List Char × Value)) (key : List Char)
    (value : Value) (obj : List (List Char × Value)) :
    storeAll (entries ++ [(key, value)]) obj = mapAssign key value (storeAll entries obj) := by
  simp [storeAll, List.foldl_append]

theorem keysAscending_storeAll :
    ∀ (entries obj : List (List Char × Value)), keysAscending obj →
      keysAscending (storeAll entries obj)
  | [], _, h => h
  | (k, v) :: es, obj, h =>
    keysAscending_storeAll es (mapAssign k v obj) (keysAscending_mapAssign k v obj h)

/-- After storing the entries one by one, the map holds under each key the value of the
last entry with that key, and what it held before under the keys that no entry carries. -/
theorem mem_storeAll :
    ∀ (entries obj : List (List Char × Value)), keysAscending obj →
      ∀ (key : List Char) (value : Value),
        (key, value) ∈ storeAll entries obj ↔
          lastEntry key entries = some value ∨
            (lastEntry key entries = none ∧ (key, value) ∈ obj)
  | [], obj, _, key, value => by simp [storeAll, lastEntry]
  | (k, v) :: es, obj, h, key, value => by
    have ih := mem_storeAll es (mapAssign k v obj) (keysAscending_mapAssign k v obj h)
      key value
    have hst : storeAll ((k, v) :: es) obj = storeAll es (mapAssign k v obj) := rfl
    rw [hst, ih, mem_mapAssign k v obj h, lastEntry]
    cases hl : lastEntry key es with
    | some w => simp
    | none =>
      by_cases hk : k = key
      · subst hk; simp
        constructor
        · intro h; exact h.symm
        · intro h; exact h.symm
      · have hk' : key ≠ k := fun h => hk h.symm
        simp [hk, hk']

/-- The loop of `parseObject` builds the map that storing the entries of the text, in text
order, builds; both loops fail together, and stop at the same cursor. -/
theorem parseObjectLoop_eq_storeAll :
    ∀ (fuel : Nat) (json : List Char) (pos : Nat) (entries : List (List Char × Value)),
      parseObjectLoop fuel json pos (storeAll entries [])
        = match objectEntriesLoop fuel json pos entries with
          | .ok (es, p) => .ok (storeAll es [], p)
          | .error e => .error e
  | 0, _, _, _ => by simp [parseObjectLoop, objectEntriesLoop]
  | fuel + 1, json, pos, entries => by
    rw [parseObjectLoop, objectEntriesLoop]
    cases json[pos]? with
    | none => rfl
    | some c =>
      simp only
      by_cases hc : c = '\x7d'
      · simp [hc]
      · simp only [hc, if_false]
        cases parseKey json pos with
        | error e => rfl
        | ok kp =>
          obtain ⟨key, pos1⟩ := kp
          simp only
          cases parseValue fuel json pos1 with
          | error e => rfl
          | ok vp =>
            obtain ⟨value, pos2⟩ := vp
            simp only
            rw [← storeAll_append]
            exact parseObjectLoop_eq_storeAll fuel json _ _

theorem parseObject_eq_storeAll (fuel : Nat) (json : List Char) (pos : Nat) :
    parseObject fuel json pos
      = match objectEntries fuel json pos with
        | .ok (es, p) => .ok (storeAll es [], p)
        | .error e => .error e := by
  cases fuel with
  | zero => simp [parseObject, objectEntries]
  | succ fuel =>
    rw [parseObject, objectEntries]
    have h := parseObjectLoop_eq_storeAll fuel json (skipWhitespace json (pos + 1)) []
    have h0 : storeAll [] [] = ([] : List (List Char × Value)) := rfl
    rw [h0] at h
    rw [h]
    cases objectEntriesLoop fuel json (skipWhitespace json (pos + 1)) [] with
    | error e => rfl
    | ok ep =>
      obtain ⟨es, p⟩ := ep
      simp only
      cases charAt json p with
      | none => rfl
      | some c =>
        simp only
        by_cases hc : c = '\x7d'
        · simp [hc]
        · simp [hc]

/-! ## The cursor only moves forward -/

theorem le_parseNumber {json : List Char} {p0 : Nat} {c : Char} {v : Value} {pos' : Nat}
    (h : parseNumber json p0 c = .ok (v, pos')) : p0 ≤ pos' := by
  have hp1 : p0 ≤ (if c = '-' then p0 + 1 else p0) := by split <;> omega
  unfold parseNumber at h
  generalize (if c = '-' then p0 + 1 else p0) = p1 at *
  dsimp only at h
  have hfst := numberLoop_fst json (json.length - p1) p1 false
  have hle := le_whileLoop numberChar json (json.length - p1) p1
  rw [← hfst] at hle
  generalize numberLoop json (json.length - p1) p1 false = scan at h hle
  have hpos : pos' = scan.1 := by
    split at h
    · split at h
      · injection h with h; injection h with _ h; exact h.symm
      · cases h
    · split at h
      · injection h with h; injection h with _ h; exact h.symm
      · cases h
  omega

/-- The steps of `parseKey`, read off a successful run. -/
theorem parseKey_ok {json : List Char} {pos : Nat} {key : List Char} {pos' : Nat}
    (h : parseKey json pos = .ok (key, pos')) :
    ∃ c1 pos2 pos3 pos4,
      charAt json (skipWhitespace json pos) = some c1 ∧
      pos2 = skipWhitespace json
        (if c1 = ',' then skipWhitespace json pos + 1 else skipWhitespace json pos) ∧
      charAt json pos2 = some '"' ∧
      pos3 = scanToQuote json (pos2 + 1) ∧
      key = substr json (pos2 + 1) (pos3 - (pos2 + 1)) ∧
      pos4 = skipWhitespace json (pos3 + 1) ∧
      charAt json pos4 = some ':' ∧
      pos' = skipWhitespace json (pos4 + 1) := by
  unfold parseKey at h
  dsimp only at h
  split at h
  · cases h
  · rename_i c1 hc1
    split at h
    · cases h
    · rename_i c2 hc2
      split at h
      · cases h
      · rename_i hq
        split at h
        · cases h
        · rename_i c3 hc3
          split at h
          · cases h
          · rename_i hcol
            injection h with h
            injection h with hk hp
            have hq' : c2 = '"' := by simpa using hq
            have hcol' : c3 = ':' := by simpa using hcol
            subst hq'; subst hcol'
            exact ⟨c1, _, _, _, hc1, rfl, hc2, rfl, hk.symm, rfl, hc3, hp.symm⟩

theorem le_parseKey {json : List Char} {pos : Nat} {key : List Char} {pos' : Nat}
    (h : parseKey json pos = .ok (key, pos')) : pos + 3 ≤ pos' := by
  obtain ⟨c1, pos2, pos3, pos4, _, h2, _, h3, _, h4, _, h5⟩ := parseKey_ok h
  have a1 := le_skipWhitespace json pos
  have a2 := le_skipWhitespace json
    (if c1 = ',' then skipWhitespace json pos + 1 else skipWhitespace json pos)
  have a2' : skipWhitespace json pos
      ≤ (if c1 = ',' then skipWhitespace json pos + 1 else skipWhitespace json pos) := by
    split <;> omega
  have a3 := le_scanToQuote json (pos2 + 1)
  have a4 := le_skipWhitespace json (pos3 + 1)
  have a5 := le_skipWhitespace json (pos4 + 1)
  omega



/-! ## Successful runs, step by step -/

theorem parseObject_ok_iff (fuel : Nat) (json : List Char) (pos : Nat)
    (obj : List (List Char × Value)) (pos' : Nat) :
    parseObject (fuel + 1) json pos = .ok (obj, pos') ↔
      ∃ p, parseObjectLoop fuel json (skipWhitespace json (pos + 1)) [] = .ok (obj, p) ∧
        charAt json p = some '\x7d' ∧ pos' = p + 1 := by
  rw [parseObject]
  cases hl : parseObjectLoop fuel json (skipWhitespace json (pos + 1)) [] with
  | error e => simp
  | ok op =>
    obtain ⟨o, p⟩ := op
    simp only
    cases hc : charAt json p with
    | none =>
      simp only [Except.ok.injEq, Prod.mk.injEq]
      constructor
      · intro h; cases h
      · rintro ⟨q, ⟨_, rfl⟩, h2, _⟩
        rw [hc] at h2; cases h2
    | some c =>
      simp only [Except.ok.injEq, Prod.mk.injEq]
      by_cases hcc : c = '\x7d'
      · subst hcc
        simp only [ne_eq, not_true_eq_false, if_false, Except.ok.injEq, Prod.mk.injEq]
        constructor
        · rintro ⟨rfl, rfl⟩
          exact ⟨p, ⟨rfl, rfl⟩, hc, rfl⟩
        · rintro ⟨q, ⟨rfl, rfl⟩, _, rfl⟩
          exact ⟨rfl, rfl⟩
      · simp only [ne_eq, hcc, not_false_eq_true, if_true]
        constructor
        · intro h; cases h
        · rintro ⟨q, ⟨_, rfl⟩, h2, _⟩
          rw [hc] at h2
          injection h2 with h2
          exact absurd h2 hcc

theorem parseArray_ok_iff (fuel : Nat) (json : List Char) (pos : Nat)
    (arr : List Value) (pos' : Nat) :
    parseArray (fuel + 1) json pos = .ok (arr, pos') ↔
      ∃ p, parseArrayLoop fuel json (skipWhitespace json (pos + 1)) [] = .ok (arr, p) ∧
        charAt json p = some ']' ∧ pos' = p + 1 := by
  rw [parseArray]
  cases hl : parseArrayLoop fuel json (skipWhitespace json (pos + 1)) [] with
  | error e => simp
  | ok op =>
    obtain ⟨o, p⟩ := op
    simp only
    cases hc : charAt json p with
    | none =>
      simp only [Except.ok.injEq, Prod.mk.injEq]
      constructor
      · intro h; cases h
      · rintro ⟨q, ⟨_, rfl⟩, h2, _⟩
        rw [hc] at h2; cases h2
    | some c =>
      simp only [Except.ok.injEq, Prod.mk.injEq]
      by_cases hcc : c = ']'
      · subst hcc
        simp only [ne_eq, not_true_eq_false, if_false, Except.ok.injEq, Prod.mk.injEq]
        constructor
        · rintro ⟨rfl, rfl⟩
          exact ⟨p, ⟨rfl, rfl⟩, hc, rfl⟩
        · rintro ⟨q, ⟨rfl, rfl⟩, _, rfl⟩
          exact ⟨rfl, rfl⟩
      · simp only [ne_eq, hcc, not_false_eq_true, if_true]
        constructor
        · intro h; cases h
        · rintro ⟨q, ⟨_, rfl⟩, h2, _⟩
          rw [hc] at h2
          injection h2 with h2
          exact absurd h2 hcc

theorem parseObjectLoop_ok_iff (fuel : Nat) (json : List Char) (pos : Nat)
    (obj obj' : List (List Char × Value)) (pos' : Nat) :
    parseObjectLoop (fuel + 1) json pos obj = .ok (obj', pos') ↔
      ((json[pos]? = none ∨ json[pos]? = some '\x7d') ∧ obj' = obj ∧ pos' = pos) ∨
      (∃ c key pos1 value pos2, json[pos]? = some c ∧ c ≠ '\x7d' ∧
        parseKey json pos = .ok (key, pos1) ∧
        parseValue fuel json pos1 = .ok (value, pos2) ∧
        parseObjectLoop fuel json (skipWhitespace json pos2) (mapAssign key value obj)
          = .ok (obj', pos')) := by
  rw [parseObjectLoop]
  cases hg : json[pos]? with
  | none =>
    simp only [Except.ok.injEq, Prod.mk.injEq, true_or, true_and]
    constructor
    · rintro ⟨rfl, rfl⟩; exact Or.inl ⟨rfl, rfl⟩
    · rintro (⟨rfl, rfl⟩ | ⟨c, _, _, _, _, h, _⟩)
      · exact ⟨rfl, rfl⟩
      · cases h
  | some c =>
    simp only
    by_cases hc : c = '\x7d'
    · subst hc
      simp only [if_true, Except.ok.injEq, Prod.mk.injEq, or_true, true_and]
      constructor
      · rintro ⟨rfl, rfl⟩; exact Or.inl ⟨rfl, rfl⟩
      · rintro (⟨rfl, rfl⟩ | ⟨c, _, _, _, _, h, h2, _⟩)
        · exact ⟨rfl, rfl⟩
        · injection h with h
          exact absurd h.symm h2
    · simp only [hc, if_false]
      cases hk : parseKey json pos with
      | error e =>
        simp only
        constructor
        · intro h; cases h
        · rintro (⟨h | h, _⟩ | ⟨c, _, _, _, _, _, _, h, _⟩)
          · cases h
          · injection h with h; exact absurd h hc
          · cases h
      | ok kp =>
        obtain ⟨key, pos1⟩ := kp
        simp only
        cases hv : parseValue fuel json pos1 with
        | error e =>
          simp only
          constructor
          · intro h; cases h
          · rintro (⟨h | h, _⟩ | ⟨c, _, _, _, _, _, _, h, h', _⟩)
            · cases h
            · injection h with h; exact absurd h hc
            · injection h with h
              injection h with h1 h2
              subst h1; subst h2
              rw [hv] at h'; cases h'
        | ok vp =>
          obtain ⟨value, pos2⟩ := vp
          simp only
          constructor
          · intro h
            exact Or.inr ⟨c, key, pos1, value, pos2, rfl, hc, rfl, hv, h⟩
          · rintro (⟨h | h, _⟩ | ⟨c, _, _, _, _, _, _, h, h', h''⟩)
            · cases h
            · injection h with h; exact absurd h hc
            · injection h with h
              injection h with h1 h2
              subst h1; subst h2
              rw [hv] at h'
              injection h' with h'
              injection h' with h1 h2
              subst h1; subst h2
              exact h''

theorem parseArrayLoop_ok_iff (fuel : Nat) (json : List Char) (pos : Nat)
    (arr arr' : List Value) (pos' : Nat) :
    parseArrayLoop (fuel + 1) json pos arr = .ok (arr', pos') ↔
      ((json[pos]? = none ∨ json[pos]? = some ']') ∧ arr' = arr ∧ pos' = pos) ∨
      (∃ c value pos2, json[pos]? = some c ∧ c ≠ ']' ∧
        parseValue fuel json (skipWhitespace json (if c = ',' then pos + 1 else pos))
          = .ok (value, pos2) ∧
        parseArrayLoop fuel json (skipWhitespace json pos2) (arr ++ [value])
          = .ok (arr', pos')) := by
  rw [parseArrayLoop]
  cases hg : json[pos]? with
  | none =>
    simp only [Except.ok.injEq, Prod.mk.injEq, true_or, true_and]
    constructor
    · rintro ⟨rfl, rfl⟩; exact Or.inl ⟨rfl, rfl⟩
    · rintro (⟨rfl, rfl⟩ | ⟨c, _, _, h, _⟩)
      · exact ⟨rfl, rfl⟩
      · cases h
  | some c =>
    simp only
    by_cases hc : c = ']'
    · subst hc
      simp only [if_true, Except.ok.injEq, Prod.mk.injEq, or_true, true_and]
      constructor
      · rintro ⟨rfl, rfl⟩; exact Or.inl ⟨rfl, rfl⟩
      · rintro (⟨rfl, rfl⟩ | ⟨c, _, _, h, h2, _⟩)
        · exact ⟨rfl, rfl⟩
        · injection h with h
          exact absurd h.symm h2
    · simp only [hc, if_false]
      cases hv : parseValue fuel json (skipWhitespace json (if c = ',' then pos + 1 else pos)) with
      | error e =>
        simp only
        constructor
        · intro h; cases h
        · rintro (⟨h | h, _⟩ | ⟨c', _, _, h, _, h', _⟩)
          · cases h
          · injection h with h; exact absurd h hc
          · injection h with h
            subst h
            rw [hv] at h'; cases h'
      | ok vp =>
        obtain ⟨value, pos2⟩ := vp
        simp only
        constructor
        · intro h
          exact Or.inr ⟨c, value, pos2, rfl, hc, hv, h⟩
        · rintro (⟨h | h, _⟩ | ⟨c', _, _, h, _, h', h''⟩)
          · cases h
          · injection h with h; exact absurd h hc
          · injection h with h
            subst h
            rw [hv] at h'
            injection h' with h'
            injection h' with h1 h2
            subst h1; subst h2
            exact h''



theorem parseValue_ok_iff (fuel : Nat) (json : List Char) (pos : Nat) (v : Value)
    (pos' : Nat) :
    parseValue (fuel + 1) json pos = .ok (v, pos') ↔
      ∃ c, charAt json (skipWhitespace json pos) = some c ∧
        ((c = '"' ∧
            v = .STRING (substr json (skipWhitespace json pos + 1)
              (scanToQuote json (skipWhitespace json pos + 1)
                - (skipWhitespace json pos + 1))) ∧
            pos' = scanToQuote json (skipWhitespace json pos + 1) + 1) ∨
         (c = '\x7b' ∧ ∃ obj,
            parseObject fuel json (skipWhitespace json pos) = .ok (obj, pos') ∧
            v = .OBJECT obj) ∨
         (c = '[' ∧ ∃ arr,
            parseArray fuel json (skipWhitespace json pos) = .ok (arr, pos') ∧
            v = .ARRAY arr) ∨
         (c = 't' ∧ substr json (skipWhitespace json pos) 4 = "true".toList ∧
            v = .BOOLEAN true ∧ pos' = skipWhitespace json pos + 4) ∨
         (c = 'f' ∧ substr json (skipWhitespace json pos) 5 = "false".toList ∧
            v = .BOOLEAN false ∧ pos' = skipWhitespace json pos + 5) ∨
         (c = 'n' ∧ substr json (skipWhitespace json pos) 4 = "null".toList ∧
            v = .NIL ∧ pos' = skipWhitespace json pos + 4) ∨
         ((isDigit c = true ∨ c = '-') ∧
            parseNumber json (skipWhitespace json pos) c = .ok (v, pos'))) := by
  rw [parseValue]
  dsimp only
  generalize skipWhitespace json pos = p0
  cases hc : charAt json p0 with
  | none =>
    constructor
    · intro h; cases h
    · rintro ⟨c, h, _⟩; cases h
  | some c =>
    dsimp only
    constructor
    · intro h
      refine ⟨c, rfl, ?_⟩
      split at h
      · rename_i h1
        injection h with h; injection h with e1 e2
        exact Or.inl ⟨h1, e1.symm, e2.symm⟩
      · split at h
        · rename_i h2
          right; left
          cases ho : parseObject fuel json p0 with
          | error e => rw [ho] at h; cases h
          | ok op =>
            obtain ⟨obj, p⟩ := op
            rw [ho] at h
            injection h with h; injection h with e1 e2
            subst e2
            exact ⟨h2, obj, rfl, e1.symm⟩
        · split at h
          · rename_i h3
            right; right; left
            cases ho : parseArray fuel json p0 with
            | error e => rw [ho] at h; cases h
            | ok op =>
              obtain ⟨arr, p⟩ := op
              rw [ho] at h
              injection h with h; injection h with e1 e2
              subst e2
              exact ⟨h3, arr, rfl, e1.symm⟩
          · split at h
            · rename_i h4
              injection h with h; injection h with e1 e2
              exact Or.inr (Or.inr (Or.inr (Or.inl ⟨h4.1, h4.2, e1.symm, e2.symm⟩)))
            · split at h
              · rename_i h5
                injection h with h; injection h with e1 e2
                exact Or.inr (Or.inr (Or.inr (Or.inr (Or.inl
                  ⟨h5.1, h5.2, e1.symm, e2.symm⟩))))
              · split at h
                · rename_i h6
                  injection h with h; injection h with e1 e2
                  exact Or.inr (Or.inr (Or.inr (Or.inr (Or.inr (Or.inl
                    ⟨h6.1, h6.2, e1.symm, e2.symm⟩)))))
                · split at h
                  · rename_i h7
                    exact Or.inr (Or.inr (Or.inr (Or.inr (Or.inr (Or.inr ⟨h7, h⟩)))))
                  · cases h
    · rintro ⟨c', hc', h⟩
      injection hc' with hc'
      subst hc'
      rcases h with ⟨h1, e1, e2⟩ | ⟨h2, obj, ho, e1⟩ | ⟨h3, arr, ha, e1⟩ | ⟨h4, hs, e1, e2⟩ |
        ⟨h5, hs, e1, e2⟩ | ⟨h6, hs, e1, e2⟩ | ⟨h7, hn⟩
      · rw [if_pos h1, e1, e2]
      · subst h2
        rw [if_neg (by decide), if_pos rfl, ho, e1]
      · subst h3
        rw [if_neg (by decide), if_neg (by decide), if_pos rfl, ha, e1]
      · subst h4
        rw [if_neg (by decide), if_neg (by decide), if_neg (by decide), if_pos ⟨rfl, hs⟩,
          e1, e2]
      · subst h5
        rw [if_neg (by decide), if_neg (by decide), if_neg (by decide),
          if_neg (fun h => absurd h.1 (by decide)), if_pos ⟨rfl, hs⟩, e1, e2]
      · subst h6
        rw [if_neg (by decide), if_neg (by decide), if_neg (by decide),
          if_neg (fun h => absurd h.1 (by decide)),
          if_neg (fun h => absurd h.1 (by decide)), if_pos ⟨rfl, hs⟩, e1, e2]
      · have g1 : c ≠ '"' := by rintro rfl; revert h7; decide
        have g2 : c ≠ '\x7b' := by rintro rfl; revert h7; decide
        have g3 : c ≠ '[' := by rintro rfl; revert h7; decide
        have g4 : c ≠ 't' := by rintro rfl; revert h7; decide
        have g5 : c ≠ 'f' := by rintro rfl; revert h7; decide
        have g6 : c ≠ 'n' := by rintro rfl; revert h7; decide
        rw [if_neg g1, if_neg g2, if_neg g3, if_neg (fun h => g4 h.1),
          if_neg (fun h => g5 h.1), if_neg (fun h => g6 h.1), if_pos h7, hn]

theorem parseKey_ok_iff (json : List Char) (pos : Nat) (key : List Char) (pos' : Nat) :
    parseKey json pos = .ok (key, pos') ↔
      ∃ c1 pos2 pos3 pos4,
        charAt json (skipWhitespace json pos) = some c1 ∧
        pos2 = skipWhitespace json
          (if c1 = ',' then skipWhitespace json pos + 1 else skipWhitespace json pos) ∧
        charAt json pos2 = some '"' ∧
        pos3 = scanToQuote json (pos2 + 1) ∧
        key = substr json (pos2 + 1) (pos3 - (pos2 + 1)) ∧
        pos4 = skipWhitespace json (pos3 + 1) ∧
        charAt json pos4 = some ':' ∧
        pos' = skipWhitespace json (pos4 + 1) := by
  constructor
  · exact parseKey_ok
  · rintro ⟨c1, pos2, pos3, pos4, h1, h2, h3, h4, h5, h6, h7, h8⟩
    unfold parseKey
    dsimp only
    rw [h1]
    dsimp only
    rw [← h2, h3]
    dsimp only
    rw [if_neg (by simp), ← h4, ← h6, h7]
    dsimp only
    rw [if_neg (by simp), h5, h8]

/-- No function of the parser moves the cursor backwards. -/
theorem cursor_le (json : List Char) : ∀ fuel : Nat,
    (∀ pos v pos', parseValue fuel json pos = .ok (v, pos') → pos ≤ pos') ∧
    (∀ pos obj pos', parseObject fuel json pos = .ok (obj, pos') → pos ≤ pos') ∧
    (∀ pos obj obj' pos', parseObjectLoop fuel json pos obj = .ok (obj', pos') →
      pos ≤ pos') ∧
    (∀ pos arr pos', parseArray fuel json pos = .ok (arr, pos') → pos ≤ pos') ∧
    (∀ pos arr arr' pos', parseArrayLoop fuel json pos arr = .ok (arr', pos') →
      pos ≤ pos')
  | 0 => by
    refine ⟨?_, ?_, ?_, ?_, ?_⟩ <;> intros <;> rename_i h
    · simp [parseValue] at h
    · simp [parseObject] at h
    · simp [parseObjectLoop] at h
    · simp [parseArray] at h
    · simp [parseArrayLoop] at h
  | fuel + 1 => by
    obtain ⟨ihV, ihO, ihOL, ihA, ihAL⟩ := cursor_le json fuel
    refine ⟨?_, ?_, ?_, ?_, ?_⟩
    · intro pos v pos' h
      rw [parseValue_ok_iff] at h
      obtain ⟨c, hc, h⟩ := h
      have hs := le_skipWhitespace json pos
      rcases h with ⟨_, _, e⟩ | ⟨_, obj, ho, _⟩ | ⟨_, arr, ha, _⟩ | ⟨_, _, _, e⟩ |
        ⟨_, _, _, e⟩ | ⟨_, _, _, e⟩ | ⟨_, hn⟩
      · have := le_scanToQuote json (skipWhitespace json pos + 1)
        omega
      · have := ihO _ _ _ ho; omega
      · have := ihA _ _ _ ha; omega
      · omega
      · omega
      · omega
      · have := le_parseNumber hn; omega
    · intro pos obj pos' h
      rw [parseObject_ok_iff] at h
      obtain ⟨p, hl, _, e⟩ := h
      have := ihOL _ _ _ _ hl
      have := le_skipWhitespace json (pos + 1)
      omega
    · intro pos obj obj' pos' h
      rw [parseObjectLoop_ok_iff] at h
      rcases h with ⟨_, _, e⟩ | ⟨c, key, pos1, value, pos2, _, _, hk, hv, hl⟩
      · omega
      · have := le_parseKey hk
        have := ihV _ _ _ hv
        have := ihOL _ _ _ _ hl
        have := le_skipWhitespace json pos2
        omega
    · intro pos arr pos' h
      rw [parseArray_ok_iff] at h
      obtain ⟨p, hl, _, e⟩ := h
      have := ihAL _ _ _ _ hl
      have := le_skipWhitespace json (pos + 1)
      omega
    · intro pos arr arr' pos' h
      rw [parseArrayLoop_ok_iff] at h
      rcases h with ⟨_, _, e⟩ | ⟨c, value, pos2, _, _, hv, hl⟩
      · omega
      · have := ihV _ _ _ hv
        have := ihAL _ _ _ _ hl
        have := le_skipWhitespace json pos2
        have := le_skipWhitespace json (if c = ',' then pos + 1 else pos)
        have : pos ≤ (if c = ',' then pos + 1 else pos) := by split <;> omega
        omega

/-- A run that succeeds still succeeds, with the same result, on more fuel. -/
theorem fuel_succ (json : List Char) : ∀ fuel : Nat,
    (∀ pos r, parseValue fuel json pos = .ok r → parseValue (fuel + 1) json pos = .ok r) ∧
    (∀ pos r, parseObject fuel json pos = .ok r → parseObject (fuel + 1) json pos = .ok r) ∧
    (∀ pos obj r, parseObjectLoop fuel json pos obj = .ok r →
      parseObjectLoop (fuel + 1) json pos obj = .ok r) ∧
    (∀ pos r, parseArray fuel json pos = .ok r → parseArray (fuel + 1) json pos = .ok r) ∧
    (∀ pos arr r, parseArrayLoop fuel json pos arr = .ok r →
      parseArrayLoop (fuel + 1) json pos arr = .ok r)
  | 0 => by
    refine ⟨?_, ?_, ?_, ?_, ?_⟩ <;> intros <;> rename_i h
    · simp [parseValue] at h
    · simp [parseObject] at h
    · simp [parseObjectLoop] at h
    · simp [parseArray] at h
    · simp [parseArrayLoop] at h
  | fuel + 1 => by
    obtain ⟨ihV, ihO, ihOL, ihA, ihAL⟩ := fuel_succ json fuel
    refine ⟨?_, ?_, ?_, ?_, ?_⟩
    · rintro pos ⟨v, pos'⟩ h
      rw [parseValue_ok_iff] at h ⊢
      obtain ⟨c, hc, h⟩ := h
      refine ⟨c, hc, ?_⟩
      rcases h with h | ⟨h1, obj, ho, h2⟩ | ⟨h1, arr, ha, h2⟩ | h | h | h | h
      · exact Or.inl h
      · exact Or.inr (Or.inl ⟨h1, obj, ihO _ _ ho, h2⟩)
      · exact Or.inr (Or.inr (Or.inl ⟨h1, arr, ihA _ _ ha, h2⟩))
      · exact Or.inr (Or.inr (Or.inr (Or.inl h)))
      · exact Or.inr (Or.inr (Or.inr (Or.inr (Or.inl h))))
      · exact Or.inr (Or.inr (Or.inr (Or.inr (Or.inr (Or.inl h)))))
      · exact Or.inr (Or.inr (Or.inr (Or.inr (Or.inr (Or.inr h)))))
    · rintro pos ⟨obj, pos'⟩ h
      rw [parseObject_ok_iff] at h ⊢
      obtain ⟨p, hl, h⟩ := h
      exact ⟨p, ihOL _ _ _ hl, h⟩
    · rintro pos obj ⟨obj', pos'⟩ h
      rw [parseObjectLoop_ok_iff] at h ⊢
      rcases h with h | ⟨c, key, pos1, value, pos2, h1, h2, hk, hv, hl⟩
      · exact Or.inl h
      · exact Or.inr ⟨c, key, pos1, value, pos2, h1, h2, hk, ihV _ _ hv, ihOL _ _ _ hl⟩
    · rintro pos ⟨arr, pos'⟩ h
      rw [parseArray_ok_iff] at h ⊢
      obtain ⟨p, hl, h⟩ := h
      exact ⟨p, ihAL _ _ _ hl, h⟩
    · rintro pos arr ⟨arr', pos'⟩ h
      rw [parseArrayLoop_ok_iff] at h ⊢
      rcases h with h | ⟨c, value, pos2, h1, h2, hv, hl⟩
      · exact Or.inl h
      · exact Or.inr ⟨c, value, pos2, h1, h2, ihV _ _ hv, ihAL _ _ _ hl⟩

theorem parseValue_fuel_le {json : List Char} {pos : Nat} {r : Value × Nat} :
    ∀ {fuel fuel' : Nat}, fuel ≤ fuel' → parseValue fuel json pos = .ok r →
      parseValue fuel' json pos = .ok r := by
  intro fuel fuel' hle h
  induction hle with
  | refl => exact h
  | step _ ih => exact (fuel_succ json _).1 _ _ ih

/-! ## Text after the parsed value -/

theorem getElem?_append_of_lt (s u : List Char) {i : Nat} (h : i < s.length) :
    (s ++ u)[i]? = s[i]? :=
  List.getElem?_append_left h

theorem charAt_append (s u : List Char) {pos : Nat} (h : pos < s.length) :
    charAt (s ++ u) pos = charAt s pos := by
  unfold charAt
  rw [getElem?_append_of_lt s u h, List.getElem?_eq_getElem h]

/-- A scan that stops inside `s` stops at the same place when text follows `s`. -/
theorem whileLoop_append (p : Char → Bool) (s u : List Char) (pos : Nat)
    (h : whileLoop p s (s.length - pos) pos < s.length) :
    whileLoop p (s ++ u) ((s ++ u).length - pos) pos = whileLoop p s (s.length - pos) pos := by
  have hle := le_whileLoop p s (s.length - pos) pos
  apply whileLoop_eq _ _ _ _ _ hle
  · rw [List.length_append]; omega
  · intro i h1 h2
    rw [getElem?_append_of_lt s u (by omega)]
    exact whileLoop_consumed p s _ pos i h1 h2
  · intro c hc
    rw [getElem?_append_of_lt s u h] at hc
    exact whileLoop_stop p s _ pos (Nat.le_refl _) c hc

theorem skipWhitespace_append (s u : List Char) (pos : Nat)
    (h : skipWhitespace s pos < s.length) :
    skipWhitespace (s ++ u) pos = skipWhitespace s pos :=
  whileLoop_append _ s u pos h

theorem scanToQuote_append (s u : List Char) (pos : Nat)
    (h : scanToQuote s pos < s.length) :
    scanToQuote (s ++ u) pos = scanToQuote s pos :=
  whileLoop_append _ s u pos h

theorem substr_append (s u : List Char) (pos len : Nat) (h : pos + len ≤ s.length) :
    substr (s ++ u) pos len = substr s pos len := by
  unfold substr
  rw [List.drop_append_of_le_length (by omega), List.take_append_of_le_length]
  rw [List.length_drop]; omega

/-- The number scan is the same when the text that follows `s` does not start with a
digit or a point. -/
theorem numberLoop_append (s u : List Char) (p1 : Nat) (hp1 : p1 ≤ s.length)
    (hu : ∀ c, u.head? = some c → numberChar c = false) :
    numberLoop (s ++ u) ((s ++ u).length - p1) p1 false
      = numberLoop s (s.length - p1) p1 false := by
  have hq := whileLoop_le numberChar s (s.length - p1) p1 hp1
  have hle := le_whileLoop numberChar s (s.length - p1) p1
  have hfst : (numberLoop (s ++ u) ((s ++ u).length - p1) p1 false).1
      = (numberLoop s (s.length - p1) p1 false).1 := by
    rw [numberLoop_fst, numberLoop_fst]
    apply whileLoop_eq _ _ _ _ _ hle
    · rw [List.length_append]; omega
    · intro i h1 h2
      rw [getElem?_append_of_lt s u (by omega)]
      exact whileLoop_consumed numberChar s _ p1 i h1 h2
    · intro c hc
      by_cases hlt : whileLoop numberChar s (s.length - p1) p1 < s.length
      · rw [getElem?_append_of_lt s u hlt] at hc
        exact whileLoop_stop numberChar s _ p1 (Nat.le_refl _) c hc
      · have heq : whileLoop numberChar s (s.length - p1) p1 = s.length := by omega
        rw [heq, List.getElem?_append_right (Nat.le_refl _), Nat.sub_self] at hc
        apply hu
        cases u with
        | nil => simp at hc
        | cons a t => simpa using hc
  have hsnd : (numberLoop (s ++ u) ((s ++ u).length - p1) p1 false).2
      = (numberLoop s (s.length - p1) p1 false).2 := by
    have h1 := numberLoop_snd (s ++ u) ((s ++ u).length - p1) p1 false
    have h2 := numberLoop_snd s (s.length - p1) p1 false
    rw [hfst] at h1
    have hiff : (numberLoop (s ++ u) ((s ++ u).length - p1) p1 false).2 = true
        ↔ (numberLoop s (s.length - p1) p1 false).2 = true := by
      rw [h1, h2]
      have hq' : (numberLoop s (s.length - p1) p1 false).1 ≤ s.length := by
        rw [numberLoop_fst]; exact hq
      constructor
      · rintro (h | ⟨i, a, b, c⟩)
        · exact Or.inl h
        · rw [getElem?_append_of_lt s u (by omega)] at c
          exact Or.inr ⟨i, a, b, c⟩
      · rintro (h | ⟨i, a, b, c⟩)
        · exact Or.inl h
        · rw [← getElem?_append_of_lt s u (by omega)] at c
          exact Or.inr ⟨i, a, b, c⟩
    exact Bool.eq_iff_iff.mpr hiff
  exact Prod.ext hfst hsnd

theorem parseNumber_append (s u : List Char) (p0 : Nat) (c : Char) (hp0 : p0 < s.length)
    (hu : ∀ c, u.head? = some c → numberChar c = false) :
    parseNumber (s ++ u) p0 c = parseNumber s p0 c := by
  unfold parseNumber
  dsimp only
  have hp1 : (if c = '-' then p0 + 1 else p0) ≤ s.length := by split <;> omega
  have hp1' : p0 ≤ (if c = '-' then p0 + 1 else p0) := by split <;> omega
  rw [numberLoop_append s u _ hp1 hu]
  have hq : (numberLoop s (s.length - (if c = '-' then p0 + 1 else p0))
      (if c = '-' then p0 + 1 else p0) false).1 ≤ s.length := by
    rw [numberLoop_fst]; exact whileLoop_le _ _ _ _ hp1
  have hle : (if c = '-' then p0 + 1 else p0) ≤ (numberLoop s
      (s.length - (if c = '-' then p0 + 1 else p0))
      (if c = '-' then p0 + 1 else p0) false).1 := by
    rw [numberLoop_fst]; exact le_whileLoop _ _ _ _
  rw [substr_append s u p0 _ (by omega)]

theorem parseKey_append (s u : List Char) {pos : Nat} {key : List Char} {pos' : Nat}
    (h : parseKey s pos = .ok (key, pos')) (hlt : pos' < s.length) :
    parseKey (s ++ u) pos = .ok (key, pos') := by
  rw [parseKey_ok_iff] at h ⊢
  obtain ⟨c1, pos2, pos3, pos4, h1, h2, h3, h4, h5, h6, h7, h8⟩ := h
  have a1 := le_skipWhitespace s pos
  have a2 := le_skipWhitespace s
    (if c1 = ',' then skipWhitespace s pos + 1 else skipWhitespace s pos)
  have a2' : skipWhitespace s pos
      ≤ (if c1 = ',' then skipWhitespace s pos + 1 else skipWhitespace s pos) := by
    split <;> omega
  have a3 := le_scanToQuote s (pos2 + 1)
  have a4 := le_skipWhitespace s (pos3 + 1)
  have a5 := le_skipWhitespace s (pos4 + 1)
  have e1 : skipWhitespace (s ++ u) pos = skipWhitespace s pos :=
    skipWhitespace_append s u pos (by omega)
  have e2 : skipWhitespace (s ++ u)
      (if c1 = ',' then skipWhitespace s pos + 1 else skipWhitespace s pos) = pos2 := by
    rw [skipWhitespace_append s u _ (by omega)]; exact h2.symm
  have e3 : scanToQuote (s ++ u) (pos2 + 1) = pos3 := by
    rw [scanToQuote_append s u _ (by omega)]; exact h4.symm
  have e4 : skipWhitespace (s ++ u) (pos3 + 1) = pos4 := by
    rw [skipWhitespace_append s u _ (by omega)]; exact h6.symm
  have e5 : skipWhitespace (s ++ u) (pos4 + 1) = pos' := by
    rw [skipWhitespace_append s u _ (by omega)]; exact h8.symm
  refine ⟨c1, pos2, pos3, pos4, ?_, ?_, ?_, ?_, ?_, ?_, ?_, ?_⟩
  · rw [e1, charAt_append s u (by omega)]; exact h1
  · rw [e1, e2]
  · rw [charAt_append s u (by omega)]; exact h3
  · exact e3.symm
  · rw [substr_append s u _ _ (by omega)]; exact h5
  · exact e4.symm
  · rw [charAt_append s u (by omega)]; exact h7
  · exact e5.symm

/-- A run on `s` that succeeds and ends inside `s` is not changed by text appended to
`s`, provided that text does not start with a digit or a point. -/
theorem parse_append (s u : List Char) (hu : ∀ c, u.head? = some c → numberChar c = false) :
    ∀ fuel : Nat,
    (∀ pos v pos', parseValue fuel s pos = .ok (v, pos') → pos' ≤ s.length →
      parseValue fuel (s ++ u) pos = .ok (v, pos')) ∧
    (∀ pos obj pos', parseObject fuel s pos = .ok (obj, pos') → pos' ≤ s.length →
      parseObject fuel (s ++ u) pos = .ok (obj, pos')) ∧
    (∀ pos obj obj' pos', parseObjectLoop fuel s pos obj = .ok (obj', pos') →
      pos' < s.length → parseObjectLoop fuel (s ++ u) pos obj = .ok (obj', pos')) ∧
    (∀ pos arr pos', parseArray fuel s pos = .ok (arr, pos') → pos' ≤ s.length →
      parseArray fuel (s ++ u) pos = .ok (arr, pos')) ∧
    (∀ pos arr arr' pos', parseArrayLoop fuel s pos arr = .ok (arr', pos') →
      pos' < s.length → parseArrayLoop fuel (s ++ u) pos arr = .ok (arr', pos'))
  | 0 => by
    refine ⟨?_, ?_, ?_, ?_, ?_⟩ <;> intros <;> rename_i h _
    · simp [parseValue] at h
    · simp [parseObject] at h
    · simp [parseObjectLoop] at h
    · simp [parseArray] at h
    · simp [parseArrayLoop] at h
  | fuel + 1 => by
    obtain ⟨ihV, ihO, ihOL, ihA, ihAL⟩ := parse_append s u hu fuel
    obtain ⟨leV, leO, leOL, leA, leAL⟩ := cursor_le s fuel
    refine ⟨?_, ?_, ?_, ?_, ?_⟩
    · intro pos v pos' h hle
      have hpos := (cursor_le s (fuel + 1)).1 _ _ _ h
      rw [parseValue_ok_iff] at h
      obtain ⟨c, hc, h⟩ := h
      have hs := le_skipWhitespace s pos
      have hnul : c ≠ Char.ofNat 0 := by
        rcases h with ⟨e, _⟩ | ⟨e, _⟩ | ⟨e, _⟩ | ⟨e, _⟩ | ⟨e, _⟩ | ⟨e, _⟩ | ⟨e, _⟩
        · rw [e]; decide
        · rw [e]; decide
        · rw [e]; decide
        · rw [e]; decide
        · rw [e]; decide
        · rw [e]; decide
        · rintro rfl; revert e; decide
      obtain ⟨hp0, _⟩ := lt_of_charAt_eq hc hnul
      have hsk : skipWhitespace (s ++ u) pos = skipWhitespace s pos :=
        skipWhitespace_append s u pos hp0
      rw [parseValue_ok_iff, hsk]
      refine ⟨c, by rw [charAt_append s u hp0]; exact hc, ?_⟩
      rcases h with ⟨e, e1, e2⟩ | ⟨e, obj, ho, e1⟩ | ⟨e, arr, ha, e1⟩ | ⟨e, hsub, e1, e2⟩ |
        ⟨e, hsub, e1, e2⟩ | ⟨e, hsub, e1, e2⟩ | ⟨e, hn⟩
      · have a := le_scanToQuote s (skipWhitespace s pos + 1)
        left
        rw [scanToQuote_append s u _ (by omega), substr_append s u _ _ (by omega)]
        exact ⟨e, e1, e2⟩
      · exact Or.inr (Or.inl ⟨e, obj, ihO _ _ _ ho hle, e1⟩)
      · exact Or.inr (Or.inr (Or.inl ⟨e, arr, ihA _ _ _ ha hle, e1⟩))
      · refine Or.inr (Or.inr (Or.inr (Or.inl ⟨e, ?_, e1, e2⟩)))
        rw [substr_append s u _ _ (by omega)]; exact hsub
      · refine Or.inr (Or.inr (Or.inr (Or.inr (Or.inl ⟨e, ?_, e1, e2⟩))))
        rw [substr_append s u _ _ (by omega)]; exact hsub
      · refine Or.inr (Or.inr (Or.inr (Or.inr (Or.inr (Or.inl ⟨e, ?_, e1, e2⟩)))))
        rw [substr_append s u _ _ (by omega)]; exact hsub
      · refine Or.inr (Or.inr (Or.inr (Or.inr (Or.inr (Or.inr ⟨e, ?_⟩)))))
        rw [parseNumber_append s u _ c hp0 hu]; exact hn
    · intro pos obj pos' h hle
      rw [parseObject_ok_iff] at h ⊢
      obtain ⟨p, hl, hc, e⟩ := h
      have hp := leOL _ _ _ _ hl
      have hplt : p < s.length := (lt_of_charAt_eq hc (by decide)).1
      rw [skipWhitespace_append s u _ (by omega)]
      exact ⟨p, ihOL _ _ _ _ hl hplt, by rw [charAt_append s u hplt]; exact hc, e⟩
    · intro pos obj obj' pos' h hlt
      rw [parseObjectLoop_ok_iff] at h ⊢
      rcases h with ⟨h1, e1, e2⟩ | ⟨c, key, pos1, value, pos2, h1, h2, hk, hv, hl⟩
      · left
        subst e2
        rw [getElem?_append_of_lt s u hlt]
        exact ⟨h1, e1, rfl⟩
      · right
        have b1 := le_parseKey hk
        have b2 := leV _ _ _ hv
        have b3 := leOL _ _ _ _ hl
        have b4 := le_skipWhitespace s pos2
        refine ⟨c, key, pos1, value, pos2, ?_, h2, parseKey_append s u hk (by omega),
          ihV _ _ _ hv (by omega), ?_⟩
        · rw [getElem?_append_of_lt s u (by omega)]; exact h1
        · rw [skipWhitespace_append s u _ (by omega)]
          exact ihOL _ _ _ _ hl hlt
    · intro pos arr pos' h hle
      rw [parseArray_ok_iff] at h ⊢
      obtain ⟨p, hl, hc, e⟩ := h
      have hp := leAL _ _ _ _ hl
      have hplt : p < s.length := (lt_of_charAt_eq hc (by decide)).1
      rw [skipWhitespace_append s u _ (by omega)]
      exact ⟨p, ihAL _ _ _ _ hl hplt, by rw [charAt_append s u hplt]; exact hc, e⟩
    · intro pos arr arr' pos' h hlt
      rw [parseArrayLoop_ok_iff] at h ⊢
      rcases h with ⟨h1, e1, e2⟩ | ⟨c, value, pos2, h1, h2, hv, hl⟩
      · left
        subst e2
        rw [getElem?_append_of_lt s u hlt]
        exact ⟨h1, e1, rfl⟩
      · right
        have b2 := leV _ _ _ hv
        have b3 := leAL _ _ _ _ hl
        have b4 := le_skipWhitespace s pos2
        have b5 := le_skipWhitespace s (if c = ',' then pos + 1 else pos)
        have b6 : pos ≤ (if c = ',' then pos + 1 else pos) := by split <;> omega
        refine ⟨c, value, pos2, ?_, h2, ?_, ?_⟩
        · rw [getElem?_append_of_lt s u (by omega)]; exact h1
        · rw [skipWhitespace_append s u _ (by omega)]
          exact ihV _ _ _ hv (by omega)
        · rw [skipWhitespace_append s u _ (by omega)]
          exact ihAL _ _ _ _ hl hlt

/-! ## Progress and fuel -/

theorem parseNumber_ne_outOfFuel (json : List Char) (p0 : Nat) (c : Char) :
    parseNumber json p0 c ≠ .error .outOfFuel := by
  unfold parseNumber
  generalize (if c = '-' then p0 + 1 else p0) = p1
  dsimp only
  generalize numberLoop json (json.length - p1) p1 false = scan
  split
  · split
    · intro h; cases h
    · intro h; cases h
  · split
    · intro h; cases h
    · intro h; cases h

theorem parseKey_ne_outOfFuel (json : List Char) (pos : Nat) :
    parseKey json pos ≠ .error .outOfFuel := by
  unfold parseKey
  dsimp only
  split
  · intro h; cases h
  · split
    · intro h; cases h
    · split
      · intro h; cases h
      · split
        · intro h; cases h
        · split
          · intro h; cases h
          · intro h; cases h

/-- The number branch consumes at least one character. -/
theorem lt_parseNumber {json : List Char} {p0 : Nat} {c : Char} {v : Value} {pos' : Nat}
    (hc : charAt json p0 = some c) (hnum : isDigit c = true ∨ c = '-')
    (h : parseNumber json p0 c = .ok (v, pos')) : p0 < pos' := by
  have hnul : c ≠ Char.ofNat 0 := by rintro rfl; revert hnum; decide
  obtain ⟨hlt, hget⟩ := lt_of_charAt_eq hc hnul
  have hok := parseNumber_ok json p0 c v pos' hlt h
  by_cases hm : c = '-'
  · have := hok.1
    rw [if_pos hm] at this
    omega
  · have hd : isDigit c = true := hnum.resolve_right hm
    by_contra hcon
    have hle := le_parseNumber h
    have heq : pos' = p0 := by omega
    subst heq
    have := (hok.2.2.2.1 c hget).1
    rw [hd] at this
    cases this

/-- A successful `parseValue` consumes at least one character. -/
theorem lt_parseValue {json : List Char} {fuel pos : Nat} {v : Value} {pos' : Nat}
    (h : parseValue fuel json pos = .ok (v, pos')) : pos < pos' := by
  cases fuel with
  | zero => simp [parseValue] at h
  | succ fuel =>
    rw [parseValue_ok_iff] at h
    obtain ⟨c, hc, h⟩ := h
    have hs := le_skipWhitespace json pos
    obtain ⟨_, leO, leOL, leA, leAL⟩ := cursor_le json fuel
    rcases h with ⟨_, _, e⟩ | ⟨_, obj, ho, _⟩ | ⟨_, arr, ha, _⟩ | ⟨_, _, _, e⟩ |
      ⟨_, _, _, e⟩ | ⟨_, _, _, e⟩ | ⟨hnum, hn⟩
    · have := le_scanToQuote json (skipWhitespace json pos + 1)
      omega
    · cases fuel with
      | zero => simp [parseObject] at ho
      | succ fuel =>
        rw [parseObject_ok_iff] at ho
        obtain ⟨p, hl, _, e⟩ := ho
        have := (cursor_le json fuel).2.2.1 _ _ _ _ hl
        have := le_skipWhitespace json (skipWhitespace json pos + 1)
        omega
    · cases fuel with
      | zero => simp [parseArray] at ha
      | succ fuel =>
        rw [parseArray_ok_iff] at ha
        obtain ⟨p, hl, _, e⟩ := ha
        have := (cursor_le json fuel).2.2.2.2 _ _ _ _ hl
        have := le_skipWhitespace json (skipWhitespace json pos + 1)
        omega
    · omega
    · omega
    · omega
    · have := lt_parseNumber hc hnum hn
      omega

/-- With three units of fuel per remaining character no call runs out of fuel. -/
theorem fuel_suffices (json : List Char) : ∀ fuel : Nat,
    (∀ pos, 3 * (json.length + 1 - pos) + 3 ≤ fuel →
      parseValue fuel json pos ≠ .error .outOfFuel) ∧
    (∀ pos, pos < json.length → 3 * (json.length + 1 - pos) + 2 ≤ fuel →
      parseObject fuel json pos ≠ .error .outOfFuel) ∧
    (∀ pos obj, 3 * (json.length + 1 - pos) + 4 ≤ fuel →
      parseObjectLoop fuel json pos obj ≠ .error .outOfFuel) ∧
    (∀ pos, pos < json.length → 3 * (json.length + 1 - pos) + 2 ≤ fuel →
      parseArray fuel json pos ≠ .error .outOfFuel) ∧
    (∀ pos arr, 3 * (json.length + 1 - pos) + 4 ≤ fuel →
      parseArrayLoop fuel json pos arr ≠ .error .outOfFuel)
  | 0 => by
    refine ⟨?_, ?_, ?_, ?_, ?_⟩ <;> intros <;> omega
  | fuel + 1 => by
    obtain ⟨ihV, ihO, ihOL, ihA, ihAL⟩ := fuel_suffices json fuel
    refine ⟨?_, ?_, ?_, ?_, ?_⟩
    · intro pos hf
      rw [parseValue]
      dsimp only
      have hs := le_skipWhitespace json pos
      generalize skipWhitespace json pos = p0 at hs
      cases hc : charAt json p0 with
      | none => intro h; cases h
      | some c =>
        dsimp only
        split
        · intro h; cases h
        · split
          · rename_i hb
            subst hb
            have hlt := (lt_of_charAt_eq hc (by decide)).1
            cases hr : parseObject fuel json p0 with
            | ok r => intro h; cases h
            | error e =>
              intro h
              injection h with h
              subst h
              exact ihO p0 hlt (by omega) hr
          · split
            · rename_i hb
              subst hb
              have hlt := (lt_of_charAt_eq hc (by decide)).1
              cases hr : parseArray fuel json p0 with
              | ok r => intro h; cases h
              | error e =>
                intro h
                injection h with h
                subst h
                exact ihA p0 hlt (by omega) hr
            · split
              · intro h; cases h
              · split
                · intro h; cases h
                · split
                  · intro h; cases h
                  · split
                    · exact parseNumber_ne_outOfFuel _ _ _
                    · intro h; cases h
    · intro pos hlt hf
      rw [parseObject]
      have hs := le_skipWhitespace json (pos + 1)
      cases hr : parseObjectLoop fuel json (skipWhitespace json (pos + 1)) [] with
      | error e =>
        intro h
        injection h with h
        subst h
        exact ihOL _ _ (by omega) hr
      | ok r =>
        dsimp only
        split
        · intro h; cases h
        · split
          · intro h; cases h
          · intro h; cases h
    · intro pos obj hf
      rw [parseObjectLoop]
      cases hg : json[pos]? with
      | none => intro h; cases h
      | some c =>
        dsimp only
        have hlt : pos < json.length := by
          by_contra hcon
          rw [List.getElem?_eq_none (by omega)] at hg
          cases hg
        split
        · intro h; cases h
        · cases hk : parseKey json pos with
          | error e =>
            intro h
            injection h with h
            subst h
            exact parseKey_ne_outOfFuel _ _ hk
          | ok kp =>
            obtain ⟨key, pos1⟩ := kp
            dsimp only
            have h1 := le_parseKey hk
            cases hv : parseValue fuel json pos1 with
            | error e =>
              intro h
              injection h with h
              subst h
              exact ihV pos1 (by omega) hv
            | ok vp =>
              obtain ⟨value, pos2⟩ := vp
              dsimp only
              have h2 := lt_parseValue hv
              have h3 := le_skipWhitespace json pos2
              exact ihOL _ _ (by omega)
    · intro pos hlt hf
      rw [parseArray]
      have hs := le_skipWhitespace json (pos + 1)
      cases hr : parseArrayLoop fuel json (skipWhitespace json (pos + 1)) [] with
      | error e =>
        intro h
        injection h with h
        subst h
        exact ihAL _ _ (by omega) hr
      | ok r =>
        dsimp only
        split
        · intro h; cases h
        · split
          · intro h; cases h
          · intro h; cases h
    · intro pos arr hf
      rw [parseArrayLoop]
      cases hg : json[pos]? with
      | none => intro h; cases h
      | some c =>
        dsimp only
        have hlt : pos < json.length := by
          by_contra hcon
          rw [List.getElem?_eq_none (by omega)] at hg
          cases hg
        split
        · intro h; cases h
        · have h0 : pos ≤ (if c = ',' then pos + 1 else pos) := by split <;> omega
          have h1 := le_skipWhitespace json (if c = ',' then pos + 1 else pos)
          cases hv : parseValue fuel json
              (skipWhitespace json (if c = ',' then pos + 1 else pos)) with
          | error e =>
            intro h
            injection h with h
            subst h
            exact ihV _ (by omega) hv
          | ok vp =>
            obtain ⟨value, pos2⟩ := vp
            dsimp only
            have h2 := lt_parseValue hv
            have h3 := le_skipWhitespace json pos2
            exact ihAL _ _ (by omega)

/-- The fuel that `parseJSON` supplies is enough: it returns a value or fails with one of
the errors of the source, never for lack of fuel. -/
theorem parseJSON_ne_outOfFuel (json : List Char) :
    parseJSONAt json ≠ .error .outOfFuel ∧ parseJSON json ≠ .error .outOfFuel := by
  have h : parseJSONAt json ≠ .error .outOfFuel :=
    (fuel_suffices json (parseFuel json)).1 0 (by simp only [parseFuel]; omega)
  refine ⟨h, ?_⟩
  unfold parseJSON
  cases hr : parseJSONAt json with
  | ok r => intro h'; cases h'
  | error e =>
    intro h'
    injection h' with h'
    subst h'
    exact h hr

/-! ## White space -/

theorem charAt_of_getElem? {json : List Char} {pos : Nat} {c : Char}
    (h : json[pos]? = some c) : charAt json pos = some c := by
  simp [charAt, h]

/-- White space is skipped up to a character that is none. -/
theorem skipWhitespace_stop (json : List Char) (pos : Nat) (c : Char)
    (h : json[skipWhitespace json pos]? = some c) : isspace c = false :=
  whileLoop_stop isspace json _ pos (Nat.le_refl _) c h

theorem skipWhitespace_of_not_isspace {json : List Char} {pos : Nat}
    (h : ∀ c, json[pos]? = some c → isspace c = false) : skipWhitespace json pos = pos :=
  whileLoop_eq isspace json _ pos pos (Nat.le_refl _) (by omega)
    (fun i h1 h2 => absurd h2 (by omega)) h

theorem skipWhitespace_idem (json : List Char) (pos : Nat) :
    skipWhitespace json (skipWhitespace json pos) = skipWhitespace json pos :=
  skipWhitespace_of_not_isspace (skipWhitespace_stop json pos)

/-! ## Scanning inside a text -/

theorem getElem?_append_add (x y : List Char) (i : Nat) :
    (x ++ y)[x.length + i]? = y[i]? := by
  rw [List.getElem?_append_right (by omega)]
  congr 1
  omega

theorem getElem?_append_length (x y : List Char) : (x ++ y)[x.length]? = y.head? := by
  have := getElem?_append_add x y 0
  rw [Nat.add_zero] at this
  rw [this]
  cases y <;> simp

theorem charAt_append_cons (x : List Char) (c : Char) (y : List Char) :
    charAt (x ++ c :: y) x.length = some c := by
  apply charAt_of_getElem?
  rw [getElem?_append_length]
  rfl

/-- A scan that starts behind `x` steps over `mid`, whose characters all satisfy the loop
condition, and stops at the head of `y`, which does not. -/
theorem whileLoop_span (p : Char → Bool) (x mid y : List Char)
    (hmid : ∀ c ∈ mid, p c = true) (hy : ∀ c, y.head? = some c → p c = false)
    (n : Nat) (hn : mid.length ≤ n) :
    whileLoop p (x ++ (mid ++ y)) n x.length = x.length + mid.length := by
  apply whileLoop_eq _ _ _ _ _ (by omega) (by omega)
  · intro i h1 h2
    obtain ⟨k, rfl⟩ : ∃ k, i = x.length + k := ⟨i - x.length, by omega⟩
    have hk : k < mid.length := by omega
    rw [getElem?_append_add, List.getElem?_append_left hk, List.getElem?_eq_getElem hk]
    exact ⟨_, rfl, hmid _ (List.getElem_mem _)⟩
  · intro c hc
    rw [getElem?_append_add, List.getElem?_append_right (Nat.le_refl _), Nat.sub_self] at hc
    apply hy
    cases y with
    | nil => simp at hc
    | cons a t => simpa using hc

theorem skipWhitespace_span (x ws y : List Char) (hws : ∀ c ∈ ws, isspace c = true)
    (hy : ∀ c, y.head? = some c → isspace c = false) :
    skipWhitespace (x ++ (ws ++ y)) x.length = x.length + ws.length := by
  apply whileLoop_span _ _ _ _ hws hy
  simp only [List.length_append]
  omega

theorem skipWhitespace_cons (x : List Char) (c : Char) (y : List Char)
    (hc : isspace c = false) : skipWhitespace (x ++ c :: y) x.length = x.length := by
  have := skipWhitespace_span x [] (c :: y) (by simp) (by simp [hc])
  simpa using this

theorem scanToQuote_span (x s y : List Char) (hs : '"' ∉ s) :
    scanToQuote (x ++ (s ++ '"' :: y)) x.length = x.length + s.length := by
  apply whileLoop_span
  · intro c hc
    have : c ≠ '"' := fun h => hs (h ▸ hc)
    simpa using this
  · intro c hc
    simp only [List.head?_cons, Option.some.injEq] at hc
    subst hc
    rfl
  · simp only [List.length_append]
    omega

theorem substr_span (x s y : List Char) :
    substr (x ++ (s ++ y)) x.length s.length = s := by
  simp [substr]

/-! ## Malformed numbers -/

theorem parseNumber_eq (json : List Char) (pos : Nat) (c : Char) :
    parseNumber json pos c =
      if (numberLoop json (json.length - (if c = '-' then pos + 1 else pos))
          (if c = '-' then pos + 1 else pos) false).2 = true then
        match mpf_set_str (numStr json pos c) with
        | some f => .ok (.FLOAT f, (numberLoop json
            (json.length - (if c = '-' then pos + 1 else pos))
            (if c = '-' then pos + 1 else pos) false).1)
        | none => .error .mpfInvalidArgument
      else
        match mpz_set_str (numStr json pos c) with
        | some z => .ok (.INTEGER z, (numberLoop json
            (json.length - (if c = '-' then pos + 1 else pos))
            (if c = '-' then pos + 1 else pos) false).1)
        | none => .error .mpzInvalidArgument := rfl

theorem substr_succ {json : List Char} {pos : Nat} {c : Char} (h : json[pos]? = some c)
    (k : Nat) : substr json pos (k + 1) = c :: substr json (pos + 1) k := by
  have hlt : pos < json.length := by
    by_contra hcon
    rw [List.getElem?_eq_none (by omega)] at h
    cases h
  have hc : json[pos] = c := by
    rw [List.getElem?_eq_getElem hlt] at h
    exact Option.some.inj h
  unfold substr
  rw [List.drop_eq_getElem_cons hlt, hc, List.take_succ_cons]

/-- More than one decimal point makes `mpf_set_str` fail. -/
theorem mpf_set_str_eq_none_of_count (str : List Char) (h : 1 < str.count '.') :
    mpf_set_str str = none := by
  have hcount : 1 < (if (str.head? == some '-') = true then str.drop 1 else str).count '.' := by
    split
    · rename_i hneg
      cases str with
      | nil => simp at h
      | cons a t =>
        have ha : a = '-' := by simpa using hneg
        subst ha
        simpa [List.count_cons] using h
    · exact h
  unfold mpf_set_str
  dsimp only
  generalize (if (str.head? == some '-') = true then str.drop 1 else str) = s at hcount
  split
  · rfl
  · split
    · rfl
    · rfl

/-- The number branch fails when the scanned text holds no digit or more than one
decimal point. -/
theorem parseNumber_malformed (json : List Char) (p0 : Nat) (c : Char)
    (hc : charAt json p0 = some c) (hnum : c = '-' ∨ isDigit c = true)
    (hbad : (numStr json p0 c).all (fun d => !isDigit d) = true ∨
      1 < (numStr json p0 c).count '.') :
    parseNumber json p0 c = .error .mpzInvalidArgument ∨
      parseNumber json p0 c = .error .mpfInvalidArgument := by
  have hnul : c ≠ Char.ofNat 0 := by rintro rfl; revert hnum; decide
  obtain ⟨hlt, hget⟩ := lt_of_charAt_eq hc hnul
  rw [parseNumber_eq]
  unfold numStr at hbad ⊢
  generalize hp1 : (if c = '-' then p0 + 1 else p0) = p1 at hbad ⊢
  have hfst := numberLoop_fst json (json.length - p1) p1 false
  have hsnd := numberLoop_snd json (json.length - p1) p1 false
  simp only [Bool.false_eq_true, false_or] at hsnd
  have hle : p1 ≤ (numberLoop json (json.length - p1) p1 false).1 := by
    rw [hfst]; exact le_whileLoop _ _ _ _
  have hcons : ∀ i, p1 ≤ i → i < (numberLoop json (json.length - p1) p1 false).1 →
      ∃ d, json[i]? = some d ∧ numberChar d = true := by
    intro i h1 h2
    rw [hfst] at h2
    exact whileLoop_consumed _ _ _ _ i h1 h2
  have hstop : ∀ d, json[(numberLoop json (json.length - p1) p1 false).1]? = some d →
      numberChar d = false := by
    intro d hd
    rw [hfst] at hd
    exact whileLoop_stop numberChar json _ p1 (Nat.le_refl _) d hd
  generalize numberLoop json (json.length - p1) p1 false = scan at *
  -- a point in the scanned text sets `isFloat`
  have hdot : '.' ∈ substr json p0 (scan.1 - p0) → scan.2 = true := by
    intro hmem
    rw [mem_substr] at hmem
    obtain ⟨i, h1, h2, h3⟩ := hmem
    rw [hsnd]
    refine ⟨i, ?_, by omega, h3⟩
    subst hp1
    split
    · rename_i hm
      by_contra hcon
      have : i = p0 := by omega
      subst this
      rw [hget, hm] at h3
      revert h3; decide
    · exact h1
  rcases hbad with hbad | hbad
  · -- no digit: the text is `-` followed by points only
    rw [List.all_eq_true] at hbad
    have hm : c = '-' := by
      rcases hnum with h | h
      · exact h
      · exfalso
        have hcm : c ≠ '-' := by rintro rfl; revert h; decide
        have hp : p1 = p0 := by subst hp1; rw [if_neg hcm]
        have hq : p0 < scan.1 := by
          by_contra hcon
          have : scan.1 = p0 := by omega
          have := hstop c (by rw [this]; exact hget)
          simp [numberChar, h] at this
        have := hbad c (mem_substr.mpr ⟨p0, Nat.le_refl _, by omega, hget⟩)
        simp [h] at this
    subst hm
    have hp : p1 = p0 + 1 := by subst hp1; rfl
    have hlen : scan.1 - p0 = (scan.1 - (p0 + 1)) + 1 := by omega
    have hsub : substr json p0 (scan.1 - p0) = '-' :: substr json (p0 + 1) (scan.1 - (p0 + 1)) := by
      rw [hlen, substr_succ hget]
    have hbody : ∀ d ∈ substr json (p0 + 1) (scan.1 - (p0 + 1)), d = '.' := by
      intro d hd
      have hnd := hbad d (by rw [hsub]; exact List.mem_cons_of_mem _ hd)
      rw [mem_substr] at hd
      obtain ⟨i, h1, h2, h3⟩ := hd
      obtain ⟨d', hd', hnc⟩ := hcons i (by omega) (by omega)
      rw [h3] at hd'
      injection hd' with hd'
      subst hd'
      simp only [Bool.not_eq_true'] at hnd
      simpa [numberChar, hnd] using hnc
    have hfl_iff : scan.2 = true ↔ '.' ∈ substr json (p0 + 1) (scan.1 - (p0 + 1)) := by
      rw [hsnd, mem_substr, hp]
      constructor
      · rintro ⟨i, h1, h2, h3⟩
        exact ⟨i, h1, by omega, h3⟩
      · rintro ⟨i, h1, h2, h3⟩
        exact ⟨i, h1, by omega, h3⟩
    rw [hsub]
    generalize substr json (p0 + 1) (scan.1 - (p0 + 1)) = body at hbody hfl_iff ⊢
    by_cases hfl : scan.2 = true
    · right
      rw [if_pos hfl]
      have hmem := hfl_iff.mp hfl
      cases body with
      | nil => cases hmem
      | cons b t =>
        have hb : b = '.' := hbody b (List.mem_cons_self _ _)
        subst hb
        cases t with
        | nil => rfl
        | cons d t' =>
          have hd : d = '.' := hbody d (List.mem_cons_of_mem _ (List.mem_cons_self _ _))
          subst hd
          rfl
    · left
      rw [if_neg hfl]
      have hnil : body = [] := by
        cases body with
        | nil => rfl
        | cons b t =>
          exfalso
          apply hfl
          rw [hfl_iff, hbody b (List.mem_cons_self _ _)]
          exact List.mem_cons_self _ _
      rw [hnil]
      rfl
  · right
    have hmem : '.' ∈ substr json p0 (scan.1 - p0) := List.count_pos_iff.mp (by omega)
    rw [if_pos (hdot hmem), mpf_set_str_eq_none_of_count _ hbad]

/-! ## The result does not depend on the fuel -/

/-- A run that does not stop for lack of fuel gives the same result on more fuel. -/
theorem fuel_stable (json : List Char) : ∀ fuel : Nat,
    (∀ pos, parseValue fuel json pos ≠ .error .outOfFuel →
      parseValue (fuel + 1) json pos = parseValue fuel json pos) ∧
    (∀ pos, parseObject fuel json pos ≠ .error .outOfFuel →
      parseObject (fuel + 1) json pos = parseObject fuel json pos) ∧
    (∀ pos obj, parseObjectLoop fuel json pos obj ≠ .error .outOfFuel →
      parseObjectLoop (fuel + 1) json pos obj = parseObjectLoop fuel json pos obj) ∧
    (∀ pos, parseArray fuel json pos ≠ .error .outOfFuel →
      parseArray (fuel + 1) json pos = parseArray fuel json pos) ∧
    (∀ pos arr, parseArrayLoop fuel json pos arr ≠ .error .outOfFuel →
      parseArrayLoop (fuel + 1) json pos arr = parseArrayLoop fuel json pos arr)
  | 0 => by
    refine ⟨?_, ?_, ?_, ?_, ?_⟩ <;> intros <;> rename_i h
    · exact absurd (by rw [parseValue]) h
    · exact absurd (by rw [parseObject]) h
    · exact absurd (by rw [parseObjectLoop]) h
    · exact absurd (by rw [parseArray]) h
    · exact absurd (by rw [parseArrayLoop]) h
  | fuel + 1 => by
    obtain ⟨ihV, ihO, ihOL, ihA, ihAL⟩ := fuel_stable json fuel
    refine ⟨?_, ?_, ?_, ?_, ?_⟩
    · intro pos hne
      rw [parseValue] at hne
      conv_lhs => rw [parseValue]
      conv_rhs => rw [parseValue]
      dsimp only at hne ⊢
      generalize skipWhitespace json pos = p0 at hne ⊢
      cases hc : charAt json p0 with
      | none => rfl
      | some c =>
        rw [hc] at hne
        dsimp only at hne ⊢
        by_cases h1 : c = '"'
        · rw [if_pos h1, if_pos h1]
        · rw [if_neg h1] at hne
          rw [if_neg h1, if_neg h1]
          by_cases h2 : c = '\x7b'
          · rw [if_pos h2] at hne
            rw [if_pos h2, if_pos h2]
            have : parseObject fuel json p0 ≠ .error .outOfFuel := by
              intro h; rw [h] at hne; exact hne rfl
            rw [ihO p0 this]
          · rw [if_neg h2] at hne
            rw [if_neg h2, if_neg h2]
            by_cases h3 : c = '['
            · rw [if_pos h3] at hne
              rw [if_pos h3, if_pos h3]
              have : parseArray fuel json p0 ≠ .error .outOfFuel := by
                intro h; rw [h] at hne; exact hne rfl
              rw [ihA p0 this]
            · rw [if_neg h3, if_neg h3]
    · intro pos hne
      rw [parseObject] at hne
      conv_lhs => rw [parseObject]
      conv_rhs => rw [parseObject]
      have : parseObjectLoop fuel json (skipWhitespace json (pos + 1)) []
          ≠ .error .outOfFuel := by
        intro h; rw [h] at hne; exact hne rfl
      rw [ihOL _ _ this]
    · intro pos obj hne
      rw [parseObjectLoop] at hne
      conv_lhs => rw [parseObjectLoop]
      conv_rhs => rw [parseObjectLoop]
      cases hg : json[pos]? with
      | none => rfl
      | some c =>
        rw [hg] at hne
        dsimp only at hne ⊢
        by_cases h1 : c = '\x7d'
        · rw [if_pos h1, if_pos h1]
        · rw [if_neg h1] at hne
          rw [if_neg h1, if_neg h1]
          cases hk : parseKey json pos with
          | error e => rfl
          | ok kp =>
            obtain ⟨key, pos1⟩ := kp
            rw [hk] at hne
            dsimp only at hne ⊢
            have hv : parseValue fuel json pos1 ≠ .error .outOfFuel := by
              intro h; rw [h] at hne; exact hne rfl
            rw [ihV pos1 hv]
            cases hr : parseValue fuel json pos1 with
            | error e => rfl
            | ok vp =>
              obtain ⟨value, pos2⟩ := vp
              rw [hr] at hne
              dsimp only at hne ⊢
              exact ihOL _ _ hne
    · intro pos hne
      rw [parseArray] at hne
      conv_lhs => rw [parseArray]
      conv_rhs => rw [parseArray]
      have : parseArrayLoop fuel json (skipWhitespace json (pos + 1)) []
          ≠ .error .outOfFuel := by
        intro h; rw [h] at hne; exact hne rfl
      rw [ihAL _ _ this]
    · intro pos arr hne
      rw [parseArrayLoop] at hne
      conv_lhs => rw [parseArrayLoop]
      conv_rhs => rw [parseArrayLoop]
      cases hg : json[pos]? with
      | none => rfl
      | some c =>
        rw [hg] at hne
        dsimp only at hne ⊢
        by_cases h1 : c = ']'
        · rw [if_pos h1, if_pos h1]
        · rw [if_neg h1] at hne
          rw [if_neg h1, if_neg h1]
          have hv : parseValue fuel json
              (skipWhitespace json (if c = ',' then pos + 1 else pos)) ≠ .error .outOfFuel := by
            intro h; rw [h] at hne; exact hne rfl
          rw [ihV _ hv]
          cases hr : parseValue fuel json
              (skipWhitespace json (if c = ',' then pos + 1 else pos)) with
          | error e => rfl
          | ok vp =>
            obtain ⟨value, pos2⟩ := vp
            rw [hr] at hne
            dsimp only at hne ⊢
            exact ihAL _ _ hne

theorem parseValue_fuel_stable {json : List Char} {pos : Nat} :
    ∀ {fuel fuel' : Nat}, fuel ≤ fuel' → parseValue fuel json pos ≠ .error .outOfFuel →
      parseValue fuel' json pos = parseValue fuel json pos := by
  intro fuel fuel' hle h
  induction hle with
  | refl => rfl
  | step _ ih =>
    rw [← ih]
    exact (fuel_stable json _).1 pos (by rw [ih]; exact h)

/-- Every fuel from `parseFuel` on gives the result of `parseJSON`. -/
theorem parseValue_eq_parseJSONAt (json : List Char) {fuel : Nat}
    (h : parseFuel json ≤ fuel) : parseValue fuel json 0 = parseJSONAt json :=
  parseValue_fuel_stable h (parseJSON_ne_outOfFuel json).1

/-- A successful `parseObject` consumes the opening and the closing brace at least. -/
theorem add_two_le_parseObject {json : List Char} {fuel pos : Nat}
    {obj : List (List Char × Value)} {pos' : Nat}
    (h : parseObject fuel json pos = .ok (obj, pos')) : pos + 2 ≤ pos' := by
  cases fuel with
  | zero => simp [parseObject] at h
  | succ fuel =>
    rw [parseObject_ok_iff] at h
    obtain ⟨p, hl, _, e⟩ := h
    have h1 := (cursor_le json fuel).2.2.1 _ _ _ _ hl
    have h2 := le_skipWhitespace json (pos + 1)
    omega

/-- A successful `parseArray` consumes the opening and the closing bracket at least. -/
theorem add_two_le_parseArray {json : List Char} {fuel pos : Nat}
    {arr : List Value} {pos' : Nat}
    (h : parseArray fuel json pos = .ok (arr, pos')) : pos + 2 ≤ pos' := by
  cases fuel with
  | zero => simp [parseArray] at h
  | succ fuel =>
    rw [parseArray_ok_iff] at h
    obtain ⟨p, hl, _, e⟩ := h
    have h1 := (cursor_le json fuel).2.2.2.2 _ _ _ _ hl
    have h2 := le_skipWhitespace json (pos + 1)
    omega

/-! ## Maps with the same entries -/

theorem mem_of_lastEntry {key : List Char} {value : Value} :
    ∀ {entries : List (List Char × Value)},
      lastEntry key entries = some value → (key, value) ∈ entries
  | [], h => by simp [lastEntry] at h
  | (k, v) :: rest, h => by
    rw [lastEntry] at h
    cases hl : lastEntry key rest with
    | some w =>
      rw [hl] at h
      injection h with h
      subst h
      exact List.mem_cons_of_mem _ (mem_of_lastEntry hl)
    | none =>
      rw [hl] at h
      by_cases hk : k = key
      · rw [if_pos hk] at h
        injection h with h
        subst h; subst hk
        exact List.mem_cons_self _ _
      · rw [if_neg hk] at h
        cases h

theorem lastEntry_isSome_of_mem {key : List Char} {value : Value} :
    ∀ {entries : List (List Char × Value)},
      (key, value) ∈ entries → ∃ w, lastEntry key entries = some w
  | [], h => by cases h
  | (k, v) :: rest, h => by
    rw [lastEntry]
    cases hl : lastEntry key rest with
    | some w => exact ⟨w, rfl⟩
    | none =>
      rcases List.mem_cons.mp h with h | h
      · injection h with h1 h2
        subst h1
        exact ⟨v, by simp⟩
      · obtain ⟨w, hw⟩ := lastEntry_isSome_of_mem h
        rw [hl] at hw
        cases hw

/-- When no key carries two different values, the last entry with a key is any entry
with that key. -/
theorem lastEntry_eq_some_iff {entries : List (List Char × Value)}
    (hfun : ∀ k v w, (k, v) ∈ entries → (k, w) ∈ entries → v = w)
    (key : List Char) (value : Value) :
    lastEntry key entries = some value ↔ (key, value) ∈ entries := by
  constructor
  · exact mem_of_lastEntry
  · intro h
    obtain ⟨w, hw⟩ := lastEntry_isSome_of_mem h
    rw [hw, hfun key value w h (mem_of_lastEntry hw)]

/-- Two maps with the same entries are the same list: the key order fixes the place of
every entry. -/
theorem eq_of_keysAscending {l1 l2 : List (List Char × Value)}
    (h1 : keysAscending l1) (h2 : keysAscending l2) (h : ∀ e, e ∈ l1 ↔ e ∈ l2) : l1 = l2 := by
  haveI : IsIrrefl (List Char × Value) (fun a b => stringLt a.1 b.1 = true) :=
    ⟨fun a ha => by rw [stringLt_irrefl] at ha; cases ha⟩
  haveI : IsAntisymm (List Char × Value) (fun a b => stringLt a.1 b.1 = true) :=
    ⟨fun a b hab hba => by
      have := stringLt_trans hab hba
      rw [stringLt_irrefl] at this
      cases this⟩
  have n1 : l1.Nodup := List.Pairwise.nodup h1
  have n2 : l2.Nodup := List.Pairwise.nodup h2
  exact List.eq_of_perm_of_sorted ((List.perm_ext_iff_of_nodup n1 n2).mpr h) h1 h2

/-- The Object that `parseObject` returns is the store of the entries of the text. -/
theorem parseObject_storeAll {fuel : Nat} {json : List Char} {pos : Nat}
    {obj entries : List (List Char × Value)} {pos' pos'' : Nat}
    (h : parseObject fuel json pos = .ok (obj, pos'))
    (he : objectEntries fuel json pos = .ok (entries, pos'')) :
    obj = storeAll entries [] ∧ pos' = pos'' := by
  rw [parseObject_eq_storeAll, he] at h
  injection h with h
  injection h with h1 h2
  exact ⟨h1.symm, h2.symm⟩

theorem keysAscending_parseObject {fuel : Nat} {json : List Char} {pos : Nat}
    {obj : List (List Char × Value)} {pos' : Nat}
    (h : parseObject fuel json pos = .ok (obj, pos')) : keysAscending obj := by
  rw [parseObject_eq_storeAll] at h
  cases he : objectEntries fuel json pos with
  | error e => rw [he] at h; cases h
  | ok ep =>
    obtain ⟨es, p⟩ := ep
    rw [he] at h
    injection h with h
    injection h with h1 _
    subst h1
    exact keysAscending_storeAll es [] List.Pairwise.nil

/-! ## Text in front of the parsed text -/

theorem charAt_append_add (x r : List Char) (i : Nat) :
    charAt (x ++ r) (x.length + i) = charAt r i := by
  unfold charAt
  rw [getElem?_append_add]
  cases r[i]? with
  | some c => rfl
  | none =>
    simp only [List.length_append]
    by_cases h : i = r.length
    · rw [if_pos h, if_pos (by omega)]
    · rw [if_neg h, if_neg (by omega)]

theorem whileLoop_append_add (p : Char → Bool) (x r : List Char) :
    ∀ (n i : Nat), whileLoop p (x ++ r) n (x.length + i) = x.length + whileLoop p r n i
  | 0, i => rfl
  | n + 1, i => by
    rw [whileLoop, whileLoop, getElem?_append_add]
    cases r[i]? with
    | none => rfl
    | some c =>
      dsimp only
      split
      · rw [Nat.add_assoc]
        exact whileLoop_append_add p x r n (i + 1)
      · rfl

theorem skipWhitespace_append_add (x r : List Char) (i : Nat) :
    skipWhitespace (x ++ r) (x.length + i) = x.length + skipWhitespace r i := by
  unfold skipWhitespace
  rw [List.length_append, Nat.add_sub_add_left]
  exact whileLoop_append_add _ x r _ i

theorem scanToQuote_append_add (x r : List Char) (i : Nat) :
    scanToQuote (x ++ r) (x.length + i) = x.length + scanToQuote r i := by
  unfold scanToQuote
  rw [List.length_append, Nat.add_sub_add_left]
  exact whileLoop_append_add _ x r _ i

theorem numberLoop_append_add (x r : List Char) :
    ∀ (n i : Nat) (isFloat : Bool),
      numberLoop (x ++ r) n (x.length + i) isFloat
        = (x.length + (numberLoop r n i isFloat).1, (numberLoop r n i isFloat).2)
  | 0, i, fl => rfl
  | n + 1, i, fl => by
    rw [numberLoop, numberLoop, getElem?_append_add]
    cases r[i]? with
    | none => rfl
    | some c =>
      dsimp only
      split
      · rw [Nat.add_assoc]
        exact numberLoop_append_add x r n (i + 1) _
      · rfl

theorem substr_append_add (x r : List Char) (i len : Nat) :
    substr (x ++ r) (x.length + i) len = substr r i len := by
  unfold substr
  rw [List.drop_append_eq_append_drop, List.drop_eq_nil_of_le (by omega), List.nil_append]
  congr 2
  omega

theorem parseNumber_append_add (x r : List Char) (i : Nat) (c : Char) :
    parseNumber (x ++ r) (x.length + i) c = shiftCursor x.length (parseNumber r i c) := by
  unfold parseNumber
  dsimp only
  have hp1 : (if c = '-' then x.length + i + 1 else x.length + i)
      = x.length + (if c = '-' then i + 1 else i) := by
    split <;> omega
  rw [hp1, List.length_append, Nat.add_sub_add_left, numberLoop_append_add]
  dsimp only
  rw [Nat.add_sub_add_left, substr_append_add]
  generalize numberLoop r (r.length - (if c = '-' then i + 1 else i))
    (if c = '-' then i + 1 else i) false = scan
  split
  · cases mpf_set_str (substr r i (scan.1 - i)) <;> rfl
  · cases mpz_set_str (substr r i (scan.1 - i)) <;> rfl

theorem parseKey_append_add (x r : List Char) (i : Nat) :
    parseKey (x ++ r) (x.length + i) = shiftCursor x.length (parseKey r i) := by
  unfold parseKey
  dsimp only
  rw [skipWhitespace_append_add, charAt_append_add]
  cases charAt r (skipWhitespace r i) with
  | none => rfl
  | some c1 =>
    dsimp only
    have h1 : (if c1 = ',' then x.length + skipWhitespace r i + 1
        else x.length + skipWhitespace r i)
        = x.length + (if c1 = ',' then skipWhitespace r i + 1 else skipWhitespace r i) := by
      split <;> omega
    rw [h1, skipWhitespace_append_add, charAt_append_add]
    generalize skipWhitespace r (if c1 = ',' then skipWhitespace r i + 1
      else skipWhitespace r i) = pos2
    cases charAt r pos2 with
    | none => rfl
    | some c2 =>
      dsimp only
      split
      · rfl
      · rw [Nat.add_assoc, scanToQuote_append_add, Nat.add_assoc,
          skipWhitespace_append_add, charAt_append_add, substr_append_add,
          Nat.add_sub_add_left]
        generalize skipWhitespace r (scanToQuote r (pos2 + 1) + 1) = pos4
        cases charAt r pos4 with
        | none => rfl
        | some c3 =>
          dsimp only
          split
          · rfl
          · rw [Nat.add_assoc, skipWhitespace_append_add]
            rfl

/-- Parsing `r` behind a text `x` gives the result of parsing `r` alone, with the cursor
moved by the length of `x`. -/
theorem parse_append_add (x r : List Char) : ∀ fuel : Nat,
    (∀ i, parseValue fuel (x ++ r) (x.length + i)
      = shiftCursor x.length (parseValue fuel r i)) ∧
    (∀ i, parseObject fuel (x ++ r) (x.length + i)
      = shiftCursor x.length (parseObject fuel r i)) ∧
    (∀ i obj, parseObjectLoop fuel (x ++ r) (x.length + i) obj
      = shiftCursor x.length (parseObjectLoop fuel r i obj)) ∧
    (∀ i, parseArray fuel (x ++ r) (x.length + i)
      = shiftCursor x.length (parseArray fuel r i)) ∧
    (∀ i arr, parseArrayLoop fuel (x ++ r) (x.length + i) arr
      = shiftCursor x.length (parseArrayLoop fuel r i arr))
  | 0 => by
    refine ⟨?_, ?_, ?_, ?_, ?_⟩ <;> intros
    · rw [parseValue, parseValue]; rfl
    · rw [parseObject, parseObject]; rfl
    · rw [parseObjectLoop, parseObjectLoop]; rfl
    · rw [parseArray, parseArray]; rfl
    · rw [parseArrayLoop, parseArrayLoop]; rfl
  | fuel + 1 => by
    obtain ⟨ihV, ihO, ihOL, ihA, ihAL⟩ := parse_append_add x r fuel
    refine ⟨?_, ?_, ?_, ?_, ?_⟩
    · intro i
      conv_lhs => rw [parseValue]
      conv_rhs => rw [parseValue]
      dsimp only
      rw [skipWhitespace_append_add, charAt_append_add]
      generalize skipWhitespace r i = p0
      cases charAt r p0 with
      | none => rfl
      | some c =>
        dsimp only
        by_cases h1 : c = '"'
        · rw [if_pos h1, if_pos h1, Nat.add_assoc, scanToQuote_append_add,
            substr_append_add, Nat.add_sub_add_left]
          rfl
        · rw [if_neg h1, if_neg h1]
          by_cases h2 : c = '\x7b'
          · rw [if_pos h2, if_pos h2, ihO]
            cases parseObject fuel r p0 with
            | error e => rfl
            | ok op => rfl
          · rw [if_neg h2, if_neg h2]
            by_cases h3 : c = '['
            · rw [if_pos h3, if_pos h3, ihA]
              cases parseArray fuel r p0 with
              | error e => rfl
              | ok op => rfl
            · rw [if_neg h3, if_neg h3, substr_append_add, substr_append_add]
              by_cases h4 : c = 't' ∧ substr r p0 4 = "true".toList
              · rw [if_pos h4, if_pos h4]; rfl
              · rw [if_neg h4, if_neg h4]
                by_cases h5 : c = 'f' ∧ substr r p0 5 = "false".toList
                · rw [if_pos h5, if_pos h5]; rfl
                · rw [if_neg h5, if_neg h5]
                  by_cases h6 : c = 'n' ∧ substr r p0 4 = "null".toList
                  · rw [if_pos h6, if_pos h6]; rfl
                  · rw [if_neg h6, if_neg h6]
                    by_cases h7 : isDigit c = true ∨ c = '-'
                    · rw [if_pos h7, if_pos h7, parseNumber_append_add]
                    · rw [if_neg h7, if_neg h7]; rfl
    · intro i
      conv_lhs => rw [parseObject]
      conv_rhs => rw [parseObject]
      rw [Nat.add_assoc, skipWhitespace_append_add, ihOL]
      cases parseObjectLoop fuel r (skipWhitespace r (i + 1)) [] with
      | error e => rfl
      | ok op =>
        obtain ⟨obj, p⟩ := op
        simp only [shiftCursor]
        rw [charAt_append_add]
        cases charAt r p with
        | none => rfl
        | some c =>
          dsimp only
          split
          · rfl
          · rfl
    · intro i obj
      conv_lhs => rw [parseObjectLoop]
      conv_rhs => rw [parseObjectLoop]
      rw [getElem?_append_add]
      cases r[i]? with
      | none => rfl
      | some c =>
        dsimp only
        split
        · rfl
        · rw [parseKey_append_add]
          cases parseKey r i with
          | error e => rfl
          | ok kp =>
            obtain ⟨key, pos1⟩ := kp
            simp only [shiftCursor]
            rw [ihV]
            cases parseValue fuel r pos1 with
            | error e => rfl
            | ok vp =>
              obtain ⟨value, pos2⟩ := vp
              simp only [shiftCursor]
              rw [skipWhitespace_append_add]
              exact ihOL _ _
    · intro i
      conv_lhs => rw [parseArray]
      conv_rhs => rw [parseArray]
      rw [Nat.add_assoc, skipWhitespace_append_add, ihAL]
      cases parseArrayLoop fuel r (skipWhitespace r (i + 1)) [] with
      | error e => rfl
      | ok op =>
        obtain ⟨arr, p⟩ := op
        simp only [shiftCursor]
        rw [charAt_append_add]
        cases charAt r p with
        | none => rfl
        | some c =>
          dsimp only
          split
          · rfl
          · rfl
    · intro i arr
      conv_lhs => rw [parseArrayLoop]
      conv_rhs => rw [parseArrayLoop]
      rw [getElem?_append_add]
      cases r[i]? with
      | none => rfl
      | some c =>
        dsimp only
        split
        · rfl
        · have h1 : (if c = ',' then x.length + i + 1 else x.length + i)
              = x.length + (if c = ',' then i + 1 else i) := by
            split <;> omega
          rw [h1, skipWhitespace_append_add, ihV]
          cases parseValue fuel r (skipWhitespace r (if c = ',' then i + 1 else i)) with
          | error e => rfl
          | ok vp =>
            obtain ⟨value, pos2⟩ := vp
            simp only [shiftCursor]
            rw [skipWhitespace_append_add]
            exact ihAL _ _

/-! ## A comma in front of an entry -/

/-- Entered on a comma, the loop of `parseArray` does what it does entered on the next
significant character, when that is no comma and not the closing bracket. -/
theorem parseArrayLoop_comma (fuel : Nat) (json : List Char) (pos : Nat) (arr : List Value)
    (c : Char) (h1 : json[pos]? = some ',')
    (h2 : json[skipWhitespace json (pos + 1)]? = some c) (hc : c ≠ ',') (hb : c ≠ ']') :
    parseArrayLoop (fuel + 1) json pos arr
      = parseArrayLoop (fuel + 1) json (skipWhitespace json (pos + 1)) arr := by
  conv_lhs => rw [parseArrayLoop]
  conv_rhs => rw [parseArrayLoop]
  rw [h1, h2]
  dsimp only
  rw [if_neg (by decide), if_pos rfl, if_neg hb, if_neg hc, skipWhitespace_idem]

/-- Entered on a comma, `parseKey` does what it does entered on the next significant
character, when that is no comma. -/
theorem parseKey_comma (json : List Char) (pos : Nat) (c : Char)
    (h1 : json[pos]? = some ',')
    (h2 : json[skipWhitespace json (pos + 1)]? = some c) (hc : c ≠ ',') :
    parseKey json pos = parseKey json (skipWhitespace json (pos + 1)) := by
  have hs : skipWhitespace json pos = pos :=
    skipWhitespace_of_not_isspace (fun d hd => by
      rw [h1] at hd
      injection hd with hd
      subst hd
      decide)
  unfold parseKey
  dsimp only
  rw [hs, charAt_of_getElem? h1, skipWhitespace_idem, charAt_of_getElem? h2]
  dsimp only
  rw [if_pos rfl, if_neg hc, skipWhitespace_idem]

theorem parseObjectLoop_comma (fuel : Nat) (json : List Char) (pos : Nat)
    (obj : List (List Char × Value)) (c : Char) (h1 : json[pos]? = some ',')
    (h2 : json[skipWhitespace json (pos + 1)]? = some c) (hc : c ≠ ',') (hb : c ≠ '\x7d') :
    parseObjectLoop (fuel + 1) json pos obj
      = parseObjectLoop (fuel + 1) json (skipWhitespace json (pos + 1)) obj := by
  conv_lhs => rw [parseObjectLoop]
  conv_rhs => rw [parseObjectLoop]
  rw [h1, h2]
  dsimp only
  rw [if_neg (by decide), if_neg hb, parseKey_comma json pos c h1 h2 hc]

/-- On a text that starts with `[`, `parseValue` at cursor 0 is `parseArray`. -/
theorem parseValue_bracket (fuel : Nat) (t : List Char) :
    parseValue (fuel + 1) ('[' :: t) 0 =
      match parseArray fuel ('[' :: t) 0 with
      | .ok (arr, pos1) => .ok (.ARRAY arr, pos1)
      | .error e => .error e := by
  rw [parseValue]
  dsimp only
  rw [show skipWhitespace ('[' :: t) 0 = 0 from skipWhitespace_cons [] '[' t (by decide),
    show charAt ('[' :: t) 0 = some '[' from charAt_append_cons [] '[' t]
  dsimp only
  rw [if_neg (by decide), if_neg (by decide), if_pos rfl]

/-- On a text that starts with an opening brace, `parseValue` at cursor 0 is
`parseObject`. -/
theorem parseValue_brace (fuel : Nat) (t : List Char) :
    parseValue (fuel + 1) ('\x7b' :: t) 0 =
      match parseObject fuel ('\x7b' :: t) 0 with
      | .ok (obj, pos1) => .ok (.OBJECT obj, pos1)
      | .error e => .error e := by
  rw [parseValue]
  dsimp only
  rw [show skipWhitespace ('\x7b' :: t) 0 = 0 from skipWhitespace_cons [] '\x7b' t (by decide),
    show charAt ('\x7b' :: t) 0 = some '\x7b' from charAt_append_cons [] '\x7b' t]
  dsimp only
  rw [if_neg (by decide), if_pos rfl]

/-- The array text with a comma behind the opening bracket parses as the text without
it. -/
theorem parseJSON_bracket_comma (r : List Char) (c : Char)
    (hc : r[skipWhitespace r 0]? = some c) (h1 : c ≠ ',') (h2 : c ≠ ']') :
    parseJSON ('[' :: ',' :: r) = parseJSON ('[' :: r) := by
  have hF : parseFuel ('[' :: r) ≤ parseFuel ('[' :: ',' :: r) := by
    simp only [parseFuel, List.length_cons]; omega
  obtain ⟨g, hg⟩ : ∃ g, parseFuel ('[' :: ',' :: r) = g + 3 :=
    ⟨3 * r.length + 9, by simp only [parseFuel, List.length_cons]; omega⟩
  have e1 : parseJSONAt ('[' :: r) = parseValue (g + 3) ('[' :: r) 0 := by
    rw [← hg]; exact (parseValue_eq_parseJSONAt _ hF).symm
  have e2 : parseJSONAt ('[' :: ',' :: r) = parseValue (g + 3) ('[' :: ',' :: r) 0 := by
    rw [parseJSONAt, hg]
  -- the loop of the text with the comma
  have s2 : skipWhitespace ('[' :: ',' :: r) (0 + 1) = 1 :=
    skipWhitespace_cons ['['] ',' r (by decide)
  have k2 : skipWhitespace ('[' :: ',' :: r) (1 + 1) = 2 + skipWhitespace r 0 :=
    skipWhitespace_append_add ['[', ','] r 0
  have g2 : ('[' :: ',' :: r)[2 + skipWhitespace r 0]? = some c := by
    rw [← hc]; exact getElem?_append_add ['[', ','] r _
  have l2 : parseArrayLoop (g + 1) ('[' :: ',' :: r) 1 []
      = shiftCursor 2 (parseArrayLoop (g + 1) r (skipWhitespace r 0) []) := by
    rw [parseArrayLoop_comma g _ 1 [] c (by simp) (by rw [k2]; exact g2) h1 h2, k2]
    exact (parse_append_add ['[', ','] r (g + 1)).2.2.2.2 _ _
  -- the loop of the text without it
  have k1 : skipWhitespace ('[' :: r) (0 + 1) = 1 + skipWhitespace r 0 :=
    skipWhitespace_append_add ['['] r 0
  have l1 : parseArrayLoop (g + 1) ('[' :: r) (1 + skipWhitespace r 0) []
      = shiftCursor 1 (parseArrayLoop (g + 1) r (skipWhitespace r 0) []) :=
    (parse_append_add ['['] r (g + 1)).2.2.2.2 _ _
  have c2 : ∀ p, charAt ('[' :: ',' :: r) (2 + p) = charAt r p :=
    fun p => charAt_append_add ['[', ','] r p
  have c1 : ∀ p, charAt ('[' :: r) (1 + p) = charAt r p :=
    fun p => charAt_append_add ['['] r p
  unfold parseJSON
  rw [e1, e2, parseValue_bracket, parseValue_bracket, parseArray, parseArray, s2, k1, l1, l2]
  cases parseArrayLoop (g + 1) r (skipWhitespace r 0) [] with
  | error e => rfl
  | ok ap =>
    obtain ⟨arr, p⟩ := ap
    simp only [shiftCursor]
    rw [c1, c2]
    cases charAt r p with
    | none => rfl
    | some d =>
      dsimp only
      by_cases hd : d ≠ ']'
      · rw [if_pos hd, if_pos hd]
      · rw [if_neg hd, if_neg hd]

/-- The object text with a comma behind the opening brace parses as the text without
it. -/
theorem parseJSON_brace_comma (r : List Char) (c : Char)
    (hc : r[skipWhitespace r 0]? = some c) (h1 : c ≠ ',') (h2 : c ≠ '\x7d') :
    parseJSON ('\x7b' :: ',' :: r) = parseJSON ('\x7b' :: r) := by
  have hF : parseFuel ('\x7b' :: r) ≤ parseFuel ('\x7b' :: ',' :: r) := by
    simp only [parseFuel, List.length_cons]; omega
  obtain ⟨g, hg⟩ : ∃ g, parseFuel ('\x7b' :: ',' :: r) = g + 3 :=
    ⟨3 * r.length + 9, by simp only [parseFuel, List.length_cons]; omega⟩
  have e1 : parseJSONAt ('\x7b' :: r) = parseValue (g + 3) ('\x7b' :: r) 0 := by
    rw [← hg]; exact (parseValue_eq_parseJSONAt _ hF).symm
  have e2 : parseJSONAt ('\x7b' :: ',' :: r) = parseValue (g + 3) ('\x7b' :: ',' :: r) 0 := by
    rw [parseJSONAt, hg]
  have s2 : skipWhitespace ('\x7b' :: ',' :: r) (0 + 1) = 1 :=
    skipWhitespace_cons ['\x7b'] ',' r (by decide)
  have k2 : skipWhitespace ('\x7b' :: ',' :: r) (1 + 1) = 2 + skipWhitespace r 0 :=
    skipWhitespace_append_add ['\x7b', ','] r 0
  have g2 : ('\x7b' :: ',' :: r)[2 + skipWhitespace r 0]? = some c := by
    rw [← hc]; exact getElem?_append_add ['\x7b', ','] r _
  have l2 : parseObjectLoop (g + 1) ('\x7b' :: ',' :: r) 1 []
      = shiftCursor 2 (parseObjectLoop (g + 1) r (skipWhitespace r 0) []) := by
    rw [parseObjectLoop_comma g _ 1 [] c (by simp) (by rw [k2]; exact g2) h1 h2, k2]
    exact (parse_append_add ['\x7b', ','] r (g + 1)).2.2.1 _ _
  have k1 : skipWhitespace ('\x7b' :: r) (0 + 1) = 1 + skipWhitespace r 0 :=
    skipWhitespace_append_add ['\x7b'] r 0
  have l1 : parseObjectLoop (g + 1) ('\x7b' :: r) (1 + skipWhitespace r 0) []
      = shiftCursor 1 (parseObjectLoop (g + 1) r (skipWhitespace r 0) []) :=
    (parse_append_add ['\x7b'] r (g + 1)).2.2.1 _ _
  have c2 : ∀ p, charAt ('\x7b' :: ',' :: r) (2 + p) = charAt r p :=
    fun p => charAt_append_add ['\x7b', ','] r p
  have c1 : ∀ p, charAt ('\x7b' :: r) (1 + p) = charAt r p :=
    fun p => charAt_append_add ['\x7b'] r p
  unfold parseJSON
  rw [e1, e2, parseValue_brace, parseValue_brace, parseObject, parseObject, s2, k1, l1, l2]
  cases parseObjectLoop (g + 1) r (skipWhitespace r 0) [] with
  | error e => rfl
  | ok ap =>
    obtain ⟨obj, p⟩ := ap
    simp only [shiftCursor]
    rw [c1, c2]
    cases charAt r p with
    | none => rfl
    | some d =>
      dsimp only
      by_cases hd : d ≠ '\x7d'
      · rw [if_pos hd, if_pos hd]
      · rw [if_neg hd, if_neg hd]

/-! ## Printing an Integer and reading it back -/

theorem isDigit_digitChar {d : Nat} (h : d < 10) :
    isDigit (Nat.digitChar d) = true ∧ digit_value (Nat.digitChar d) = d := by
  interval_cases d <;> exact ⟨by decide, by decide⟩

/-- Every positive number is the value of a digit string without a leading zero. -/
theorem exists_digits : ∀ n : Nat, 0 < n →
    ∃ d r, isDigit d = true ∧ d ≠ '0' ∧ (∀ c ∈ r, isDigit c = true) ∧
      (d :: r).foldl (fun a c => a * 10 + digit_value c) 0 = n := by
  intro n
  induction n using Nat.strong_induction_on with
  | _ n ih =>
    intro hn
    by_cases hlt : n < 10
    · refine ⟨Nat.digitChar n, [], (isDigit_digitChar hlt).1, ?_, by simp, ?_⟩
      · interval_cases n <;> decide
      · simp [(isDigit_digitChar hlt).2]
    · obtain ⟨d, r, hd, hd0, hr, hval⟩ := ih (n / 10) (by omega) (by omega)
      have hm := isDigit_digitChar (show n % 10 < 10 by omega)
      refine ⟨d, r ++ [Nat.digitChar (n % 10)], hd, hd0, ?_, ?_⟩
      · intro c hc
        rcases List.mem_append.mp hc with h | h
        · exact hr c h
        · rw [List.mem_singleton] at h
          rw [h]; exact hm.1
      · rw [← List.cons_append, List.foldl_append, hval, List.foldl_cons, List.foldl_nil, hm.2]
        omega

/-- What `get_str` prints of an Integer, `mpz_class` reads back as that Integer: the
text is a `-` or a digit followed by digits only. -/
theorem mpz_set_str_get_str (z : Int) :
    ∃ c t, mpz_get_str z = c :: t ∧ (c = '-' ∨ isDigit c = true) ∧
      (∀ d ∈ t, isDigit d = true) ∧ mpz_set_str (c :: t) = some z := by
  rcases Int.lt_trichotomy z 0 with hz | hz | hz
  · obtain ⟨d, r, hd, hd0, hr, hval⟩ := exists_digits z.natAbs (by omega)
    have hall : ∀ c ∈ d :: r, isDigit c = true := by
      intro c hc
      rcases List.mem_cons.mp hc with h | h
      · rw [h]; exact hd
      · exact hr c h
    have hdig := toDigits_foldl_digits (d :: r) (by simp) hall (by simpa using hd0)
    rw [hval] at hdig
    refine ⟨'-', d :: r, ?_, Or.inl rfl, hall, ?_⟩
    · rw [mpz_get_str, if_pos hz, hdig]
    · rw [(mpz_set_str_canonical d r hd hd0 hr).2, hval]
      congr 1
      omega
  · subst hz
    exact ⟨'0', [], rfl, Or.inr (by decide), by simp, rfl⟩
  · obtain ⟨d, r, hd, hd0, hr, hval⟩ := exists_digits z.natAbs (by omega)
    have hall : ∀ c ∈ d :: r, isDigit c = true := by
      intro c hc
      rcases List.mem_cons.mp hc with h | h
      · rw [h]; exact hd
      · exact hr c h
    have hdig := toDigits_foldl_digits (d :: r) (by simp) hall (by simpa using hd0)
    rw [hval] at hdig
    refine ⟨d, r, ?_, Or.inr hd, hr, ?_⟩
    · rw [mpz_get_str, if_neg (by omega), hdig]
    · rw [(mpz_set_str_canonical d r hd hd0 hr).1, hval]
      congr 1
      omega

/-- The number scan over `-` or a digit and further digits, in front of text that does
not go on with a digit or a point. -/
theorem numberLoop_digits_span (x : List Char) (c : Char) (t y : List Char)
    (hc : c = '-' ∨ isDigit c = true) (ht : ∀ d ∈ t, isDigit d = true)
    (hy : ∀ d, y.head? = some d → numberChar d = false) :
    numberLoop (x ++ ((c :: t) ++ y))
        ((x ++ ((c :: t) ++ y)).length - (if c = '-' then x.length + 1 else x.length))
        (if c = '-' then x.length + 1 else x.length) false
      = (x.length + (c :: t).length, false) := by
  have hget0 : (x ++ ((c :: t) ++ y))[x.length]? = some c := by
    rw [getElem?_append_length]; rfl
  have hget : ∀ k, k < t.length → ∃ d, (x ++ ((c :: t) ++ y))[x.length + (k + 1)]? = some d ∧
      isDigit d = true := by
    intro k hk
    refine ⟨t[k], ?_, ht _ (List.getElem_mem _)⟩
    rw [getElem?_append_add]
    simp only [List.cons_append, List.getElem?_cons_succ]
    rw [List.getElem?_append_left hk, List.getElem?_eq_getElem hk]
  have hend : (x ++ ((c :: t) ++ y))[x.length + (c :: t).length]? = y.head? := by
    rw [getElem?_append_add, List.getElem?_append_right (Nat.le_refl _), Nat.sub_self]
    cases y <;> simp
  generalize hj : x ++ ((c :: t) ++ y) = json at hget0 hget hend ⊢
  have hlen : json.length = x.length + ((c :: t).length + y.length) := by
    rw [← hj]; simp only [List.length_append]
  generalize hp1 : (if c = '-' then x.length + 1 else x.length) = p1
  have hp1' : x.length ≤ p1 ∧ p1 ≤ x.length + 1 ∧ (p1 = x.length → isDigit c = true) := by
    subst hp1
    split
    · exact ⟨by omega, by omega, fun h => by omega⟩
    · rename_i hm
      exact ⟨by omega, by omega, fun _ => hc.resolve_left hm⟩
  have hcons : ∀ i, p1 ≤ i → i < x.length + (c :: t).length →
      ∃ d, json[i]? = some d ∧ isDigit d = true := by
    intro i h1 h2
    simp only [List.length_cons] at h2
    by_cases hi : i = x.length
    · subst hi
      exact ⟨c, hget0, hp1'.2.2 (by omega)⟩
    · obtain ⟨k, rfl⟩ : ∃ k, i = x.length + (k + 1) := ⟨i - x.length - 1, by omega⟩
      exact hget k (by omega)
  have hfst : (numberLoop json (json.length - p1) p1 false).1 = x.length + (c :: t).length := by
    rw [numberLoop_fst]
    apply whileLoop_eq
    · simp only [List.length_cons]; omega
    · simp only [List.length_cons] at hlen ⊢; omega
    · intro i h1 h2
      obtain ⟨d, hd, hdig⟩ := hcons i h1 h2
      exact ⟨d, hd, by simp [numberChar, hdig]⟩
    · intro d hd
      rw [hend] at hd
      exact hy d hd
  have hsnd : (numberLoop json (json.length - p1) p1 false).2 = false := by
    cases hfl : (numberLoop json (json.length - p1) p1 false).2 with
    | false => rfl
    | true =>
      rw [numberLoop_snd] at hfl
      rcases hfl with hfl | ⟨i, h1, h2, h3⟩
      · cases hfl
      · rw [hfst] at h2
        obtain ⟨d, hd, hdig⟩ := hcons i h1 h2
        rw [hd] at h3
        injection h3 with h3
        subst h3
        revert hdig; decide
  exact Prod.ext hfst hsnd

/-- An Integer text `c :: t` inside a text: `parseValue`, entered in front of it, hands
exactly `c :: t` to `mpz_class` and stops behind it. -/
theorem parseValue_integer_span (fuel : Nat) (x : List Char) (c : Char) (t y : List Char)
    (hc : c = '-' ∨ isDigit c = true) (ht : ∀ d ∈ t, isDigit d = true)
    (hy : ∀ d, y.head? = some d → numberChar d = false) :
    parseValue (fuel + 1) (x ++ ((c :: t) ++ y)) x.length =
      match mpz_set_str (c :: t) with
      | some z => .ok (.INTEGER z, x.length + (c :: t).length)
      | none => .error .mpzInvalidArgument := by
  have hskip : skipWhitespace (x ++ ((c :: t) ++ y)) x.length = x.length :=
    skipWhitespace_cons x c (t ++ y) (isspace_eq_false_of_number hc)
  have hchar : charAt (x ++ ((c :: t) ++ y)) (skipWhitespace (x ++ ((c :: t) ++ y)) x.length)
      = some c := by
    rw [hskip]; exact charAt_append_cons x c (t ++ y)
  rw [parseValue_number _ _ _ c hchar hc, hskip]
  unfold parseNumber
  dsimp only
  rw [numberLoop_digits_span x c t y hc ht hy]
  dsimp only
  rw [Nat.add_sub_cancel_left, substr_span]
  simp only [Bool.false_eq_true, if_false]

/-! ## Printing a tree and reading it back -/

theorem skipWhitespace_at {json x ws y : List Char} {pos : Nat}
    (hj : json = x ++ (ws ++ y)) (hp : pos = x.length) (hws : ∀ c ∈ ws, isspace c = true)
    (hy : ∀ c, y.head? = some c → isspace c = false) :
    skipWhitespace json pos = pos + ws.length := by
  subst hj hp
  exact skipWhitespace_span x ws y hws hy

theorem skipWhitespace_at_cons {json x : List Char} {c : Char} {y : List Char} {pos : Nat}
    (hj : json = x ++ c :: y) (hp : pos = x.length) (hc : isspace c = false) :
    skipWhitespace json pos = pos := by
  subst hj hp
  exact skipWhitespace_cons x c y hc

theorem charAt_at {json x : List Char} {c : Char} {y : List Char} {pos : Nat}
    (hj : json = x ++ c :: y) (hp : pos = x.length) : charAt json pos = some c := by
  subst hj hp
  exact charAt_append_cons x c y

theorem getElem?_at {json x : List Char} {c : Char} {y : List Char} {pos : Nat}
    (hj : json = x ++ c :: y) (hp : pos = x.length) : json[pos]? = some c := by
  subst hj hp
  rw [getElem?_append_length]
  rfl

theorem scanToQuote_at {json x s y : List Char} {pos : Nat}
    (hj : json = x ++ (s ++ '"' :: y)) (hp : pos = x.length) (hs : '"' ∉ s) :
    scanToQuote json pos = pos + s.length := by
  subst hj hp
  exact scanToQuote_span x s y hs

theorem substr_at {json x s y : List Char} {pos n : Nat}
    (hj : json = x ++ (s ++ y)) (hp : pos = x.length) (hn : n = s.length) :
    substr json pos n = s := by
  subst hj hp hn
  exact substr_span x s y

theorem not_mem_of_contains {s : List Char} (h : (!s.contains '"') = true) : '"' ∉ s := by
  intro hm
  have : s.contains '"' = true := by simpa using hm
  rw [this] at h
  cases h

/-- The text printed for a plain tree starts with a character that is no white space, no
comma and no closing bracket. -/
theorem print_head (v : Value) (hv : v.plain = true) :
    ∃ c t, v.print = c :: t ∧ isspace c = false ∧ c ≠ ',' ∧ c ≠ ']' := by
  cases v with
  | INTEGER z =>
    obtain ⟨c, t, hp, hc, -, -⟩ := mpz_set_str_get_str z
    refine ⟨c, t, hp, ?_, ?_, ?_⟩
    · exact isspace_eq_false_of_number hc
    · rintro rfl
      rcases hc with hc | hc
      · exact absurd hc (by decide)
      · exact absurd hc (by decide)
    · rintro rfl
      rcases hc with hc | hc
      · exact absurd hc (by decide)
      · exact absurd hc (by decide)
  | FLOAT f => simp [Value.plain] at hv
  | STRING s => exact ⟨'"', s ++ ['"'], by simp [Value.print], by decide, by decide, by decide⟩
  | OBJECT m =>
    exact ⟨'\x7b', printObjectLoop m true ++ ['\x7d'], by simp [Value.print], by decide,
      by decide, by decide⟩
  | ARRAY a =>
    exact ⟨'[', printArrayLoop a 0 ++ [']'], by simp [Value.print], by decide, by decide,
      by decide⟩
  | BOOLEAN b =>
    cases b
    · exact ⟨'f', "alse".toList, by simp [Value.print], by decide, by decide, by decide⟩
    · exact ⟨'t', "rue".toList, by simp [Value.print], by decide, by decide, by decide⟩
  | NIL => exact ⟨'n', "ull".toList, by simp [Value.print], by decide, by decide, by decide⟩

/-- Behind an element that is not the first one, the text of an Array goes on with a
comma or with the closing bracket. -/
theorem printArrayLoop_succ_head (a : List Value) (i : Nat) (y : List Char) :
    ∃ c t, printArrayLoop a (i + 1) ++ ']' :: y = c :: t ∧ (c = ',' ∨ c = ']') := by
  cases a with
  | nil => exact ⟨']', y, by simp [printArrayLoop], Or.inr rfl⟩
  | cons v rest =>
    exact ⟨',', ' ' :: (v.print ++ printArrayLoop rest (i + 1 + 1) ++ ']' :: y),
      by simp [printArrayLoop], Or.inl rfl⟩

/-- Behind an entry, the text of an Object goes on with a comma or with the closing
brace. -/
theorem printObjectLoop_false_head (m : List (List Char × Value)) (y : List Char) :
    ∃ c t, printObjectLoop m false ++ '\x7d' :: y = c :: t ∧ (c = ',' ∨ c = '\x7d') := by
  cases m with
  | nil => exact ⟨'\x7d', y, by simp [printObjectLoop], Or.inr rfl⟩
  | cons e rest =>
    obtain ⟨k, v⟩ := e
    exact ⟨',', ' ' :: ('"' :: k ++ "\": ".toList ++ v.print ++ printObjectLoop rest false
      ++ '\x7d' :: y), by simp [printObjectLoop], Or.inl rfl⟩

theorem mapAssign_of_lt (key : List Char) (value : Value) (obj : List (List Char × Value))
    (h : ∀ e ∈ obj, stringLt e.1 key = true) :
    mapAssign key value obj = obj ++ [(key, value)] := by
  induction obj with
  | nil => rfl
  | cons e rest ih =>
    obtain ⟨k, v⟩ := e
    have hk : stringLt k key = true := h (k, v) (List.mem_cons_self _ _)
    have hnk : stringLt key k = false := by
      cases hkk : stringLt key k with
      | false => rfl
      | true =>
        have := stringLt_trans hk hkk
        rw [stringLt_irrefl] at this
        cases this
    simp only [mapAssign, hnk, hk, if_true, Bool.false_eq_true, if_false, List.cons_append]
    rw [ih (fun e he => h e (List.mem_cons_of_mem _ he))]

/-- Storing entries whose keys ascend, and lie above the keys already stored, appends
them. -/
theorem storeAll_of_keysAscending (m obj : List (List Char × Value))
    (h : keysAscending (obj ++ m)) : storeAll m obj = obj ++ m := by
  induction m generalizing obj with
  | nil => simp [storeAll]
  | cons e rest ih =>
    have h1 : ∀ a ∈ obj, stringLt a.1 e.1 = true := by
      intro a ha
      have := List.pairwise_append.mp h
      exact this.2.2 a ha e (List.mem_cons_self _ _)
    have h2 : storeAll (e :: rest) obj = storeAll rest (mapAssign e.1 e.2 obj) := rfl
    rw [h2, mapAssign_of_lt _ _ _ h1, ih]
    · simp
    · simpa [keysAscending] using h

/-- The key part of a printed entry, read back: behind the separator `sep` that `print`
wrote (nothing in front of the first entry, a comma and a space otherwise), `parseKey`
returns the key and stops at the first character of the value. -/
theorem parseKey_print (x sep k : List Char) (c : Char) (t : List Char)
    (hsep : sep = [] ∨ sep = ", ".toList) (hk : '"' ∉ k) (hc : isspace c = false) :
    parseKey (x ++ (sep ++ ('"' :: k ++ "\": ".toList) ++ c :: t)) x.length =
      .ok (k, x.length + sep.length + k.length + 4) := by
  generalize hj : x ++ (sep ++ ('"' :: k ++ "\": ".toList) ++ c :: t) = json
  have hjq : json = (x ++ sep) ++ '"' :: (k ++ '"' :: ':' :: ' ' :: c :: t) := by
    subst hj; simp
  have hjk : json = (x ++ sep ++ ['"']) ++ (k ++ '"' :: (':' :: ' ' :: c :: t)) := by
    subst hj; simp
  have hjc : json = (x ++ sep ++ '"' :: k ++ ['"']) ++ ':' :: (' ' :: c :: t) := by
    subst hj; simp
  have hjs : json = (x ++ sep ++ '"' :: k ++ ['"', ':']) ++ ([' '] ++ c :: t) := by
    subst hj; simp
  have h3 : charAt json (x.length + sep.length) = some '"' :=
    charAt_at hjq (by simp)
  have h4 : scanToQuote json (x.length + sep.length + 1) = x.length + sep.length + 1 + k.length :=
    scanToQuote_at hjk (by simp; omega) hk
  have h5 : substr json (x.length + sep.length + 1) k.length = k :=
    substr_at hjk (by simp; omega) rfl
  have h6 : skipWhitespace json (x.length + sep.length + 1 + k.length + 1)
      = x.length + sep.length + 1 + k.length + 1 :=
    skipWhitespace_at_cons hjc (by simp; omega) (by decide)
  have h7 : charAt json (x.length + sep.length + 1 + k.length + 1) = some ':' :=
    charAt_at hjc (by simp; omega)
  have h8 : skipWhitespace json (x.length + sep.length + 1 + k.length + 1 + 1)
      = x.length + sep.length + 1 + k.length + 1 + 1 + 1 :=
    skipWhitespace_at hjs (by simp; omega) (by simp; decide) (by simp [hc])
  have h12 : ∃ c1, charAt json (skipWhitespace json x.length) = some c1 ∧
      x.length + sep.length = skipWhitespace json
        (if c1 = ',' then skipWhitespace json x.length + 1 else skipWhitespace json x.length) := by
    rcases hsep with rfl | rfl
    · have h0 : skipWhitespace json x.length = x.length :=
        skipWhitespace_at_cons hjq (by simp) (by decide)
      refine ⟨'"', ?_, ?_⟩
      · rw [h0]; simpa using h3
      · rw [h0, if_neg (by decide), h0]; simp
    · have hja : json = x ++ ',' :: (' ' :: '"' :: (k ++ '"' :: ':' :: ' ' :: c :: t)) := by
        subst hj; simp
      have hjb : json = (x ++ [',']) ++ ([' '] ++ '"' :: (k ++ '"' :: ':' :: ' ' :: c :: t)) := by
        subst hj; simp
      have h0 : skipWhitespace json x.length = x.length :=
        skipWhitespace_at_cons hja rfl (by decide)
      have h1 : skipWhitespace json (x.length + 1) = x.length + 1 + 1 :=
        skipWhitespace_at hjb (by simp) (by simp; decide) (by simp; decide)
      refine ⟨',', ?_, ?_⟩
      · rw [h0]; exact charAt_at hja rfl
      · rw [h0, if_pos rfl, h1]; simp
  obtain ⟨c1, h1, h2⟩ := h12
  rw [parseKey_ok_iff]
  refine ⟨c1, x.length + sep.length, x.length + sep.length + 1 + k.length,
    x.length + sep.length + 1 + k.length + 1, h1, h2, h3, h4.symm, ?_, h6.symm, h7, ?_⟩
  · rw [show x.length + sep.length + 1 + k.length - (x.length + sep.length + 1) = k.length by omega,
      h5]
  · rw [h8]; omega

/-- The text of an Object goes on, at an entry or at its end, with a character that is no
white space. -/
theorem printObjectLoop_head (m : List (List Char × Value)) (atBegin : Bool)
    (y : List Char) :
    ∃ c t, printObjectLoop m atBegin ++ '\x7d' :: y = c :: t ∧ isspace c = false ∧
      (c = '\x7d' ∨ c = ',' ∨ c = '"') := by
  cases atBegin with
  | false =>
    obtain ⟨c, t, h, hc⟩ := printObjectLoop_false_head m y
    refine ⟨c, t, h, ?_, ?_⟩
    · rcases hc with rfl | rfl <;> decide
    · rcases hc with rfl | rfl
      · exact Or.inr (Or.inl rfl)
      · exact Or.inl rfl
  | true =>
    cases m with
    | nil => exact ⟨'\x7d', y, by simp [printObjectLoop], by decide, Or.inl rfl⟩
    | cons e rest =>
      obtain ⟨k, v⟩ := e
      exact ⟨'"', k ++ "\": ".toList ++ v.print ++ printObjectLoop rest false ++ '\x7d' :: y,
        by simp [printObjectLoop], by decide, Or.inr (Or.inr rfl)⟩

/-- The text of an Array of plain elements goes on, at an element or at its end, with a
character that is no white space. -/
theorem printArrayLoop_head (a : List Value) (i : Nat) (y : List Char)
    (ha : plainElements a = true) :
    ∃ c t, printArrayLoop a i ++ ']' :: y = c :: t ∧ isspace c = false := by
  cases a with
  | nil => exact ⟨']', y, by simp [printArrayLoop], by decide⟩
  | cons v rest =>
    have hv : v.plain = true := by
      simp only [plainElements, Bool.and_eq_true] at ha
      exact ha.1
    obtain ⟨c, t, hp, hc, -, -⟩ := print_head v hv
    by_cases hi : i > 0
    · exact ⟨',', ' ' :: (v.print ++ printArrayLoop rest (i + 1) ++ ']' :: y),
        by simp [printArrayLoop, hi], by decide⟩
    · exact ⟨c, t ++ printArrayLoop rest (i + 1) ++ ']' :: y,
        by simp [printArrayLoop, hi, hp], hc⟩

mutual
/-- Reading back the text printed for a plain, well formed tree, wherever it stands in a
text that goes on with no character of a number: the tree, and the cursor at the end of
its text. -/
theorem parseValue_print : ∀ (v : Value), v.wellFormed → v.plain = true →
    ∀ (x y : List Char), (∀ c, y.head? = some c → numberChar c = false) →
    ∃ F, ∀ fuel, F ≤ fuel →
      parseValue fuel (x ++ (v.print ++ y)) x.length = .ok (v, x.length + v.print.length)
  | .INTEGER z, _, _, x, y, hy => by
    obtain ⟨c, t, hp, hc, ht, hset⟩ := mpz_set_str_get_str z
    refine ⟨1, fun fuel hf => ?_⟩
    obtain ⟨f, rfl⟩ : ∃ f, fuel = f + 1 := ⟨fuel - 1, by omega⟩
    have h := parseValue_integer_span f x c t y hc ht hy
    rw [hset] at h
    have hpr : (Value.INTEGER z).print = c :: t := by rw [Value.print, hp]
    rw [hpr]
    exact h
  | .FLOAT _, _, hp, _, _, _ => by simp [Value.plain] at hp
  | .STRING s, _, hp, x, y, _ => by
    have hs : '"' ∉ s := not_mem_of_contains (by simpa [Value.plain] using hp)
    refine ⟨1, fun fuel hf => ?_⟩
    obtain ⟨f, rfl⟩ : ∃ f, fuel = f + 1 := ⟨fuel - 1, by omega⟩
    have hlen : (Value.STRING s).print.length = s.length + 2 := by simp [Value.print]
    generalize hj : x ++ ((Value.STRING s).print ++ y) = json
    have hj1 : json = x ++ '"' :: (s ++ '"' :: y) := by subst hj; simp [Value.print]
    have hj2 : json = (x ++ ['"']) ++ (s ++ '"' :: y) := by subst hj; simp [Value.print]
    have h0 : skipWhitespace json x.length = x.length :=
      skipWhitespace_at_cons hj1 rfl (by decide)
    have h1 : scanToQuote json (x.length + 1) = x.length + 1 + s.length :=
      scanToQuote_at hj2 (by simp) hs
    rw [parseValue_ok_iff]
    refine ⟨'"', ?_, Or.inl ⟨rfl, ?_, ?_⟩⟩
    · rw [h0]; exact charAt_at hj1 rfl
    · rw [h0, h1, show x.length + 1 + s.length - (x.length + 1) = s.length by omega,
        substr_at hj2 (by simp) rfl]
    · rw [h0, h1, hlen]; omega
  | .OBJECT m, hw, hp, x, y, _ => by
    have hw1 : keysAscending m ∧ wellFormedEntries m := by
      simpa only [Value.wellFormed] using hw
    have hp1 : plainEntries m = true := by simpa only [Value.plain] using hp
    obtain ⟨F, hF⟩ := parseObjectLoop_print m hw1.2 hp1 (x ++ ['\x7b']) y true []
    refine ⟨F + 2, fun fuel hf => ?_⟩
    obtain ⟨f, rfl⟩ : ∃ f, fuel = f + 2 := ⟨fuel - 2, by omega⟩
    have hl := hF f (by omega)
    rw [storeAll_of_keysAscending m [] (by simpa using hw1.1)] at hl
    have hlen : (Value.OBJECT m).print.length = (printObjectLoop m true).length + 2 := by
      simp [Value.print]
    generalize hj : x ++ ((Value.OBJECT m).print ++ y) = json
    have hj1 : json = x ++ '\x7b' :: (printObjectLoop m true ++ '\x7d' :: y) := by
      subst hj; simp [Value.print]
    have hj2 : (x ++ ['\x7b']) ++ (printObjectLoop m true ++ '\x7d' :: y) = json := by
      subst hj; simp [Value.print]
    have hj3 : json = (x ++ '\x7b' :: printObjectLoop m true) ++ '\x7d' :: y := by
      subst hj; simp [Value.print]
    rw [hj2] at hl
    simp only [List.length_append, List.length_singleton, List.nil_append] at hl
    have h0 : skipWhitespace json x.length = x.length :=
      skipWhitespace_at_cons hj1 rfl (by decide)
    have h1 : skipWhitespace json (x.length + 1) = x.length + 1 := by
      obtain ⟨c, t, hct, hc, -⟩ := printObjectLoop_head m true y
      rw [hct] at hj2
      exact skipWhitespace_at_cons hj2.symm (by simp) hc
    rw [parseValue_ok_iff]
    refine ⟨'\x7b', ?_, Or.inr (Or.inl ⟨rfl, m, ?_, rfl⟩)⟩
    · rw [h0]; exact charAt_at hj1 rfl
    · rw [h0, parseObject_ok_iff]
      refine ⟨x.length + 1 + (printObjectLoop m true).length, ?_,
        charAt_at hj3 (by simp; omega), ?_⟩
      · rw [h1]; exact hl
      · rw [hlen]; omega
  | .ARRAY a, hw, hp, x, y, _ => by
    have hw1 : wellFormedElements a := by simpa only [Value.wellFormed] using hw
    have hp1 : plainElements a = true := by simpa only [Value.plain] using hp
    obtain ⟨F, hF⟩ := parseArrayLoop_print a hw1 hp1 (x ++ ['[']) y 0 []
    refine ⟨F + 2, fun fuel hf => ?_⟩
    obtain ⟨f, rfl⟩ : ∃ f, fuel = f + 2 := ⟨fuel - 2, by omega⟩
    have hl := hF f (by omega)
    have hlen : (Value.ARRAY a).print.length = (printArrayLoop a 0).length + 2 := by
      simp [Value.print]
    generalize hj : x ++ ((Value.ARRAY a).print ++ y) = json
    have hj1 : json = x ++ '[' :: (printArrayLoop a 0 ++ ']' :: y) := by
      subst hj; simp [Value.print]
    have hj2 : (x ++ ['[']) ++ (printArrayLoop a 0 ++ ']' :: y) = json := by
      subst hj; simp [Value.print]
    have hj3 : json = (x ++ '[' :: printArrayLoop a 0) ++ ']' :: y := by
      subst hj; simp [Value.print]
    rw [hj2] at hl
    simp only [List.length_append, List.length_singleton, List.nil_append] at hl
    have h0 : skipWhitespace json x.length = x.length :=
      skipWhitespace_at_cons hj1 rfl (by decide)
    have h1 : skipWhitespace json (x.length + 1) = x.length + 1 := by
      obtain ⟨c, t, hct, hc⟩ := printArrayLoop_head a 0 y hp1
      rw [hct] at hj2
      exact skipWhitespace_at_cons hj2.symm (by simp) hc
    rw [parseValue_ok_iff]
    refine ⟨'[', ?_, Or.inr (Or.inr (Or.inl ⟨rfl, a, ?_, rfl⟩))⟩
    · rw [h0]; exact charAt_at hj1 rfl
    · rw [h0, parseArray_ok_iff]
      refine ⟨x.length + 1 + (printArrayLoop a 0).length, ?_,
        charAt_at hj3 (by simp; omega), ?_⟩
      · rw [h1]; exact hl
      · rw [hlen]; omega
  | .BOOLEAN true, _, _, x, y, _ => by
    refine ⟨1, fun fuel hf => ?_⟩
    obtain ⟨f, rfl⟩ : ∃ f, fuel = f + 1 := ⟨fuel - 1, by omega⟩
    generalize hj : x ++ ((Value.BOOLEAN true).print ++ y) = json
    have hj1 : json = x ++ 't' :: ("rue".toList ++ y) := by subst hj; simp [Value.print]
    have hj2 : json = x ++ ("true".toList ++ y) := by subst hj; simp [Value.print]
    have h0 : skipWhitespace json x.length = x.length :=
      skipWhitespace_at_cons hj1 rfl (by decide)
    rw [parseValue_ok_iff]
    refine ⟨'t', ?_, Or.inr (Or.inr (Or.inr (Or.inl ⟨rfl, ?_, rfl, ?_⟩)))⟩
    · rw [h0]; exact charAt_at hj1 rfl
    · rw [h0]; exact substr_at hj2 rfl rfl
    · rw [h0]; rfl
  | .BOOLEAN false, _, _, x, y, _ => by
    refine ⟨1, fun fuel hf => ?_⟩
    obtain ⟨f, rfl⟩ : ∃ f, fuel = f + 1 := ⟨fuel - 1, by omega⟩
    generalize hj : x ++ ((Value.BOOLEAN false).print ++ y) = json
    have hj1 : json = x ++ 'f' :: ("alse".toList ++ y) := by subst hj; simp [Value.print]
    have hj2 : json = x ++ ("false".toList ++ y) := by subst hj; simp [Value.print]
    have h0 : skipWhitespace json x.length = x.length :=
      skipWhitespace_at_cons hj1 rfl (by decide)
    rw [parseValue_ok_iff]
    refine ⟨'f', ?_, Or.inr (Or.inr (Or.inr (Or.inr (Or.inl ⟨rfl, ?_, rfl, ?_⟩))))⟩
    · rw [h0]; exact charAt_at hj1 rfl
    · rw [h0]; exact substr_at hj2 rfl rfl
    · rw [h0]; rfl
  | .NIL, _, _, x, y, _ => by
    refine ⟨1, fun fuel hf => ?_⟩
    obtain ⟨f, rfl⟩ : ∃ f, fuel = f + 1 := ⟨fuel - 1, by omega⟩
    generalize hj : x ++ (Value.NIL.print ++ y) = json
    have hj1 : json = x ++ 'n' :: ("ull".toList ++ y) := by subst hj; simp [Value.print]
    have hj2 : json = x ++ ("null".toList ++ y) := by subst hj; simp [Value.print]
    have h0 : skipWhitespace json x.length = x.length :=
      skipWhitespace_at_cons hj1 rfl (by decide)
    rw [parseValue_ok_iff]
    refine ⟨'n', ?_, Or.inr (Or.inr (Or.inr (Or.inr (Or.inr (Or.inl ⟨rfl, ?_, rfl, ?_⟩)))))⟩
    · rw [h0]; exact charAt_at hj1 rfl
    · rw [h0]; exact substr_at hj2 rfl rfl
    · rw [h0]; rfl
/-- The loop of `parseObject`, entered at a printed entry or at the closing brace, stores
the printed entries one after the other and stops at the brace. -/
theorem parseObjectLoop_print : ∀ (m : List (List Char × Value)), wellFormedEntries m →
    plainEntries m = true →
    ∀ (x y : List Char) (atBegin : Bool) (obj : List (List Char × Value)),
    ∃ F, ∀ fuel, F ≤ fuel →
      parseObjectLoop fuel (x ++ (printObjectLoop m atBegin ++ '\x7d' :: y)) x.length obj =
        .ok (storeAll m obj, x.length + (printObjectLoop m atBegin).length)
  | [], _, _, x, y, atBegin, obj => by
    refine ⟨1, fun fuel hf => ?_⟩
    obtain ⟨f, rfl⟩ : ∃ f, fuel = f + 1 := ⟨fuel - 1, by omega⟩
    rw [parseObjectLoop_ok_iff]
    left
    refine ⟨Or.inr ?_, rfl, by simp [printObjectLoop]⟩
    have e : x ++ (printObjectLoop [] atBegin ++ '\x7d' :: y) = x ++ '\x7d' :: y := by
      simp [printObjectLoop]
    exact getElem?_at e rfl
  | (k, v) :: rest, hw, hp, x, y, atBegin, obj => by
    have hw1 : v.wellFormed ∧ wellFormedEntries rest := by
      simpa only [wellFormedEntries] using hw
    have hp1 : ((!k.contains '"') = true ∧ v.plain = true) ∧ plainEntries rest = true := by
      simpa only [plainEntries, Bool.and_eq_true] using hp
    have hk : '"' ∉ k := not_mem_of_contains hp1.1.1
    obtain ⟨c0, t0, hpv, hc0, -, -⟩ := print_head v hp1.1.2
    obtain ⟨cn, tn, hnext, hcn⟩ := printObjectLoop_false_head rest y
    have hy1 : ∀ c, (printObjectLoop rest false ++ '\x7d' :: y).head? = some c →
        numberChar c = false := by
      rw [hnext]
      intro c hc
      simp only [List.head?_cons, Option.some.injEq] at hc
      subst hc
      rcases hcn with rfl | rfl <;> decide
    obtain ⟨sep, hsep, hprint⟩ : ∃ sep, (sep = [] ∨ sep = ", ".toList) ∧
        printObjectLoop ((k, v) :: rest) atBegin =
          sep ++ ('"' :: k ++ "\": ".toList) ++ v.print ++ printObjectLoop rest false := by
      cases atBegin
      · exact ⟨", ".toList, Or.inr rfl, by simp [printObjectLoop]⟩
      · exact ⟨[], Or.inl rfl, by simp [printObjectLoop]⟩
    obtain ⟨Fv, hFv⟩ := parseValue_print v hw1.1 hp1.1.2
      (x ++ sep ++ ('"' :: k ++ "\": ".toList)) (printObjectLoop rest false ++ '\x7d' :: y) hy1
    obtain ⟨Fr, hFr⟩ := parseObjectLoop_print rest hw1.2 hp1.2
      (x ++ sep ++ ('"' :: k ++ "\": ".toList) ++ v.print) y false (mapAssign k v obj)
    refine ⟨Fv + Fr + 1, fun fuel hf => ?_⟩
    obtain ⟨f, rfl⟩ : ∃ f, fuel = f + 1 := ⟨fuel - 1, by omega⟩
    have hv := hFv f (by omega)
    have hr := hFr f (by omega)
    have hlen : (printObjectLoop ((k, v) :: rest) atBegin).length =
        sep.length + k.length + 4 + v.print.length + (printObjectLoop rest false).length := by
      rw [hprint]; simp; omega
    have hx1 : (x ++ sep ++ ('"' :: k ++ "\": ".toList)).length
        = x.length + sep.length + k.length + 4 := by simp; omega
    have hx2 : (x ++ sep ++ ('"' :: k ++ "\": ".toList) ++ v.print).length
        = x.length + sep.length + k.length + 4 + v.print.length := by simp; omega
    generalize hj : x ++ (printObjectLoop ((k, v) :: rest) atBegin ++ '\x7d' :: y) = json
    have hj1 : x ++ sep ++ ('"' :: k ++ "\": ".toList)
        ++ (v.print ++ (printObjectLoop rest false ++ '\x7d' :: y)) = json := by
      subst hj; rw [hprint]; simp
    have hj2 : x ++ sep ++ ('"' :: k ++ "\": ".toList) ++ v.print
        ++ (printObjectLoop rest false ++ '\x7d' :: y) = json := by
      subst hj; rw [hprint]; simp
    have hj3 : x ++ (sep ++ ('"' :: k ++ "\": ".toList) ++ c0 :: (t0 ++
        (printObjectLoop rest false ++ '\x7d' :: y))) = json := by
      subst hj; rw [hprint, hpv]; simp
    rw [hj1, hx1] at hv
    rw [hj2, hx2] at hr
    have hkey := parseKey_print x sep k c0 (t0 ++ (printObjectLoop rest false ++ '\x7d' :: y))
      hsep hk hc0
    rw [hj3] at hkey
    have hfirst : ∃ c, json[x.length]? = some c ∧ c ≠ '\x7d' := by
      rcases hsep with rfl | rfl
      · have e : json = x ++ '"' :: (k ++ "\": ".toList ++ c0 :: (t0 ++
            (printObjectLoop rest false ++ '\x7d' :: y))) := by
          rw [← hj3]; simp
        exact ⟨'"', getElem?_at e rfl, by decide⟩
      · have e : json = x ++ ',' :: (' ' :: '"' :: (k ++ "\": ".toList ++ c0 :: (t0 ++
            (printObjectLoop rest false ++ '\x7d' :: y)))) := by
          rw [← hj3]; simp
        exact ⟨',', getElem?_at e rfl, by decide⟩
    obtain ⟨c, hc1, hc2⟩ := hfirst
    have hskip : skipWhitespace json (x.length + sep.length + k.length + 4 + v.print.length)
        = x.length + sep.length + k.length + 4 + v.print.length := by
      rw [hnext] at hj2
      exact skipWhitespace_at_cons hj2.symm hx2.symm (by rcases hcn with rfl | rfl <;> decide)
    rw [parseObjectLoop_ok_iff]
    right
    refine ⟨c, k, x.length + sep.length + k.length + 4, v,
      x.length + sep.length + k.length + 4 + v.print.length, hc1, hc2, hkey, hv, ?_⟩
    rw [hskip, hr, hlen]
    have e : storeAll ((k, v) :: rest) obj = storeAll rest (mapAssign k v obj) := rfl
    rw [e]
    congr 2
    omega
/-- The loop of `parseArray`, entered at a printed element or at the closing bracket,
appends the printed elements one after the other and stops at the bracket. -/
theorem parseArrayLoop_print : ∀ (a : List Value), wellFormedElements a →
    plainElements a = true →
    ∀ (x y : List Char) (i : Nat) (acc : List Value),
    ∃ F, ∀ fuel, F ≤ fuel →
      parseArrayLoop fuel (x ++ (printArrayLoop a i ++ ']' :: y)) x.length acc =
        .ok (acc ++ a, x.length + (printArrayLoop a i).length)
  | [], _, _, x, y, i, acc => by
    refine ⟨1, fun fuel hf => ?_⟩
    obtain ⟨f, rfl⟩ : ∃ f, fuel = f + 1 := ⟨fuel - 1, by omega⟩
    rw [parseArrayLoop_ok_iff]
    left
    refine ⟨Or.inr ?_, by simp, by simp [printArrayLoop]⟩
    have e : x ++ (printArrayLoop [] i ++ ']' :: y) = x ++ ']' :: y := by
      simp [printArrayLoop]
    exact getElem?_at e rfl
  | v :: rest, hw, hp, x, y, i, acc => by
    have hw1 : v.wellFormed ∧ wellFormedElements rest := by
      simpa only [wellFormedElements] using hw
    have hp1 : v.plain = true ∧ plainElements rest = true := by
      simpa only [plainElements, Bool.and_eq_true] using hp
    obtain ⟨c0, t0, hpv, hc0, hc0c, hc0b⟩ := print_head v hp1.1
    obtain ⟨cn, tn, hnext, hcn⟩ := printArrayLoop_succ_head rest i y
    have hy1 : ∀ c, (printArrayLoop rest (i + 1) ++ ']' :: y).head? = some c →
        numberChar c = false := by
      rw [hnext]
      intro c hc
      simp only [List.head?_cons, Option.some.injEq] at hc
      subst hc
      rcases hcn with rfl | rfl <;> decide
    obtain ⟨sep, hsep, hprint⟩ : ∃ sep, (sep = [] ∨ sep = ", ".toList) ∧
        printArrayLoop (v :: rest) i = sep ++ v.print ++ printArrayLoop rest (i + 1) := by
      by_cases hi : i > 0
      · exact ⟨", ".toList, Or.inr rfl, by simp [printArrayLoop, hi]⟩
      · exact ⟨[], Or.inl rfl, by simp [printArrayLoop, hi]⟩
    obtain ⟨Fv, hFv⟩ := parseValue_print v hw1.1 hp1.1 (x ++ sep)
      (printArrayLoop rest (i + 1) ++ ']' :: y) hy1
    obtain ⟨Fr, hFr⟩ := parseArrayLoop_print rest hw1.2 hp1.2 (x ++ sep ++ v.print) y (i + 1)
      (acc ++ [v])
    refine ⟨Fv + Fr + 1, fun fuel hf => ?_⟩
    obtain ⟨f, rfl⟩ : ∃ f, fuel = f + 1 := ⟨fuel - 1, by omega⟩
    have hv := hFv f (by omega)
    have hr := hFr f (by omega)
    have hlen : (printArrayLoop (v :: rest) i).length =
        sep.length + v.print.length + (printArrayLoop rest (i + 1)).length := by
      rw [hprint]; simp; omega
    generalize hj : x ++ (printArrayLoop (v :: rest) i ++ ']' :: y) = json
    have hj1 : x ++ sep ++ (v.print ++ (printArrayLoop rest (i + 1) ++ ']' :: y)) = json := by
      subst hj; rw [hprint]; simp
    have hj2 : x ++ sep ++ v.print ++ (printArrayLoop rest (i + 1) ++ ']' :: y) = json := by
      subst hj; rw [hprint]; simp
    rw [hj1] at hv
    rw [hj2] at hr
    simp only [List.length_append] at hv hr
    have hfirst : ∃ c, json[x.length]? = some c ∧ c ≠ ']' ∧
        skipWhitespace json (if c = ',' then x.length + 1 else x.length)
          = x.length + sep.length := by
      rcases hsep with rfl | rfl
      · have hja : json = x ++ c0 :: (t0 ++ (printArrayLoop rest (i + 1) ++ ']' :: y)) := by
          rw [← hj1, hpv]; simp
        refine ⟨c0, getElem?_at hja rfl, hc0b, ?_⟩
        rw [if_neg hc0c]
        exact skipWhitespace_at_cons hja rfl hc0
      · have hja : json = x ++ ',' ::
            (' ' :: c0 :: (t0 ++ (printArrayLoop rest (i + 1) ++ ']' :: y))) := by
          rw [← hj1, hpv]; simp
        have hjb : json = (x ++ [',']) ++
            ([' '] ++ c0 :: (t0 ++ (printArrayLoop rest (i + 1) ++ ']' :: y))) := by
          rw [← hj1, hpv]; simp
        refine ⟨',', getElem?_at hja rfl, by decide, ?_⟩
        rw [if_pos rfl]
        exact skipWhitespace_at hjb (by simp) (by simp; decide) (by simp [hc0])
    obtain ⟨c, hc1, hc2, hc3⟩ := hfirst
    have hskip : skipWhitespace json (x.length + sep.length + v.print.length)
        = x.length + sep.length + v.print.length := by
      rw [hnext] at hj2
      exact skipWhitespace_at_cons hj2.symm (by simp; omega)
        (by rcases hcn with rfl | rfl <;> decide)
    rw [parseArrayLoop_ok_iff]
    right
    refine ⟨c, v, x.length + sep.length + v.print.length, hc1, hc2, ?_, ?_⟩
    · rw [hc3]; exact hv
    · rw [hskip, hr, hlen]
      congr 2
      · simp
      · omega
end

end Answer1

namespace Answer2

/-! ## The transfer service -/

theorem lookup_map_add (id : String) (amount : Int) (k : String) :
    ∀ l : List (String × Int),
      (l.map fun e => (e.1, if e.1 = id then e.2 + amount else e.2)).lookup k
        = (l.lookup k).map (fun b => if k = id then b + amount else b)
  | [] => rfl
  | (a, b) :: rest => by
    have ih := lookup_map_add id amount k rest
    simp only [List.map_cons, List.lookup]
    by_cases hk : k = a
    · subst hk
      simp
    · have hb : (k == a) = false := by simpa using hk
      simp only [hb]
      exact ih

theorem map_add_neg (id : String) (amount : Int) :
    ∀ l : List (String × Int),
      ((l.map fun e => (e.1, if e.1 = id then e.2 + -amount else e.2)).map
        fun e => (e.1, if e.1 = id then e.2 + - -amount else e.2)) = l
  | [] => rfl
  | (a, b) :: rest => by
    have ih := map_add_neg id amount rest
    simp only [List.map_cons, ih]
    by_cases hid : a = id
    · simp only [hid, if_true]
      congr 2
      omega
    · simp only [hid, if_false]

/-- Where `transfer` keeps its promise: when the payee account exists and the amount is
not negative, every outcome other than `true` leaves the database as it was; a debit
that was applied is undone after a failed API call. -/
theorem transfer_unchanged_of_payee (db : BankDatabase) (payer payee : String)
    (amount : Int) (api : Bool) (hamount : 0 ≤ amount)
    (hpayee : db.accounts.lookup payee ≠ none)
    (h : (transfer db payer payee amount api).1 ≠ .ok true) :
    (transfer db payer payee amount api).2 = db := by
  unfold transfer at h ⊢
  unfold debit BankDatabase.getBalance BankDatabase.updateBalance at h ⊢
  cases hl : db.accounts.lookup payer with
  | none => simp only [hl]
  | some current =>
    simp only [hl] at h ⊢
    by_cases hge : current ≥ amount
    · simp only [hge, if_true] at h ⊢
      cases api with
      | false =>
        simp only [Bool.not_false, if_true, lookup_map_add, hl, Option.map_some']
        have hge2 : current + -amount ≥ -amount := by omega
        simp only [if_true, hge2, map_add_neg]
      | true =>
        exfalso
        apply h
        simp only [Bool.not_true, Bool.false_eq_true, if_false, credit,
          BankDatabase.updateBalance, lookup_map_add]
        cases hp : db.accounts.lookup payee with
        | none => exact absurd hp hpayee
        | some b => simp only [Option.map_some']
    · simp only [hge, if_false]

end Answer2

namespace Answer1

/-! # The claims -/

/-- C1: the Decimal 1.5, the tree that `parseJSON` returns for `1.5`, is printed as `15`,
and parsing `15` gives the Integer 15, not the tree that was printed. -/
theorem round_trip_fails_on_decimal :
    parseJSON "1.5".toList = .ok (.FLOAT ⟨false, "15".toList, 1⟩) ∧
    (Value.FLOAT ⟨false, "15".toList, 1⟩).print = "15".toList ∧
    parseJSON (Value.FLOAT ⟨false, "15".toList, 1⟩).print = .ok (.INTEGER 15) ∧
    Value.INTEGER 15 ≠ Value.FLOAT ⟨false, "15".toList, 1⟩ :=
  ⟨rfl, rfl, rfl, fun h => Value.noConfusion h⟩

/-- C2, as stated, fails: `007` is an integer literal, it parses to the Integer 7 (a
leading `0` selects base 8 in `mpz_set_str`), and 7 is printed as `7`. Likewise `-0` is
printed as `0` and `010` as `8`. -/
theorem integer_literal_not_preserved :
    isIntegerLiteral "007".toList = true ∧
    parseJSON "007".toList = .ok (.INTEGER 7) ∧
    (Value.INTEGER 7).print = "7".toList ∧
    (Value.INTEGER 7).print ≠ "007".toList ∧
    isIntegerLiteral "-0".toList = true ∧
    parseJSON "-0".toList = .ok (.INTEGER 0) ∧
    (Value.INTEGER 0).print = "0".toList ∧
    isIntegerLiteral "010".toList = true ∧
    parseJSON "010".toList = .ok (.INTEGER 8) ∧
    (Value.INTEGER 8).print = "8".toList :=
  ⟨rfl, rfl, rfl, by decide, rfl, rfl, rfl, rfl, rfl, rfl⟩

/-- C2 (amended): a canonical integer literal, of any length, parses to an Integer that is
printed as exactly that literal; the cursor ends at the end of the text. -/
theorem canonical_integer_literal_preserved (s : List Char)
    (h : isCanonicalIntegerLiteral s = true) :
    ∃ z : Int, parseJSONAt s = .ok (.INTEGER z, s.length) ∧
      parseJSON s = .ok (.INTEGER z) ∧ (Value.INTEGER z).print = s := by
  rcases canonical_cases s h with h0 | ⟨d, r, hs, hd, hd0, hr⟩
  · subst h0
    exact ⟨0, rfl, rfl, rfl⟩
  · have hall : ∀ c ∈ d :: r, isDigit c = true := by
      intro c hc
      rcases List.mem_cons.mp hc with h | h
      · rw [h]; exact hd
      · exact hr c h
    have hpos := foldl_digits_pos d r hd hd0
    have hdigits := toDigits_foldl_digits (d :: r) (by simp) hall (by simpa using hd0)
    obtain ⟨hz1, hz2⟩ := mpz_set_str_canonical d r hd hd0 hr
    rcases hs with hs | hs
    · subst hs
      have hat := parseJSONAt_digits d r (Or.inr hd) hr
      rw [hz1] at hat
      refine ⟨_, hat, ?_, ?_⟩
      · simp only [parseJSON, hat]
      · rw [Value.print, mpz_get_str, if_neg (by omega), Int.natAbs_ofNat, hdigits]
    · subst hs
      have hat := parseJSONAt_digits '-' (d :: r) (Or.inl rfl) hall
      rw [hz2] at hat
      refine ⟨_, hat, ?_, ?_⟩
      · simp only [parseJSON, hat]
      · rw [Value.print, mpz_get_str, if_pos (by omega), Int.natAbs_neg, Int.natAbs_ofNat,
          hdigits]

/-- Witness for C2 (amended): the 30-digit literal of the specification, and a negative
literal. -/
theorem canonical_integer_literal_preserved_witness :
    (∃ z : Int,
      parseJSONAt "123456789012345678901234567890".toList
        = .ok (.INTEGER z, "123456789012345678901234567890".toList.length) ∧
      parseJSON "123456789012345678901234567890".toList = .ok (.INTEGER z) ∧
      (Value.INTEGER z).print = "123456789012345678901234567890".toList) ∧
    (∃ z : Int,
      parseJSONAt "-40".toList = .ok (.INTEGER z, "-40".toList.length) ∧
      parseJSON "-40".toList = .ok (.INTEGER z) ∧
      (Value.INTEGER z).print = "-40".toList) :=
  ⟨canonical_integer_literal_preserved _ (by decide),
   canonical_integer_literal_preserved _ (by decide)⟩

/-- C3: the decimal literal `1.5` parses to a Decimal, and `print` writes it as `15`:
the digits that `get_str(exp)` returns, without the decimal point, the exponent unused. -/
theorem decimal_printed_without_point :
    isDecimalLiteral "1.5".toList = true ∧
    parseJSON "1.5".toList = .ok (.FLOAT ⟨false, "15".toList, 1⟩) ∧
    mpf_get_str ⟨false, "15".toList, 1⟩ = ("15".toList, 1) ∧
    (Value.FLOAT ⟨false, "15".toList, 1⟩).print = "15".toList ∧
    '.' ∉ (Value.FLOAT ⟨false, "15".toList, 1⟩).print ∧
    parseJSON "-0.25".toList = .ok (.FLOAT ⟨true, "25".toList, 0⟩) ∧
    (Value.FLOAT ⟨true, "25".toList, 0⟩).print = "-25".toList :=
  ⟨rfl, rfl, rfl, rfl, by decide, rfl, rfl⟩

/-- C4: entered on `-` or a digit, a successful `parseValue` has stepped over the optional
`-` and then over the longest run of digits and points, and the value is a Decimal exactly
when the consumed text `json.substr(start, pos - start)` holds a point, an Integer exactly
when it holds none. -/
theorem number_scan_and_classification (fuel : Nat) (json : List Char) (pos : Nat)
    (c : Char) (v : Value) (pos' : Nat)
    (hc : charAt json (skipWhitespace json pos) = some c)
    (hnum : c = '-' ∨ isDigit c = true)
    (h : parseValue fuel json pos = .ok (v, pos')) :
    (if c = '-' then skipWhitespace json pos + 1 else skipWhitespace json pos) ≤ pos' ∧
    pos' ≤ json.length ∧
    (∀ i, (if c = '-' then skipWhitespace json pos + 1 else skipWhitespace json pos) ≤ i →
      i < pos' → ∃ d, json[i]? = some d ∧ (isDigit d = true ∨ d = '.')) ∧
    (∀ d, json[pos']? = some d → isDigit d = false ∧ d ≠ '.') ∧
    ((∃ f, v = .FLOAT f) ↔
      '.' ∈ substr json (skipWhitespace json pos) (pos' - skipWhitespace json pos)) ∧
    ((∃ z, v = .INTEGER z) ↔
      '.' ∉ substr json (skipWhitespace json pos) (pos' - skipWhitespace json pos)) := by
  cases fuel with
  | zero => simp [parseValue] at h
  | succ fuel =>
    rw [parseValue_number fuel json pos c hc hnum] at h
    have hnul : c ≠ Char.ofNat 0 := by rintro rfl; revert hnum; decide
    obtain ⟨hlt, hget⟩ := lt_of_charAt_eq hc hnul
    obtain ⟨a1, a2, a3, a4, a5, a6⟩ := parseNumber_ok json _ c v pos' hlt h
    have key : ('.' ∈ substr json (skipWhitespace json pos) (pos' - skipWhitespace json pos))
        ↔ ∃ i, (if c = '-' then skipWhitespace json pos + 1 else skipWhitespace json pos) ≤ i
            ∧ i < pos' ∧ json[i]? = some '.' := by
      rw [mem_substr]
      constructor
      · rintro ⟨i, h1, h2, h3⟩
        refine ⟨i, ?_, by omega, h3⟩
        split
        · rename_i hcm
          by_contra hcon
          have : i = skipWhitespace json pos := by omega
          subst this
          rw [hget, hcm] at h3
          revert h3; decide
        · exact h1
      · rintro ⟨i, h1, h2, h3⟩
        refine ⟨i, ?_, by omega, h3⟩
        split at h1 <;> omega
    refine ⟨a1, a2, a3, a4, ?_, ?_⟩
    · rw [key]; exact a5
    · rw [key]; exact a6

/-- Witness for C4: in `[-12.5,7]` the value scanned from cursor 1 is a Decimal and the
cursor stops on the comma at 6; from cursor 7 it is the Integer 7, stopping at 8. -/
theorem number_scan_and_classification_witness :
    parseValue 1 "[-12.5,7]".toList 1 = .ok (.FLOAT ⟨true, "125".toList, 2⟩, 6) ∧
    '.' ∈ substr "[-12.5,7]".toList 1 (6 - 1) ∧
    parseValue 1 "[-12.5,7]".toList 7 = .ok (.INTEGER 7, 8) ∧
    '.' ∉ substr "[-12.5,7]".toList 7 (8 - 7) :=
  ⟨rfl,
   (number_scan_and_classification 1 "[-12.5,7]".toList 1 '-' _ 6 rfl (by decide) rfl).2.2.2.2.1.mp
     ⟨_, rfl⟩,
   rfl,
   (number_scan_and_classification 1 "[-12.5,7]".toList 7 '7' _ 8 rfl (by decide) rfl).2.2.2.2.2.mp
     ⟨_, rfl⟩⟩

/-- C5: the Object that `parseObject` returns has every key once, and holds under a key
the value of the last entry of the text with that key; `{"a":1,"a":2}` gives `a: 2`. -/
theorem duplicate_keys_last_write_wins :
    (∀ (fuel : Nat) (json : List Char) (pos : Nat) (obj : List (List Char × Value))
        (pos' : Nat), parseObject fuel json pos = .ok (obj, pos') →
        ∃ entries, objectEntries fuel json pos = .ok (entries, pos') ∧
          (obj.map Prod.fst).Nodup ∧
          ∀ (key : List Char) (value : Value),
            (key, value) ∈ obj ↔ lastEntry key entries = some value) ∧
    parseJSON "\x7b\"a\":1,\"a\":2\x7d".toList
      = .ok (.OBJECT [("a".toList, .INTEGER 2)]) := by
  refine ⟨?_, rfl⟩
  intro fuel json pos obj pos' h
  rw [parseObject_eq_storeAll] at h
  cases he : objectEntries fuel json pos with
  | error e => rw [he] at h; cases h
  | ok ep =>
    obtain ⟨es, p⟩ := ep
    rw [he] at h
    injection h with h
    injection h with h1 h2
    subst h1; subst h2
    have hnil : keysAscending ([] : List (List Char × Value)) := List.Pairwise.nil
    refine ⟨es, rfl, ?_, ?_⟩
    · have hasc := keysAscending_storeAll es [] hnil
      unfold keysAscending at hasc
      rw [List.Nodup, List.pairwise_map]
      exact hasc.imp (fun hlt => ne_of_stringLt hlt)
    · intro key value
      rw [mem_storeAll es [] hnil key value]
      simp

/-- Witness for C5: the entries of `{"a":1,"a":2}` are `a: 1` and `a: 2`, the Object holds
`a: 2` only. -/
theorem duplicate_keys_last_write_wins_witness :
    parseObject 9 "\x7b\"a\":1,\"a\":2\x7d".toList 0 = .ok ([("a".toList, .INTEGER 2)], 13) ∧
    objectEntries 9 "\x7b\"a\":1,\"a\":2\x7d".toList 0
      = .ok ([("a".toList, .INTEGER 1), ("a".toList, .INTEGER 2)], 13) ∧
    ∃ entries, objectEntries 9 "\x7b\"a\":1,\"a\":2\x7d".toList 0 = .ok (entries, 13) ∧
      (([("a".toList, Value.INTEGER 2)] : List (List Char × Value)).map Prod.fst).Nodup ∧
      ∀ (key : List Char) (value : Value),
        (key, value) ∈ ([("a".toList, Value.INTEGER 2)] : List (List Char × Value)) ↔
          lastEntry key entries = some value :=
  ⟨rfl, rfl, duplicate_keys_last_write_wins.1 9 _ 0 _ 13 rfl⟩

/-- C6: `parseObject` returns only after reading a closing brace inside the text, behind
the position it was entered at, and `parseArray` only after a closing bracket; the new
cursor is just behind that character. The two unterminated samples of the specification
throw "Expected '}' at the end of object" and "Expected ']' at the end of array". -/
theorem unterminated_containers_rejected :
    (∀ (fuel : Nat) (json : List Char) (pos : Nat) (obj : List (List Char × Value))
        (pos' : Nat), parseObject fuel json pos = .ok (obj, pos') →
        pos + 2 ≤ pos' ∧ pos' ≤ json.length ∧ json[pos' - 1]? = some '\x7d') ∧
    (∀ (fuel : Nat) (json : List Char) (pos : Nat) (arr : List Value) (pos' : Nat),
        parseArray fuel json pos = .ok (arr, pos') →
        pos + 2 ≤ pos' ∧ pos' ≤ json.length ∧ json[pos' - 1]? = some ']') ∧
    parseJSON "\x7b\"a\":1".toList = .error .expectedObjectEnd ∧
    parseJSON "[1,2".toList = .error .expectedArrayEnd := by
  refine ⟨?_, ?_, rfl, rfl⟩
  · intro fuel json pos obj pos' h
    cases fuel with
    | zero => simp [parseObject] at h
    | succ fuel =>
      rw [parseObject_ok_iff] at h
      obtain ⟨p, hl, hc, e⟩ := h
      have h1 := (cursor_le json fuel).2.2.1 _ _ _ _ hl
      have h2 := le_skipWhitespace json (pos + 1)
      have h3 := lt_of_charAt_eq hc (by decide)
      subst e
      exact ⟨by omega, by omega, by simpa using h3.2⟩
  · intro fuel json pos arr pos' h
    cases fuel with
    | zero => simp [parseArray] at h
    | succ fuel =>
      rw [parseArray_ok_iff] at h
      obtain ⟨p, hl, hc, e⟩ := h
      have h1 := (cursor_le json fuel).2.2.2.2 _ _ _ _ hl
      have h2 := le_skipWhitespace json (pos + 1)
      have h3 := lt_of_charAt_eq hc (by decide)
      subst e
      exact ⟨by omega, by omega, by simpa using h3.2⟩

/-- Witness for C6: the texts `{}` and `[]` parse, and the ends are where C6 says. -/
theorem unterminated_containers_rejected_witness :
    parseObject 2 "\x7b\x7d".toList 0 = .ok ([], 2) ∧
    (0 + 2 ≤ 2 ∧ 2 ≤ "\x7b\x7d".toList.length ∧ "\x7b\x7d".toList[2 - 1]? = some '\x7d') ∧
    parseArray 2 "[]".toList 0 = .ok ([], 2) ∧
    (0 + 2 ≤ 2 ∧ 2 ≤ "[]".toList.length ∧ "[]".toList[2 - 1]? = some ']') :=
  ⟨rfl, unterminated_containers_rejected.1 2 _ 0 [] 2 rfl,
   rfl, unterminated_containers_rejected.2.1 2 _ 0 [] 2 rfl⟩

/-- C7: on an opening quote that is never closed `parseValue` returns a Text value
holding the rest of the input, with the cursor one past the terminator; inside a
container the next read is then past the end of the string. -/
theorem unterminated_string_accepted :
    parseJSONAt "\"abc".toList = .ok (.STRING "abc".toList, 5) ∧
    "\"abc".toList.length = 4 ∧
    parseJSON "\"abc".toList = .ok (.STRING "abc".toList) ∧
    parseJSON "\x7b\"a".toList = .error .readPastEnd ∧
    parseJSON "[\"abc".toList = .error .readPastEnd :=
  ⟨rfl, rfl, rfl, rfl, rfl⟩

/-- C8: a first significant character that starts no value makes `parseJSON` throw
"Invalid JSON value". -/
theorem unexpected_token_rejected (json : List Char) (c : Char)
    (hc : charAt json (skipWhitespace json 0) = some c)
    (hquote : c ≠ '"') (hbrace : c ≠ '\x7b') (hbracket : c ≠ '[') (hminus : c ≠ '-')
    (hdigit : isDigit c = false)
    (htrue : substr json (skipWhitespace json 0) 4 ≠ "true".toList)
    (hfalse : substr json (skipWhitespace json 0) 5 ≠ "false".toList)
    (hnull : substr json (skipWhitespace json 0) 4 ≠ "null".toList) :
    parseJSON json = .error .invalidJSONValue := by
  have e1 : "true".toList = ['t', 'r', 'u', 'e'] := rfl
  have e2 : "false".toList = ['f', 'a', 'l', 's', 'e'] := rfl
  have e3 : "null".toList = ['n', 'u', 'l', 'l'] := rfl
  rw [e1] at htrue
  rw [e2] at hfalse
  rw [e3] at hnull
  simp [parseJSON, parseJSONAt, parseFuel, parseValue, hc, hquote, hbrace, hbracket,
    hminus, hdigit, htrue, hfalse, hnull]

/-- Witness for C8: the inputs `tru` and the empty text. -/
theorem unexpected_token_rejected_witness :
    parseJSON "tru".toList = .error .invalidJSONValue ∧
    parseJSON [] = .error .invalidJSONValue :=
  ⟨unexpected_token_rejected "tru".toList 't' rfl (by decide) (by decide) (by decide)
      (by decide) (by decide) (by decide) (by decide) (by decide),
   unexpected_token_rejected [] (Char.ofNat 0) rfl (by decide) (by decide) (by decide)
      (by decide) (by decide) (by decide) (by decide) (by decide)⟩

/-- C9: when `parseJSON` succeeds on `s` with its cursor not past the end of `s`, it
succeeds with the same value and cursor on `s`, a space and any further text: what
follows the first value is never read. -/
theorem trailing_content_ignored (s t : List Char) (v : Value) (pos' : Nat)
    (h : parseJSONAt s = .ok (v, pos')) (hle : pos' ≤ s.length) :
    parseJSONAt (s ++ ' ' :: t) = .ok (v, pos') ∧ parseJSON (s ++ ' ' :: t) = .ok v := by
  have hu : ∀ c, (' ' :: t).head? = some c → numberChar c = false := by
    intro c hc
    simp only [List.head?_cons, Option.some.injEq] at hc
    subst hc
    decide
  have h1 := (parse_append s (' ' :: t) hu (parseFuel s)).1 0 v pos' h hle
  have hfuel : parseFuel s ≤ parseFuel (s ++ ' ' :: t) := by
    simp only [parseFuel, List.length_append, List.length_cons]
    omega
  have h2 : parseJSONAt (s ++ ' ' :: t) = .ok (v, pos') := parseValue_fuel_le hfuel h1
  exact ⟨h2, by simp only [parseJSON, h2]⟩

/-- Witness for C9: `1 xyz` parses to the Integer 1, as `1` does. -/
theorem trailing_content_ignored_witness :
    parseJSONAt "1".toList = .ok (.INTEGER 1, 1) ∧
    parseJSONAt "1 xyz".toList = .ok (.INTEGER 1, 1) ∧
    parseJSON "1 xyz".toList = .ok (.INTEGER 1) :=
  ⟨rfl, trailing_content_ignored "1".toList "xyz".toList (.INTEGER 1) 1 rfl (by decide)⟩

/-- C10: `print` writes an Array as `[`, the renderings of its elements in order joined
by `, `, and `]`; an Object as an opening brace, its stored entries in order, each as the
key between double quotes, `: ` and the rendering of the value, joined by `, `, and a
closing brace; a Text as its payload between double quotes; a Boolean as `true` or
`false`; Null as `null`; the empty Array as `[]` and the empty Object as a pair of
braces. -/
theorem print_eq_reference_rendering :
    (∀ a : List Value,
        (Value.ARRAY a).print
          = "[".toList ++ (", ".toList).intercalate (a.map Value.print) ++ "]".toList) ∧
    (∀ m : List (List Char × Value),
        (Value.OBJECT m).print
          = "\x7b".toList
            ++ (", ".toList).intercalate
                (m.map fun e => "\"".toList ++ e.1 ++ "\": ".toList ++ e.2.print)
            ++ "\x7d".toList) ∧
    (∀ s : List Char, (Value.STRING s).print = "\"".toList ++ s ++ "\"".toList) ∧
    (Value.BOOLEAN true).print = "true".toList ∧
    (Value.BOOLEAN false).print = "false".toList ∧
    Value.NIL.print = "null".toList ∧
    (Value.ARRAY []).print = "[]".toList ∧
    (Value.OBJECT []).print = "\x7b\x7d".toList := by
  refine ⟨?_, ?_, ?_, ?_, ?_, ?_, ?_, ?_⟩
  · intro a
    cases a with
    | nil => simp [Value.print, printArrayLoop, List.intercalate]
    | cons v rest =>
      rw [Value.print, printArrayLoop_eq _ rfl _ _ (by simp)]
      simp
  · intro m
    cases m with
    | nil => simp [Value.print, printObjectLoop, List.intercalate]
    | cons e rest =>
      rw [Value.print, printObjectLoop_eq _ rfl _ _ (by simp)]
      simp
  · intro s; simp [Value.print]
  · simp [Value.print]
  · simp [Value.print]
  · simp [Value.print]
  · simp [Value.print, printArrayLoop]
  · simp [Value.print, printObjectLoop]

/-- C11: an opening brace, any run of white space and a closing brace parse to the Object
without entries, and likewise with brackets to the Array without elements; the cursor
ends just past the closing character, and the two values are printed as the pair of
braces and as `[]`. -/
theorem empty_containers (ws : List Char) (hws : ∀ c ∈ ws, isspace c = true) :
    parseJSONAt ('\x7b' :: (ws ++ ['\x7d'])) = .ok (.OBJECT [], ws.length + 2) ∧
    parseJSON ('\x7b' :: (ws ++ ['\x7d'])) = .ok (.OBJECT []) ∧
    parseJSONAt ('[' :: (ws ++ [']'])) = .ok (.ARRAY [], ws.length + 2) ∧
    parseJSON ('[' :: (ws ++ [']'])) = .ok (.ARRAY []) ∧
    (Value.OBJECT []).print = "\x7b\x7d".toList ∧
    (Value.ARRAY []).print = "[]".toList := by
  have key : ∀ (c0 c1 : Char), isspace c0 = false → isspace c1 = false →
      skipWhitespace (c0 :: (ws ++ [c1])) 0 = 0 ∧
      charAt (c0 :: (ws ++ [c1])) 0 = some c0 ∧
      skipWhitespace (c0 :: (ws ++ [c1])) (0 + 1) = ws.length + 1 ∧
      (c0 :: (ws ++ [c1]))[ws.length + 1]? = some c1 ∧
      ∃ f, parseFuel (c0 :: (ws ++ [c1])) = f + 3 := by
    intro c0 c1 h0 h1
    refine ⟨skipWhitespace_cons [] c0 _ h0, charAt_append_cons [] c0 _, ?_, ?_, ?_⟩
    · have := skipWhitespace_span [c0] ws [c1] hws (by simp [h1])
      simp only [List.length_singleton, List.singleton_append] at this
      rw [this]; omega
    · have := getElem?_append_add (c0 :: ws) [c1] 0
      simp only [List.length_cons, Nat.add_zero, List.cons_append] at this
      rw [this]; rfl
    · refine ⟨3 * (ws.length + 2) + 3, ?_⟩
      simp only [parseFuel, List.length_cons, List.length_append, List.length_singleton,
        List.length_nil]
  have hO : parseJSONAt ('\x7b' :: (ws ++ ['\x7d'])) = .ok (.OBJECT [], ws.length + 2) := by
    obtain ⟨h1, h2, h3, h4, f, hf⟩ := key '\x7b' '\x7d' (by decide) (by decide)
    rw [parseJSONAt, hf, parseValue_ok_iff, h1]
    refine ⟨_, h2, Or.inr (Or.inl ⟨rfl, [], ?_, rfl⟩)⟩
    rw [parseObject_ok_iff, h3]
    refine ⟨ws.length + 1, ?_, charAt_of_getElem? h4, rfl⟩
    rw [parseObjectLoop_ok_iff]
    exact Or.inl ⟨Or.inr h4, rfl, rfl⟩
  have hA : parseJSONAt ('[' :: (ws ++ [']'])) = .ok (.ARRAY [], ws.length + 2) := by
    obtain ⟨h1, h2, h3, h4, f, hf⟩ := key '[' ']' (by decide) (by decide)
    rw [parseJSONAt, hf, parseValue_ok_iff, h1]
    refine ⟨_, h2, Or.inr (Or.inr (Or.inl ⟨rfl, [], ?_, rfl⟩))⟩
    rw [parseArray_ok_iff, h3]
    refine ⟨ws.length + 1, ?_, charAt_of_getElem? h4, rfl⟩
    rw [parseArrayLoop_ok_iff]
    exact Or.inl ⟨Or.inr h4, rfl, rfl⟩
  exact ⟨hO, by simp only [parseJSON, hO], hA, by simp only [parseJSON, hA], rfl, rfl⟩

/-- Witness for C11: no white space between the brackets, and a space, a tab and a
newline between them. -/
theorem empty_containers_witness :
    parseJSONAt "\x7b\x7d".toList = .ok (.OBJECT [], 2) ∧
    parseJSONAt "[]".toList = .ok (.ARRAY [], 2) ∧
    parseJSONAt "\x7b \t\n\x7d".toList = .ok (.OBJECT [], 5) ∧
    parseJSONAt "[ \t\n]".toList = .ok (.ARRAY [], 5) :=
  ⟨(empty_containers [] (by simp)).1, (empty_containers [] (by simp)).2.2.1,
   (empty_containers " \t\n".toList (by decide)).1,
   (empty_containers " \t\n".toList (by decide)).2.2.1⟩

set_option maxHeartbeats 4000000 in
/-- C12: the compact nested text parses to an Object with the single key `x`, mapped to an
Array of the Integers 1 and 2 and an Object with the single key `y` mapped to Boolean
true, in this order; the cursor ends at 22, the length of the text. -/
theorem nested_containers_parse :
    parseJSONAt "\x7b\"x\":[1,2,\x7b\"y\":true\x7d]\x7d".toList
      = .ok (.OBJECT [("x".toList,
          .ARRAY [.INTEGER 1, .INTEGER 2, .OBJECT [("y".toList, .BOOLEAN true)]])], 22) ∧
    parseJSON "\x7b\"x\":[1,2,\x7b\"y\":true\x7d]\x7d".toList
      = .ok (.OBJECT [("x".toList,
          .ARRAY [.INTEGER 1, .INTEGER 2, .OBJECT [("y".toList, .BOOLEAN true)]])]) ∧
    "\x7b\"x\":[1,2,\x7b\"y\":true\x7d]\x7d".toList.length = 22 := by
  have h : parseJSONAt "\x7b\"x\":[1,2,\x7b\"y\":true\x7d]\x7d".toList
      = .ok (.OBJECT [("x".toList,
          .ARRAY [.INTEGER 1, .INTEGER 2, .OBJECT [("y".toList, .BOOLEAN true)]])], 22) :=
    rfl
  exact ⟨h, by simp only [parseJSON, h], rfl⟩

/-- C13: when the number branch is entered and the text it scans, `numStr`, holds no
digit (a bare `-`, possibly followed by points) or more than one decimal point,
`parseValue` fails with the `std::invalid_argument` of `mpz_class` or of `mpf_class`; at
the top level so does `parseJSON`. -/
theorem malformed_number_rejected (json : List Char) (pos : Nat) (c : Char)
    (hc : charAt json (skipWhitespace json pos) = some c)
    (hnum : c = '-' ∨ isDigit c = true)
    (hbad : (numStr json (skipWhitespace json pos) c).all (fun d => !isDigit d) = true ∨
      1 < (numStr json (skipWhitespace json pos) c).count '.') :
    (∀ fuel : Nat,
      parseValue (fuel + 1) json pos = .error .mpzInvalidArgument ∨
      parseValue (fuel + 1) json pos = .error .mpfInvalidArgument) ∧
    (pos = 0 →
      parseJSON json = .error .mpzInvalidArgument ∨
      parseJSON json = .error .mpfInvalidArgument) := by
  have h := parseNumber_malformed json _ c hc hnum hbad
  have hv : ∀ fuel : Nat,
      parseValue (fuel + 1) json pos = .error .mpzInvalidArgument ∨
      parseValue (fuel + 1) json pos = .error .mpfInvalidArgument := by
    intro fuel
    rw [parseValue_number fuel json pos c hc hnum]
    exact h
  refine ⟨hv, ?_⟩
  intro hpos
  subst hpos
  have hf : parseFuel json = (3 * json.length + 5) + 1 := rfl
  rcases hv (3 * json.length + 5) with h1 | h1
  · left
    simp only [parseJSON, parseJSONAt, hf, h1]
  · right
    simp only [parseJSON, parseJSONAt, hf, h1]

/-- Witness for C13: a bare `-`, and `1.2.3` with its two points. -/
theorem malformed_number_rejected_witness :
    parseJSON "-".toList = .error .mpzInvalidArgument ∧
    parseJSON "1.2.3".toList = .error .mpfInvalidArgument ∧
    (parseJSON "-.".toList = .error .mpzInvalidArgument ∨
      parseJSON "-.".toList = .error .mpfInvalidArgument) ∧
    (parseJSON "1.2.3".toList = .error .mpzInvalidArgument ∨
      parseJSON "1.2.3".toList = .error .mpfInvalidArgument) :=
  ⟨rfl, rfl,
   (malformed_number_rejected "-.".toList 0 '-' rfl (by decide) (Or.inl (by decide))).2 rfl,
   (malformed_number_rejected "1.2.3".toList 0 '1' rfl (by decide) (Or.inr (by decide))).2 rfl⟩

/-- C14: when the first significant character of the remainder `r` is neither a comma
nor the closing bracket, the array text `[,` followed by `r` has the outcome of `[`
followed by `r`: the same value, or the same failure; likewise for the object text with
its braces. The texts with a comma before their only entry parse to the Object `a: 1`
and to the Array of 1. -/
theorem stray_leading_comma_accepted :
    (∀ (r : List Char) (c : Char), r[skipWhitespace r 0]? = some c → c ≠ ',' → c ≠ ']' →
      parseJSON ('[' :: ',' :: r) = parseJSON ('[' :: r)) ∧
    (∀ (r : List Char) (c : Char), r[skipWhitespace r 0]? = some c → c ≠ ',' → c ≠ '\x7d' →
      parseJSON ('\x7b' :: ',' :: r) = parseJSON ('\x7b' :: r)) ∧
    parseJSON "\x7b,\"a\":1\x7d".toList = .ok (.OBJECT [("a".toList, .INTEGER 1)]) ∧
    parseJSON "[,1]".toList = .ok (.ARRAY [.INTEGER 1]) :=
  ⟨parseJSON_bracket_comma, parseJSON_brace_comma, rfl, rfl⟩

/-- Witness for C14: `[,1]` against `[1]`, and the object text with and without the
comma. -/
theorem stray_leading_comma_accepted_witness :
    parseJSON "[,1]".toList = parseJSON "[1]".toList ∧
    parseJSON "[1]".toList = .ok (.ARRAY [.INTEGER 1]) ∧
    parseJSON "\x7b,\"a\":1\x7d".toList = parseJSON "\x7b\"a\":1\x7d".toList ∧
    parseJSON "\x7b\"a\":1\x7d".toList = .ok (.OBJECT [("a".toList, .INTEGER 1)]) :=
  ⟨stray_leading_comma_accepted.1 "1]".toList '1' rfl (by decide) (by decide), rfl,
   stray_leading_comma_accepted.2.1 "\"a\":1\x7d".toList '"' rfl (by decide) (by decide), rfl⟩

/-- C15, as stated, fails: on two consecutive commas the object text throws "Expected
string key" and the array text "Invalid JSON value". -/
theorem double_comma_not_accepted :
    parseJSON "\x7b\"a\":1,,\"b\":2\x7d".toList = .error .expectedStringKey ∧
    parseJSON "[1,,2]".toList = .error .invalidJSONValue :=
  ⟨rfl, rfl⟩

/-- C15 (amended): a round of the loops skips one comma and no more. Entered on a comma
whose next significant character is again a comma, the loop of `parseArray` throws
"Invalid JSON value" and the loop of `parseObject` throws "Expected string key"; so do
`[1,,2]` and the object text with `,,` between its two entries. -/
theorem double_comma_rejected :
    (∀ (fuel : Nat) (json : List Char) (pos : Nat) (arr : List Value),
        json[pos]? = some ',' → charAt json (skipWhitespace json (pos + 1)) = some ',' →
        parseArrayLoop (fuel + 2) json pos arr = .error .invalidJSONValue) ∧
    (∀ (fuel : Nat) (json : List Char) (pos : Nat) (obj : List (List Char × Value)),
        json[pos]? = some ',' → charAt json (skipWhitespace json (pos + 1)) = some ',' →
        parseObjectLoop (fuel + 1) json pos obj = .error .expectedStringKey) ∧
    parseJSON "[1,,2]".toList = .error .invalidJSONValue ∧
    parseJSON "\x7b\"a\":1,,\"b\":2\x7d".toList = .error .expectedStringKey := by
  refine ⟨?_, ?_, rfl, rfl⟩
  · intro fuel json pos arr h1 h2
    rw [parseArrayLoop, h1]
    simp only [if_true]
    rw [if_neg (by decide), parseValue]
    simp only [skipWhitespace_idem, h2]
    rw [if_neg (by decide), if_neg (by decide), if_neg (by decide),
      if_neg (fun h => absurd h.1 (by decide)), if_neg (fun h => absurd h.1 (by decide)),
      if_neg (fun h => absurd h.1 (by decide)), if_neg (by decide)]
  · intro fuel json pos obj h1 h2
    have hs : skipWhitespace json pos = pos :=
      skipWhitespace_of_not_isspace (fun c hc => by
        rw [h1] at hc
        injection hc with hc
        subst hc
        decide)
    have hk : parseKey json pos = .error .expectedStringKey := by
      unfold parseKey
      simp only [hs, charAt_of_getElem? h1, if_true, h2]
      rw [if_pos (by decide)]
    rw [parseObjectLoop, h1]
    simp only
    rw [if_neg (by decide), hk]

/-- Witness for C15 (amended): the loops entered on the first of the two commas. -/
theorem double_comma_rejected_witness :
    parseArrayLoop 2 "[1,,2]".toList 2 [.INTEGER 1] = .error .invalidJSONValue ∧
    parseObjectLoop 1 "\x7b\"a\":1,,\"b\":2\x7d".toList 6 [("a".toList, .INTEGER 1)]
      = .error .expectedStringKey :=
  ⟨double_comma_rejected.1 0 _ 2 _ rfl rfl, double_comma_rejected.2.1 0 _ 6 _ rfl rfl⟩

/-- C16: the round trip without decimals. For every tree without a Decimal node whose Text
payloads and Object keys hold no double quote (every Object being a `std::map`, its keys
ascending), `parseValue` run from cursor 0 on the printed text succeeds with every fuel
from `parseFuel` on, returns the tree itself and leaves the cursor at the end of the
text; so does `parseJSON`. -/
theorem round_trip_without_decimals (v : Value) (hw : v.wellFormed) (hp : v.plain = true) :
    (∀ fuel, parseFuel v.print ≤ fuel → parseValue fuel v.print 0 = .ok (v, v.print.length)) ∧
    parseJSONAt v.print = .ok (v, v.print.length) ∧
    parseJSON v.print = .ok v := by
  obtain ⟨F, hF⟩ := parseValue_print v hw hp [] [] (by simp)
  have h := hF (F + parseFuel v.print) (by omega)
  simp only [List.nil_append, List.append_nil, List.length_nil, Nat.zero_add] at h
  have hat : parseJSONAt v.print = .ok (v, v.print.length) := by
    rw [← parseValue_eq_parseJSONAt v.print (Nat.le_add_left _ F)]
    exact h
  refine ⟨fun fuel hf => ?_, hat, ?_⟩
  · rw [parseValue_eq_parseJSONAt v.print hf]
    exact hat
  · simp only [parseJSON, hat]

/-- Witness for C16: the tree printed as `{"a": [-5, "x", true, null], "b": {}}`. -/
theorem round_trip_without_decimals_witness :
    (Value.OBJECT [("a".toList, .ARRAY [.INTEGER (-5), .STRING "x".toList, .BOOLEAN true, .NIL]),
        ("b".toList, .OBJECT [])]).print = "\x7b\"a\": [-5, \"x\", true, null], \"b\": \x7b\x7d\x7d".toList ∧
    parseJSON (Value.OBJECT [("a".toList, .ARRAY [.INTEGER (-5), .STRING "x".toList,
        .BOOLEAN true, .NIL]), ("b".toList, .OBJECT [])]).print
      = .ok (.OBJECT [("a".toList, .ARRAY [.INTEGER (-5), .STRING "x".toList, .BOOLEAN true, .NIL]),
        ("b".toList, .OBJECT [])]) :=
  ⟨by decide,
    (round_trip_without_decimals
      (.OBJECT [("a".toList, .ARRAY [.INTEGER (-5), .STRING "x".toList, .BOOLEAN true, .NIL]),
        ("b".toList, .OBJECT [])])
      (by simp [Value.wellFormed, wellFormedEntries, wellFormedElements, keysAscending]; decide)
      (by decide)).2.2⟩

/-- C17, as stated, fails: the two object texts below have the same set of entries,
`a: 1` and `a: 2`, in different orders, and are printed differently, each with the value
of its last entry. -/
theorem same_entries_rendered_differently :
    objectEntries 9 "\x7b\"a\":1,\"a\":2\x7d".toList 0
      = .ok ([("a".toList, .INTEGER 1), ("a".toList, .INTEGER 2)], 13) ∧
    objectEntries 9 "\x7b\"a\":2,\"a\":1\x7d".toList 0
      = .ok ([("a".toList, .INTEGER 2), ("a".toList, .INTEGER 1)], 13) ∧
    (∀ e : List Char × Value,
      e ∈ [("a".toList, Value.INTEGER 1), ("a".toList, Value.INTEGER 2)] ↔
      e ∈ [("a".toList, Value.INTEGER 2), ("a".toList, Value.INTEGER 1)]) ∧
    parseJSON "\x7b\"a\":1,\"a\":2\x7d".toList = .ok (.OBJECT [("a".toList, .INTEGER 2)]) ∧
    parseJSON "\x7b\"a\":2,\"a\":1\x7d".toList = .ok (.OBJECT [("a".toList, .INTEGER 1)]) ∧
    (Value.OBJECT [("a".toList, .INTEGER 2)]).print = "\x7b\"a\": 2\x7d".toList ∧
    (Value.OBJECT [("a".toList, .INTEGER 1)]).print = "\x7b\"a\": 1\x7d".toList ∧
    (Value.OBJECT [("a".toList, .INTEGER 2)]).print
      ≠ (Value.OBJECT [("a".toList, .INTEGER 1)]).print := by
  refine ⟨rfl, rfl, ?_, rfl, rfl, rfl, rfl, by decide⟩
  intro e
  simp only [List.mem_cons, List.not_mem_nil, or_false]
  exact or_comm

/-- C17 (amended): the Object that `parseObject` returns holds its keys in strictly
ascending order of `std::string::operator<`, none of them twice, whatever the order of
the entries in the text; and two object texts with the same set of entries, in which no
key carries two different values, give the same Object and so the same printed text. -/
theorem object_key_order_canonical :
    (∀ (fuel : Nat) (json : List Char) (pos : Nat) (obj : List (List Char × Value))
      (pos' : Nat), parseObject fuel json pos = .ok (obj, pos') →
      keysAscending obj ∧ (obj.map Prod.fst).Nodup) ∧
    (∀ (fuel1 fuel2 : Nat) (json1 json2 : List Char) (pos1 pos2 : Nat)
      (obj1 obj2 entries1 entries2 : List (List Char × Value)) (end1 end2 : Nat),
      parseObject fuel1 json1 pos1 = .ok (obj1, end1) →
      parseObject fuel2 json2 pos2 = .ok (obj2, end2) →
      objectEntries fuel1 json1 pos1 = .ok (entries1, end1) →
      objectEntries fuel2 json2 pos2 = .ok (entries2, end2) →
      (∀ k v w, (k, v) ∈ entries1 → (k, w) ∈ entries1 → v = w) →
      (∀ e, e ∈ entries1 ↔ e ∈ entries2) →
      obj1 = obj2 ∧ (Value.OBJECT obj1).print = (Value.OBJECT obj2).print) := by
  constructor
  · intro fuel json pos obj pos' h
    have hasc := keysAscending_parseObject h
    refine ⟨hasc, ?_⟩
    unfold keysAscending at hasc
    rw [List.Nodup, List.pairwise_map]
    exact hasc.imp (fun hlt => ne_of_stringLt hlt)
  · intro fuel1 fuel2 json1 json2 pos1 pos2 obj1 obj2 es1 es2 end1 end2 h1 h2 he1 he2
      hfun hsame
    have a1 := keysAscending_parseObject h1
    have a2 := keysAscending_parseObject h2
    obtain ⟨e1, _⟩ := parseObject_storeAll h1 he1
    obtain ⟨e2, _⟩ := parseObject_storeAll h2 he2
    have hfun2 : ∀ k v w, (k, v) ∈ es2 → (k, w) ∈ es2 → v = w :=
      fun k v w hv hw => hfun k v w ((hsame _).mpr hv) ((hsame _).mpr hw)
    have hobj : obj1 = obj2 := by
      apply eq_of_keysAscending a1 a2
      rintro ⟨k, v⟩
      rw [e1, e2, mem_storeAll es1 [] List.Pairwise.nil, mem_storeAll es2 [] List.Pairwise.nil]
      simp only [List.not_mem_nil, and_false, or_false]
      rw [lastEntry_eq_some_iff hfun, lastEntry_eq_some_iff hfun2]
      exact hsame _
    exact ⟨hobj, by rw [hobj]⟩

/-- Witness for C17 (amended): the same two entries in either order give the same Object,
with `a` before `b`, and the same printed text. -/
theorem object_key_order_canonical_witness :
    parseObject 9 "\x7b\"b\":2,\"a\":1\x7d".toList 0
      = .ok ([("a".toList, .INTEGER 1), ("b".toList, .INTEGER 2)], 13) ∧
    parseObject 9 "\x7b\"a\":1,\"b\":2\x7d".toList 0
      = .ok ([("a".toList, .INTEGER 1), ("b".toList, .INTEGER 2)], 13) ∧
    keysAscending [("a".toList, Value.INTEGER 1), ("b".toList, Value.INTEGER 2)] ∧
    (Value.OBJECT [("a".toList, .INTEGER 1), ("b".toList, .INTEGER 2)]).print
      = (Value.OBJECT [("a".toList, .INTEGER 1), ("b".toList, .INTEGER 2)]).print ∧
    (Value.OBJECT [("a".toList, .INTEGER 1), ("b".toList, .INTEGER 2)]).print
      = "\x7b\"a\": 1, \"b\": 2\x7d".toList := by
  refine ⟨rfl, rfl,
    (object_key_order_canonical.1 9 "\x7b\"b\":2,\"a\":1\x7d".toList 0 _ 13 rfl).1,
    (object_key_order_canonical.2 9 9 "\x7b\"b\":2,\"a\":1\x7d".toList
      "\x7b\"a\":1,\"b\":2\x7d".toList 0 0 _ _
      [("b".toList, .INTEGER 2), ("a".toList, .INTEGER 1)]
      [("a".toList, .INTEGER 1), ("b".toList, .INTEGER 2)] 13 13 rfl rfl rfl rfl ?_ ?_).2,
    rfl⟩
  · intro k v w hv hw
    simp only [List.mem_cons, Prod.mk.injEq, List.not_mem_nil, or_false] at hv hw
    rcases hv with ⟨h1, rfl⟩ | ⟨h1, rfl⟩ <;> rcases hw with ⟨h2, rfl⟩ | ⟨h2, rfl⟩
    · rfl
    · rw [h1] at h2; exact absurd h2 (by decide)
    · rw [h1] at h2; exact absurd h2 (by decide)
    · rfl
  · intro e
    simp only [List.mem_cons, List.not_mem_nil, or_false]
    exact or_comm

/-- C18: after the unterminated string of `["abc` the cursor is 6, one past the
terminator of the 5-character text, and `parseArray` reads `json[6]`; the object texts
with an unterminated key or value read past the terminator in the same way. -/
theorem read_past_terminator :
    "[\"abc".toList.length = 5 ∧
    parseValue 1 "[\"abc".toList 1 = .ok (.STRING "abc".toList, 6) ∧
    charAt "[\"abc".toList 6 = none ∧
    parseJSON "[\"abc".toList = .error .readPastEnd ∧
    parseJSON "\x7b\"a".toList = .error .readPastEnd ∧
    parseJSON "\x7b\"a\":\"b".toList = .error .readPastEnd :=
  ⟨rfl, rfl, rfl, rfl, rfl, rfl⟩

/-- C19: a successful `parseValue`, `parseObject` or `parseArray` ends with the cursor
strictly behind the cursor it started at; each round of the object loop and of the array
loop that runs to its end leaves the cursor strictly behind where the round began; and
`parseJSON` terminates: the fuel `3 * size + 6` of the embedding is never used up, and
every larger fuel gives the same result. -/
theorem progress_and_termination :
    (∀ (fuel : Nat) (json : List Char) (pos : Nat) (v : Value) (pos' : Nat),
      parseValue fuel json pos = .ok (v, pos') → pos < pos') ∧
    (∀ (fuel : Nat) (json : List Char) (pos : Nat) (obj : List (List Char × Value))
      (pos' : Nat), parseObject fuel json pos = .ok (obj, pos') → pos < pos') ∧
    (∀ (fuel : Nat) (json : List Char) (pos : Nat) (arr : List Value) (pos' : Nat),
      parseArray fuel json pos = .ok (arr, pos') → pos < pos') ∧
    (∀ (fuel : Nat) (json : List Char) (pos : Nat) (key : List Char) (pos1 : Nat)
      (value : Value) (pos2 : Nat),
      parseKey json pos = .ok (key, pos1) → parseValue fuel json pos1 = .ok (value, pos2) →
      pos < skipWhitespace json pos2) ∧
    (∀ (fuel : Nat) (json : List Char) (pos : Nat) (c : Char) (value : Value) (pos2 : Nat),
      parseValue fuel json (skipWhitespace json (if c = ',' then pos + 1 else pos))
        = .ok (value, pos2) →
      pos < skipWhitespace json pos2) ∧
    (∀ json : List Char,
      parseJSON json ≠ .error .outOfFuel ∧
      ∀ fuel : Nat, parseFuel json ≤ fuel → parseValue fuel json 0 = parseJSONAt json) := by
  refine ⟨?_, ?_, ?_, ?_, ?_, ?_⟩
  · intro fuel json pos v pos' h
    exact lt_parseValue h
  · intro fuel json pos obj pos' h
    have := add_two_le_parseObject h
    omega
  · intro fuel json pos arr pos' h
    have := add_two_le_parseArray h
    omega
  · intro fuel json pos key pos1 value pos2 hk hv
    have h1 := le_parseKey hk
    have h2 := lt_parseValue hv
    have h3 := le_skipWhitespace json pos2
    omega
  · intro fuel json pos c value pos2 hv
    have h1 := le_skipWhitespace json (if c = ',' then pos + 1 else pos)
    have h2 := lt_parseValue hv
    have h3 := le_skipWhitespace json pos2
    have h4 : pos ≤ (if c = ',' then pos + 1 else pos) := by split <;> omega
    omega
  · intro json
    exact ⟨(parseJSON_ne_outOfFuel json).2, fun fuel h => parseValue_eq_parseJSONAt json h⟩

/-- Witness for C19: the value `[1, 2]` read from cursor 0 ends at cursor 6. -/
theorem progress_and_termination_witness :
    parseValue 6 "[1, 2]".toList 0 = .ok (.ARRAY [.INTEGER 1, .INTEGER 2], 6) ∧ 0 < 6 :=
  ⟨rfl, progress_and_termination.1 6 "[1, 2]".toList 0 _ 6 rfl⟩

end Answer1

namespace Answer2

/-- C20: with the payee account missing and the API call succeeding, `transfer` throws
"Account not found." out of `credit` after the debit was applied; the rollback is never
reached and the payer keeps the reduced balance 950. -/
theorem transfer_not_atomic :
    BankDatabase.init.getBalance "A123" = .ok 1000 ∧
    transfer BankDatabase.init "A123" "C789" 50 true
      = (.error .accountNotFound, ⟨[("A123", 950), ("B456", 200)]⟩) ∧
    (transfer BankDatabase.init "A123" "C789" 50 true).2.getBalance "A123" = .ok 950 ∧
    (transfer BankDatabase.init "A123" "C789" 50 true).2 ≠ BankDatabase.init := by
  refine ⟨rfl, rfl, rfl, by decide⟩

end Answer2
